import Mathlib

/-!
# Distributed Gauss-Jordan matrix inversion (`src/q1/q1.cpp`)

A shallow embedding of the class `MPIMatrixInverter` and of `main`.

* C++ `int` values (sizes, ranks, row and column indices) are natural numbers;
  the program never forms a negative index on a run with `size ≥ 1`, and a matrix
  large enough for `2 * n` to overflow `int` cannot be allocated.
* `double` is a type parameter `α` carrying the operations the program uses
  (`0.0`, `1.0`, `-`, `*`, `/`).  Statements about exact arithmetic instantiate it
  with `ℚ` or a commutative ring; statements about the arithmetic of the machine
  instantiate it with `F64`, IEEE 754 binary64 with rounding to nearest, ties to
  even, subnormal values, overflow to the infinities, signed zeros and NaN, or are
  parametric in an arithmetic with the IEEE 754 laws they use (`NonFiniteArith`,
  `FiniteArith`).
* `vector<vector<double>>` is `List (List α)`; reads are `getD`, writes are `set`.
* `for (int i = 0; i < k; i++)` is `forUpTo k`.
* The fields `rows_per_process`, `start_row`, `end_row` are assigned once, in the
  constructor, from `(n, rank, size)`; they are functions of these arguments.
* The processes of `MPI_COMM_WORLD` are the positions of a list of stores, the
  store of rank `r` at position `r`.  `MPI_Send` appends a message to a channel;
  a blocking `MPI_Recv` takes the first message with its `(source, destination, tag)`
  out of the channel, and a receive without a matching message yields `none`.
  `MPI_Bcast` copies the buffer of the root into the buffer of every process.
* The text written to `cout` is the list of the pieces written, one per `<<`; the
  text of a `double` under `fixed << setprecision(2)` is a parameter `fmt`.
-/

namespace MPIMatrixInverter

/-! ## Loops -/

/-- The loop `for (int i = 0; i < k; i++) s = body i s`. -/
def forUpTo {σ : Type} : Nat → (Nat → σ → σ) → σ → σ
  | 0, _, s => s
  | k + 1, body, s => body k (forUpTo k body s)

/-- The loop `for (int i = lo; i < hi; i++) s = body i s`. -/
def forFromTo {σ : Type} (lo hi : Nat) (body : Nat → σ → σ) (s : σ) : σ :=
  forUpTo (hi - lo) (fun t => body (lo + t)) s

/-! ## Workload distribution (constructor, lines 22-26) -/

/-- Line 22: `rows_per_process = n / size`. -/
def rows_per_process (n size : Nat) : Nat := n / size

/-- Line 23: `int remainder = n % size`. -/
def remainder (n size : Nat) : Nat := n % size

/-- Line 25: `start_row = rank * rows_per_process + min(rank, remainder)`. -/
def start_row (n rank size : Nat) : Nat :=
  rank * rows_per_process n size + min rank (remainder n size)

/-- Line 26: `end_row = start_row + rows_per_process + (rank < remainder ? 1 : 0)`. -/
def end_row (n rank size : Nat) : Nat :=
  start_row n rank size + rows_per_process n size + (if rank < remainder n size then 1 else 0)

/-- The loop of `findPivotOwner` (lines 108-114) with `fuel` iterations left, at
process `proc` with `cumulative_rows = cum`.  `some proc` is `return proc;` inside
the loop, `none` is leaving the loop without returning. -/
def findPivotOwnerLoop (n size pivot_col : Nat) : Nat → Nat → Nat → Option Nat
  | 0, _, _ => none
  | fuel + 1, proc, cum =>
    let proc_rows := rows_per_process n size + (if proc < n % size then 1 else 0)
    if pivot_col < cum + proc_rows then some proc
    else findPivotOwnerLoop n size pivot_col fuel (proc + 1) (cum + proc_rows)

/-- Lines 105-116: `findPivotOwner`; after the loop comes `return 0;`. -/
def findPivotOwner (n size pivot_col : Nat) : Nat :=
  (findPivotOwnerLoop n size pivot_col size 0 0).getD 0

/-! ## Row store -/

/-- The read `augmented[i][j]`. -/
def readAt {α : Type} [Zero α] (aug : List (List α)) (i j : Nat) : α :=
  (aug.getD i []).getD j 0

/-- The assignment `augmented[i][j] = v`. -/
def writeAt {α : Type} (aug : List (List α)) (i j : Nat) (v : α) : List (List α) :=
  aug.set i ((aug.getD i []).set j v)

/-- Lines 29-35 of the constructor: rank 0 allocates `n` zero rows of `2 * n`
columns, every other rank `end_row - start_row` of them. -/
def ctor {α : Type} [Zero α] (matrix_size proc_rank proc_size : Nat) : List (List α) :=
  if proc_rank = 0 then
    List.replicate matrix_size (List.replicate (2 * matrix_size) 0)
  else
    List.replicate
      (end_row matrix_size proc_rank proc_size - start_row matrix_size proc_rank proc_size)
      (List.replicate (2 * matrix_size) 0)

/-! ## Reading the input (lines 38-49) -/

/-- The extraction `cin >> x`: the next value of the stream, and the rest of the
stream; at the end of the stream `x` keeps its value. -/
def cinRead {α : Type} (cin : List α) (old : α) : α × List α :=
  match cin with
  | [] => (old, [])
  | v :: rest => (v, rest)

/-- Lines 38-49: `readMatrix`, on the pair (input stream, `augmented`). -/
def readMatrix {α : Type} [Zero α] [One α] (n rank : Nat) (cin : List α)
    (aug : List (List α)) : List α × List (List α) :=
  if rank = 0 then
    forUpTo n (fun i st =>
      let st1 := forUpTo n (fun j (st : List α × List (List α)) =>
        let r := cinRead st.1 (readAt st.2 i j)
        (r.2, writeAt st.2 i j r.1)) st
      (st1.1, writeAt st1.2 i (n + i) 1)) (cin, aug)
  else (cin, aug)

/-! ## Point-to-point transfers -/

/-- A message in flight: sender, receiver, tag and the `2 * n` values sent. -/
structure Message (α : Type) where
  source : Nat
  dest : Nat
  tag : Nat
  data : List α

/-- The call `MPI_Send(&augmented[i][0], 2 * n, MPI_DOUBLE, dest, tag, MPI_COMM_WORLD)`
made by rank `source`. -/
def mpiSend {α : Type} (n source dest tag : Nat) (aug : List (List α)) (i : Nat)
    (chan : List (Message α)) : List (Message α) :=
  chan ++ [⟨source, dest, tag, (aug.getD i []).take (2 * n)⟩]

/-- The call `MPI_Recv(&augmented[i][0], 2 * n, MPI_DOUBLE, source, tag, ...)` made by
rank `dest`: the first message of the channel with this source, destination and tag
is taken out of the channel and overwrites the first `2 * n` values of row `i`;
without such a message the call never returns. -/
def mpiRecv {α : Type} (n source dest tag : Nat) (chan : List (Message α))
    (aug : List (List α)) (i : Nat) : Option (List (Message α) × List (List α)) :=
  match chan.find? (fun m => m.source == source && m.dest == dest && m.tag == tag) with
  | none => none
  | some m =>
    some (chan.eraseP (fun m => m.source == source && m.dest == dest && m.tag == tag),
      aug.set i (m.data.take (2 * n) ++ (aug.getD i []).drop (2 * n)))

/-- The results of all ranks, when every rank returns. -/
def collect {σ : Type} : List (Option σ) → Option (List σ)
  | [] => some []
  | none :: _ => none
  | some x :: rest => (collect rest).map (fun xs => x :: xs)

/-- The call `augmented[i].resize(2 * n)`. -/
def resizeRow {α : Type} [Zero α] (n : Nat) (aug : List (List α)) (i : Nat) : List (List α) :=
  aug.set i ((aug.getD i []).take (2 * n) ++ List.replicate (2 * n - (aug.getD i []).length) 0)

/-- Lines 52-61: the sends of rank 0 in `distributeMatrix`. -/
def distributeSends {α : Type} (n size : Nat) (aug : List (List α)) : List (Message α) :=
  forFromTo 1 size (fun proc chan =>
    let proc_start := proc * rows_per_process n size + min proc (n % size)
    let proc_end := proc_start + rows_per_process n size + (if proc < n % size then 1 else 0)
    forFromTo proc_start proc_end (fun i chan => mpiSend n 0 proc i aug i chan) chan) []

/-- Lines 62-68: the receives of a rank other than 0 in `distributeMatrix`, from the
channel `chan`. -/
def distributeRecvs {α : Type} [Zero α] (n rank size : Nat) (chan : List (Message α))
    (aug : List (List α)) : Option (List (List α)) :=
  (forUpTo (end_row n rank size - start_row n rank size) (fun i st =>
    st.bind (fun (st : List (Message α) × List (List α)) =>
      mpiRecv n 0 rank (start_row n rank size + i) st.1 (resizeRow n st.2 i) i))
    (some (chan, aug))).map (fun st => st.2)

/-- Lines 51-69: `distributeMatrix` executed by all `size` ranks. -/
def distributeMatrix {α : Type} [Zero α] (n size : Nat) (world : List (List (List α))) :
    Option (List (List (List α))) :=
  let chan := distributeSends n size (world.getD 0 [])
  collect ((List.range size).map (fun rank =>
    if rank = 0 then some (world.getD 0 [])
    else distributeRecvs n rank size chan (world.getD rank [])))

/-! ## Elimination (lines 71-103) -/

/-- The state of one process inside `gaussJordanElimination`: its `augmented` and
its local buffer `pivot_row`. -/
structure ProcState (α : Type) where
  augmented : List (List α)
  pivot_row : List α

instance {α : Type} : Inhabited (ProcState α) := ⟨⟨[], []⟩⟩

/-- Lines 75-87: the pivot owner divides its row by the pivot and copies it to
`pivot_row`. -/
def normalizeStep {α : Type} [Zero α] [Div α] (n rank size pivot_col : Nat)
    (s : ProcState α) : ProcState α :=
  let pivot_owner := findPivotOwner n size pivot_col
  if rank = pivot_owner then
    let local_row := pivot_col - start_row n rank size
    let pivot := readAt s.augmented local_row pivot_col
    forUpTo (2 * n) (fun j s =>
      let aug := writeAt s.augmented local_row j (readAt s.augmented local_row j / pivot)
      { augmented := aug, pivot_row := s.pivot_row.set j (readAt aug local_row j) }) s
  else s

/-- Line 90: `MPI_Bcast(&pivot_row[0], 2 * n, MPI_DOUBLE, pivot_owner, MPI_COMM_WORLD)`;
the first `2 * n` values of the buffer of the root replace those of every process. -/
def bcastStep {α : Type} (n size pivot_col : Nat) (world : List (ProcState α))
    (s : ProcState α) : ProcState α :=
  let pivot_owner := findPivotOwner n size pivot_col
  { s with pivot_row :=
      ((world.getD pivot_owner default).pivot_row).take (2 * n) ++ s.pivot_row.drop (2 * n) }

/-- Lines 93-101: every process eliminates column `pivot_col` from its own rows. -/
def eliminateStep {α : Type} [Zero α] [Sub α] [Mul α] (n rank size pivot_col : Nat)
    (s : ProcState α) : ProcState α :=
  { s with augmented :=
      forUpTo (end_row n rank size - start_row n rank size) (fun i aug =>
        let global_row := start_row n rank size + i
        if global_row ≠ pivot_col then
          let factor := readAt aug i pivot_col
          forUpTo (2 * n) (fun j aug =>
            writeAt aug i j (readAt aug i j - factor * s.pivot_row.getD j 0)) aug
        else aug) s.augmented }

/-- One iteration of the loop of line 74, executed by all `size` ranks. -/
def gaussJordanRound {α : Type} [Zero α] [Sub α] [Mul α] [Div α] (n size pivot_col : Nat)
    (world : List (ProcState α)) : List (ProcState α) :=
  let w1 := (List.range size).map (fun rank =>
    normalizeStep n rank size pivot_col (world.getD rank default))
  let w2 := w1.map (bcastStep n size pivot_col w1)
  (List.range size).map (fun rank =>
    eliminateStep n rank size pivot_col (w2.getD rank default))

/-- Line 72: `vector<double> pivot_row(2 * n)` on every rank. -/
def enterElimination {α : Type} [Zero α] (n size : Nat) (world : List (List (List α))) :
    List (ProcState α) :=
  (List.range size).map (fun rank => ⟨world.getD rank [], List.replicate (2 * n) 0⟩)

/-- The processes after `k` iterations of the loop of line 74. -/
def roundsUpTo {α : Type} [Zero α] [Sub α] [Mul α] [Div α] (n size k : Nat)
    (world : List (List (List α))) : List (ProcState α) :=
  forUpTo k (fun pivot_col w => gaussJordanRound n size pivot_col w) (enterElimination n size world)

/-- Lines 71-103: `gaussJordanElimination` executed by all `size` ranks. -/
def gaussJordanElimination {α : Type} [Zero α] [Sub α] [Mul α] [Div α] (n size : Nat)
    (world : List (List (List α))) : List (List (List α)) :=
  (roundsUpTo n size n world).map (fun s => s.augmented)

/-! ## Gathering (lines 118-135) -/

/-- Lines 129-134: the sends of a rank other than 0 in `gatherResult`. -/
def gatherSends {α : Type} (n rank size : Nat) (aug : List (List α)) : List (Message α) :=
  forUpTo (end_row n rank size - start_row n rank size) (fun i chan =>
    mpiSend n rank 0 (start_row n rank size + i) aug i chan) []

/-- Lines 119-128: the receives of rank 0 in `gatherResult`, from the channel `chan`. -/
def gatherRecvs {α : Type} (n size : Nat) (chan : List (Message α))
    (aug : List (List α)) : Option (List (List α)) :=
  (forFromTo 1 size (fun proc st =>
    let proc_start := proc * rows_per_process n size + min proc (n % size)
    let proc_end := proc_start + rows_per_process n size + (if proc < n % size then 1 else 0)
    forFromTo proc_start proc_end (fun i st =>
      st.bind (fun (st : List (Message α) × List (List α)) =>
        mpiRecv n proc 0 i st.1 st.2 i)) st) (some (chan, aug))).map (fun st => st.2)

/-- Lines 118-135: `gatherResult` executed by all `size` ranks. -/
def gatherResult {α : Type} (n size : Nat) (world : List (List (List α))) :
    Option (List (List (List α))) :=
  let chan := ((List.range size).map (fun rank =>
    if rank = 0 then [] else gatherSends n rank size (world.getD rank []))).flatten
  (gatherRecvs n size chan (world.getD 0 [])).map (fun aug => world.set 0 aug)

/-! ## The program (lines 153-189) -/

/-- Lines 172-175: every rank constructs its inverter and calls `readMatrix`. -/
def afterRead {α : Type} [Zero α] [One α] (n size : Nat) (cin : List α) :
    List (List (List α)) :=
  (List.range size).map (fun rank => (readMatrix n rank cin (ctor n rank size)).2)

/-- Lines 172-182 of `main` on `size` ranks, `n` being the dimension read by rank 0
and `cin` the rest of its input: the stores of all ranks after `gatherResult`. -/
def main {α : Type} [Zero α] [One α] [Sub α] [Mul α] [Div α] (n size : Nat)
    (cin : List α) : Option (List (List (List α))) :=
  (distributeMatrix n size (afterRead n size cin)).bind (fun world =>
    gatherResult n size (gaussJordanElimination n size world))

/-- The `augmented` of rank 0 when `main` reaches `printInverse`. -/
def coordinatorResult {α : Type} [Zero α] [One α] [Sub α] [Mul α] [Div α] (n size : Nat)
    (cin : List α) : Option (List (List α)) :=
  (main n size cin).map (fun world => world.getD 0 [])

/-! ## Shapes of the stores, and the matrix the ranks hold together -/

/-- A store of `m` rows of `k` columns each. -/
def Shape {α : Type} (aug : List (List α)) (m k : Nat) : Prop :=
  aug.length = m ∧ ∀ row ∈ aug, row.length = k

instance {α : Type} (aug : List (List α)) (m k : Nat) : Decidable (Shape aug m k) := by
  unfold Shape
  infer_instance

/-- The number of rows rank `rank` allocates (lines 29-35). -/
def allocatedRows (n rank size : Nat) : Nat :=
  if rank = 0 then n else end_row n rank size - start_row n rank size

/-- The stores of `size` ranks, each with the rows it allocated, of `2 * n` columns. -/
def WorldShape {α : Type} (n size : Nat) (world : List (List (List α))) : Prop :=
  world.length = size ∧
    ∀ r, r < size → Shape (world.getD r []) (allocatedRows n r size) (2 * n)

instance {α : Type} (n size : Nat) (world : List (List (List α))) :
    Decidable (WorldShape n size world) := by
  unfold WorldShape
  infer_instance

/-- Global row `g` of the matrix, as held by the rank whose range contains `g`. -/
def ownedRow {α : Type} (n size : Nat) (world : List (List (List α))) (g : Nat) : List α :=
  (world.getD (findPivotOwner n size g) []).getD (g - start_row n (findPivotOwner n size g) size) []

/-- Entry `[g][j]` of the matrix, as held by the rank whose range contains `g`. -/
def ownedEntry {α : Type} [Zero α] (n size : Nat) (world : List (List (List α)))
    (g j : Nat) : α :=
  (ownedRow n size world g).getD j 0

/-- The processes inside `gaussJordanElimination`: `size` of them, each with the rows
it allocated and a buffer `pivot_row` of `2 * n` values. -/
def ProcShape {α : Type} (n size : Nat) (world : List (ProcState α)) : Prop :=
  world.length = size ∧ ∀ r, r < size →
    Shape (world.getD r default).augmented (allocatedRows n r size) (2 * n) ∧
      (world.getD r default).pivot_row.length = 2 * n

/-- Entry `[g][j]` of the matrix inside `gaussJordanElimination`, as held by the rank
whose range contains `g`. -/
def procEntry {α : Type} [Zero α] (n size : Nat) (world : List (ProcState α)) (g j : Nat) : α :=
  readAt (world.getD (findPivotOwner n size g) default).augmented
    (g - start_row n (findPivotOwner n size g) size) j

/-- One round of Gauss-Jordan elimination on a whole matrix `M`: row `c` is divided by
its entry in column `c`, every other row `g` loses `M g c` times the divided row. -/
def pivotStep {α : Type} [Sub α] [Mul α] [Div α] (c : Nat) (M : Nat → Nat → α)
    (g j : Nat) : α :=
  if g = c then M c j / M c c else M g j - M g c * (M c j / M c c)

/-- The first `k` rounds of Gauss-Jordan elimination on a whole matrix `M`, in the
order of the loop of line 74. -/
def pivotSteps {α : Type} [Sub α] [Mul α] [Div α] (k : Nat) (M : Nat → Nat → α) :
    Nat → Nat → α :=
  forUpTo k (fun c M => pivotStep c M) M

/-- The augmented matrix `[A | I]` of the input: `A` is the `n * n` values of `cin` in
row-major order. -/
def inputMatrix {α : Type} [Zero α] [One α] (n : Nat) (cin : List α) (i j : Nat) : α :=
  if i < n ∧ j < n then cin.getD (i * n + j) 0
  else if i < n ∧ j = n + i then 1 else 0

/-- The processes at the start of round `k` of `main`, when `distributeMatrix` returns. -/
def stateAtRound {α : Type} [Zero α] [One α] [Sub α] [Mul α] [Div α] (n size : Nat)
    (cin : List α) (k : Nat) : Option (List (ProcState α)) :=
  (distributeMatrix n size (afterRead n size cin)).map (fun world => roundsUpTo n size k world)

/-- The value `pivot` that the owner of row `c` reads at line 80 in round `c` of `main`. -/
def pivotValue {α : Type} [Zero α] [One α] [Sub α] [Mul α] [Div α] (n size : Nat)
    (cin : List α) (c : Nat) : Option α :=
  (stateAtRound n size cin c).map (fun world =>
    readAt (world.getD (findPivotOwner n size c) default).augmented
      (c - start_row n (findPivotOwner n size c) size) c)

/-- The `n * n` entries of the identity matrix in row-major order, as input. -/
def identityInput (n : Nat) : List ℚ :=
  (List.range (n * n)).map (fun k => if k / n = k % n then 1 else 0)

instance {α : Type} (n size : Nat) (world : List (ProcState α)) :
    Decidable (ProcShape n size world) := by
  unfold ProcShape
  infer_instance

/-! ## Non-finite values of `double` -/

/-- The facts about IEEE 754 arithmetic on which the spreading of non-finite values
rests.  `isZero x` reads "`x` is a zero", `nonFinite x` reads "`x` is an infinity or a
NaN": a division by a zero is non-finite, a quotient with a non-finite dividend is
non-finite, a product or a difference with a non-finite second operand is non-finite. -/
structure NonFiniteArith (α : Type) [Sub α] [Mul α] [Div α]
    (isZero nonFinite : α → Prop) : Prop where
  div_zero : ∀ x y : α, isZero y → nonFinite (x / y)
  div_nonFinite : ∀ x y : α, nonFinite x → nonFinite (x / y)
  mul_nonFinite : ∀ x y : α, nonFinite y → nonFinite (x * y)
  sub_nonFinite : ∀ x y : α, nonFinite y → nonFinite (x - y)

/-- A `double` without rounding: a finite value, an infinity with its sign, or a NaN.
The sign of a zero is not represented. -/
inductive Dbl where
  | finite (q : ℚ)
  | inf (negative : Bool)
  | nan

/-- Subtraction of IEEE 754 on `Dbl`. -/
def Dbl.sub : Dbl → Dbl → Dbl
  | .finite a, .finite b => .finite (a - b)
  | .finite _, .inf s => .inf (!s)
  | .inf s, .finite _ => .inf s
  | .inf s, .inf t => if s = t then .nan else .inf s
  | .nan, _ => .nan
  | _, .nan => .nan

/-- Multiplication of IEEE 754 on `Dbl`. -/
def Dbl.mul : Dbl → Dbl → Dbl
  | .finite a, .finite b => .finite (a * b)
  | .finite a, .inf s => if a = 0 then .nan else .inf (xor s (decide (a < 0)))
  | .inf s, .finite b => if b = 0 then .nan else .inf (xor s (decide (b < 0)))
  | .inf s, .inf t => .inf (xor s t)
  | .nan, _ => .nan
  | _, .nan => .nan

/-- Division of IEEE 754 on `Dbl`: a nonzero value over zero is an infinity, zero over
zero is a NaN. -/
def Dbl.div : Dbl → Dbl → Dbl
  | .finite a, .finite b =>
    if b = 0 then (if a = 0 then .nan else .inf (decide (a < 0))) else .finite (a / b)
  | .finite _, .inf _ => .finite 0
  | .inf s, .finite b => .inf (xor s (decide (b < 0)))
  | .inf _, .inf _ => .nan
  | .nan, _ => .nan
  | _, .nan => .nan

instance : Zero Dbl := ⟨.finite 0⟩
instance : One Dbl := ⟨.finite 1⟩
instance : Sub Dbl := ⟨Dbl.sub⟩
instance : Mul Dbl := ⟨Dbl.mul⟩
instance : Div Dbl := ⟨Dbl.div⟩

/-- An infinity or a NaN. -/
def Dbl.nonFinite : Dbl → Prop
  | .finite _ => False
  | _ => True

/-! ## Output (lines 137-150) -/

/-- Lines 137-150: `printInverse`, as the list of the pieces of text it writes to
`cout`, one per `<<`.  `fmt` is the text of a `double` under the flags set by
`cout << fixed << setprecision(2)`; `endl` writes a newline. -/
def printInverse {α : Type} [Zero α] (fmt : α → String) (n rank : Nat)
    (aug : List (List α)) : List String :=
  if rank = 0 then
    forUpTo n (fun i out =>
      let out1 := forFromTo n (2 * n) (fun j out =>
        let out2 := out ++ [fmt (readAt aug i j)]
        if j < 2 * n - 1 then out2 ++ [" "] else out2) out
      out1 ++ ["\n"]) []
  else []

/-! ## IEEE 754 binary64 arithmetic -/

/-- The power `2 ^ k`, computed with exponents up to 256. -/
def pow2 (k : Nat) : Nat := (2 ^ 256) ^ (k / 256) * 2 ^ (k % 256)

/-- The largest `k` with `2 ^ k ≤ n`, for `1 ≤ n < 2 ^ 4096`; `0` for `n = 0`. -/
def log2Floor (n : Nat) : Nat :=
  [2048, 1024, 512, 256, 128, 64, 32, 16, 8, 4, 2, 1].foldl
    (fun k b => if pow2 (k + b) ≤ n then k + b else k) 0

/-- The integer `⌊log₂ (n / d)⌋`, for `n, d ≥ 1`. -/
def log2Ratio (n d : Nat) : Int :=
  let l : Int := (log2Floor n : Int) - (log2Floor d : Int)
  if 0 ≤ l then (if d * pow2 l.toNat ≤ n then l else l - 1)
  else (if d ≤ n * pow2 (-l).toNat then l else l - 1)

/-- A `double` of IEEE 754 binary64: the finite value `(-1) ^ neg * m * 2 ^ e`, an
infinity with its sign, or a NaN.  The operations below return finite values with `m`
odd, or with `m = 0` and `e = 0` (a zero with its sign). -/
inductive F64 where
  | finite (neg : Bool) (m : Nat) (e : Int)
  | inf (neg : Bool)
  | nan
  deriving DecidableEq

/-- The finite value `(-1) ^ neg * m * 2 ^ e`, `0 < m < 2 ^ 64`, with the trailing zero
bits of `m` moved into the exponent. -/
def F64.normal (neg : Bool) (m : Nat) (e : Int) : F64 :=
  .finite neg (m / Nat.gcd m (2 ^ 64)) (e + (log2Floor (Nat.gcd m (2 ^ 64)) : Int))

/-- The `double` nearest to `(-1) ^ neg * (n / d) * 2 ^ s`, ties to the even mantissa:
53 bits of mantissa, least exponent of a normal value `-1022` (below it the values are
spaced by `2 ^ (-1074)`), overflow to infinity from `2 ^ 1024` on. -/
def F64.round (neg : Bool) (n d : Nat) (s : Int) : F64 :=
  if n = 0 then .finite neg 0 0
  else
    let E := log2Ratio n d + s
    if 1024 ≤ E then .inf neg
    else
      let q := max E (-1022) - 52
      let t := s - q
      let N := if 0 ≤ t then n * pow2 t.toNat else n
      let D := if 0 ≤ t then d else d * pow2 (-t).toNat
      let quot := N / D
      let rem := N % D
      let M := if D < 2 * rem ∨ (2 * rem = D ∧ quot % 2 = 1) then quot + 1 else quot
      if M = 0 then .finite neg 0 0
      else if pow2 (1024 - q).toNat ≤ M then .inf neg
      else F64.normal neg M q

/-- Addition of IEEE 754, rounding to nearest: an exact sum zero is `+0`, unless both
terms are `-0`. -/
def F64.add : F64 → F64 → F64
  | .nan, _ => .nan
  | _, .nan => .nan
  | .inf a, .inf b => if a = b then .inf a else .nan
  | .inf a, .finite _ _ _ => .inf a
  | .finite _ _ _, .inf b => .inf b
  | .finite a m e, .finite b k f =>
    let x : Int := (if a then -1 else 1) * ((m * pow2 (e - min e f).toNat : Nat) : Int)
    let y : Int := (if b then -1 else 1) * ((k * pow2 (f - min e f).toNat : Nat) : Int)
    if x + y = 0 then .finite (a && b) 0 0
    else F64.round (decide (x + y < 0)) (x + y).natAbs 1 (min e f)

/-- The opposite value. -/
def F64.neg : F64 → F64
  | .finite a m e => .finite (!a) m e
  | .inf a => .inf (!a)
  | .nan => .nan

/-- Subtraction of IEEE 754: `x - y` is `x + (-y)`. -/
def F64.sub (x y : F64) : F64 := F64.add x (F64.neg y)

/-- Multiplication of IEEE 754. -/
def F64.mul : F64 → F64 → F64
  | .nan, _ => .nan
  | _, .nan => .nan
  | .inf a, .inf b => .inf (xor a b)
  | .inf a, .finite b k _ => if k = 0 then .nan else .inf (xor a b)
  | .finite a m _, .inf b => if m = 0 then .nan else .inf (xor a b)
  | .finite a m e, .finite b k f => F64.round (xor a b) (m * k) 1 (e + f)

/-- Division of IEEE 754. -/
def F64.div : F64 → F64 → F64
  | .nan, _ => .nan
  | _, .nan => .nan
  | .inf _, .inf _ => .nan
  | .inf a, .finite b _ _ => .inf (xor a b)
  | .finite a _ _, .inf b => .finite (xor a b) 0 0
  | .finite a m e, .finite b k f =>
    if k = 0 then (if m = 0 then .nan else .inf (xor a b))
    else F64.round (xor a b) m k (e - f)

instance : Zero F64 := ⟨.finite false 0 0⟩
instance : One F64 := ⟨.finite false 1 0⟩
instance : Sub F64 := ⟨F64.sub⟩
instance : Mul F64 := ⟨F64.mul⟩
instance : Div F64 := ⟨F64.div⟩

/-- The real value of a finite `double`, as a rational; `0` for an infinity or a NaN. -/
def F64.toRat : F64 → ℚ
  | .finite neg m e => (if neg then -1 else 1) * (m : ℚ) * (2 : ℚ) ^ e
  | _ => 0

/-- A zero, `+0` or `-0`. -/
def F64.isZero : F64 → Bool
  | .finite _ m e => decide (m = 0 ∧ e = 0)
  | _ => false

/-- A finite `double`: a zero, or `m * 2 ^ e` with `m` odd, at most 53 bits in `m`, at
least `2 ^ (-1074)` as spacing and a value below `2 ^ 1024`.  An infinity and a NaN are
not finite. -/
def F64.isFinite : F64 → Bool
  | .finite _ m e =>
    decide ((m = 0 ∧ e = 0) ∨
      (m % 2 = 1 ∧ m < 2 ^ 53 ∧ -1074 ≤ e ∧ e + (log2Floor m : Int) ≤ 1023))
  | _ => false

/-! ## Arithmetic laws of finite values -/

/-- Facts about IEEE 754 arithmetic on finite values.  `isZero x` reads "`x` is `+0` or
`-0`", `nonFinite x` reads "`x` is an infinity or a NaN".  A finite nonzero value
divided by itself is `1.0`; a finite value times `1.0` is itself; a finite value minus
itself is a zero; a zero divided by a finite nonzero value is a zero; a finite value
times a zero is a zero; `1.0` minus a zero is `1.0`; a zero minus a zero is a zero. -/
structure FiniteArith (α : Type) [One α] [Sub α] [Mul α] [Div α]
    (isZero nonFinite : α → Prop) : Prop where
  div_self : ∀ p : α, ¬ nonFinite p → ¬ isZero p → p / p = 1
  mul_one : ∀ x : α, ¬ nonFinite x → x * 1 = x
  sub_self : ∀ x : α, ¬ nonFinite x → isZero (x - x)
  zero_div : ∀ x p : α, isZero x → ¬ nonFinite p → ¬ isZero p → isZero (x / p)
  mul_zero : ∀ f y : α, ¬ nonFinite f → isZero y → isZero (f * y)
  one_sub_zero : ∀ y : α, isZero y → (1 : α) - y = 1
  zero_sub_zero : ∀ x y : α, isZero x → isZero y → isZero (x - y)

/-! ## Arithmetic of the partition -/

theorem start_row_zero (n w : Nat) : start_row n 0 w = 0 := by
  simp [start_row]

theorem end_row_eq_start_row_succ (n r w : Nat) :
    end_row n r w = start_row n (r + 1) w := by
  unfold end_row start_row
  rw [Nat.succ_mul]
  split <;> omega

theorem start_row_le_end_row (n r w : Nat) : start_row n r w ≤ end_row n r w := by
  unfold end_row
  omega

theorem start_row_mono (n w : Nat) {r s : Nat} (h : r ≤ s) :
    start_row n r w ≤ start_row n s w := by
  induction s with
  | zero =>
    have : r = 0 := by omega
    subst this
    exact Nat.le_refl _
  | succ s ih =>
    rcases Nat.lt_or_ge r (s + 1) with h1 | h1
    · have h2 := ih (by omega)
      have h3 := start_row_le_end_row n s w
      rw [end_row_eq_start_row_succ] at h3
      omega
    · have : r = s + 1 := by omega
      subst this
      exact Nat.le_refl _

theorem start_row_size (n w : Nat) (hw : 1 ≤ w) : start_row n w w = n := by
  unfold start_row rows_per_process remainder
  have h1 := Nat.div_add_mod n w
  have h2 : n % w < w := Nat.mod_lt _ hw
  rw [Nat.min_eq_right (Nat.le_of_lt h2)]
  omega

theorem end_row_last (n w : Nat) (hw : 1 ≤ w) : end_row n (w - 1) w = n := by
  rw [end_row_eq_start_row_succ]
  have : w - 1 + 1 = w := by omega
  rw [this, start_row_size n w hw]

theorem end_row_le (n w r : Nat) (hr : r < w) : end_row n r w ≤ n := by
  rw [end_row_eq_start_row_succ]
  have h := start_row_mono n w (show r + 1 ≤ w by omega)
  rw [start_row_size n w (by omega)] at h
  exact h

/-- Two workers whose ranges contain the same row are the same worker. -/
theorem owner_unique (n w g : Nat) {r s : Nat}
    (hr : start_row n r w ≤ g ∧ g < end_row n r w)
    (hs : start_row n s w ≤ g ∧ g < end_row n s w) : r = s := by
  rcases Nat.lt_trichotomy r s with h | h | h
  · have h1 := start_row_mono n w (show r + 1 ≤ s by omega)
    rw [← end_row_eq_start_row_succ] at h1
    omega
  · exact h
  · have h1 := start_row_mono n w (show s + 1 ≤ r by omega)
    rw [← end_row_eq_start_row_succ] at h1
    omega

theorem findPivotOwnerLoop_spec (n w c : Nat) :
    ∀ fuel proc, start_row n proc w ≤ c → c < start_row n (proc + fuel) w →
      ∃ r, findPivotOwnerLoop n w c fuel proc (start_row n proc w) = some r ∧
        proc ≤ r ∧ r < proc + fuel ∧ start_row n r w ≤ c ∧ c < end_row n r w := by
  intro fuel
  induction fuel with
  | zero =>
    intro proc h1 h2
    simp at h2
    omega
  | succ fuel ih =>
    intro proc h1 h2
    have hcum : start_row n proc w + (rows_per_process n w + (if proc < n % w then 1 else 0))
        = end_row n proc w := by
      unfold end_row remainder
      omega
    unfold findPivotOwnerLoop
    simp only [hcum]
    by_cases hc : c < end_row n proc w
    · rw [if_pos hc]
      exact ⟨proc, rfl, Nat.le_refl _, by omega, h1, hc⟩
    · rw [if_neg hc, end_row_eq_start_row_succ]
      have h3 : start_row n (proc + 1) w ≤ c := by
        rw [← end_row_eq_start_row_succ]
        omega
      have h4 : c < start_row n (proc + 1 + fuel) w := by
        have : proc + 1 + fuel = proc + (fuel + 1) := by omega
        rw [this]
        exact h2
      obtain ⟨r, e1, e2, e3, e4, e5⟩ := ih (proc + 1) h3 h4
      exact ⟨r, e1, by omega, by omega, e4, e5⟩

/-- For a row `c < n` the loop of `findPivotOwner` returns from inside the loop,
with the worker whose range holds `c`. -/
theorem findPivotOwnerLoop_some (n w c : Nat) (hw : 1 ≤ w) (hc : c < n) :
    ∃ r, findPivotOwnerLoop n w c w 0 0 = some r ∧ r < w ∧
      start_row n r w ≤ c ∧ c < end_row n r w := by
  have h := findPivotOwnerLoop_spec n w c w 0 (by simp [start_row_zero])
    (by simpa [start_row_size n w hw] using hc)
  rw [start_row_zero] at h
  obtain ⟨r, e1, _, e3, e4, e5⟩ := h
  exact ⟨r, e1, by omega, e4, e5⟩

theorem findPivotOwner_lt (n w c : Nat) (hw : 1 ≤ w) (hc : c < n) :
    findPivotOwner n w c < w := by
  obtain ⟨r, e1, e2, _, _⟩ := findPivotOwnerLoop_some n w c hw hc
  simp [findPivotOwner, e1, e2]

theorem findPivotOwner_range (n w c : Nat) (hw : 1 ≤ w) (hc : c < n) :
    start_row n (findPivotOwner n w c) w ≤ c ∧ c < end_row n (findPivotOwner n w c) w := by
  obtain ⟨r, e1, _, e3, e4⟩ := findPivotOwnerLoop_some n w c hw hc
  simp [findPivotOwner, e1, e3, e4]

theorem findPivotOwner_eq (n w c r : Nat) (hw : 1 ≤ w) (hc : c < n)
    (hr : start_row n r w ≤ c ∧ c < end_row n r w) : findPivotOwner n w c = r :=
  owner_unique n w c (findPivotOwner_range n w c hw hc) hr

/-! ## Stores -/

theorem Shape.row_length {α : Type} {aug : List (List α)} {m k : Nat} (h : Shape aug m k)
    {i : Nat} (hi : i < m) : (aug.getD i []).length = k := by
  obtain ⟨h1, h2⟩ := h
  have hi' : i < aug.length := by omega
  rw [List.getD_eq_getElem?_getD, List.getElem?_eq_getElem hi']
  exact h2 _ (List.getElem_mem hi')

theorem Shape.setRow {α : Type} {aug : List (List α)} {m k : Nat} (h : Shape aug m k)
    (i : Nat) {row : List α} (hrow : row.length = k) : Shape (aug.set i row) m k := by
  obtain ⟨h1, h2⟩ := h
  refine ⟨by simpa using h1, ?_⟩
  intro r hr
  rcases List.mem_or_eq_of_mem_set hr with h3 | h3
  · exact h2 r h3
  · rw [h3]; exact hrow

theorem getD_set {β : Type} (l : List β) (i j : Nat) (v d : β) :
    (l.set i v).getD j d = if i = j ∧ i < l.length then v else l.getD j d := by
  simp only [List.getD_eq_getElem?_getD, List.getElem?_set]
  by_cases h1 : i = j
  · subst h1
    by_cases h2 : i < l.length
    · simp [h2]
    · simp [h2, List.getElem?_eq_none (Nat.le_of_not_lt h2)]
  · simp [h1]

theorem Shape.afterWrite {α : Type} {aug : List (List α)} {m k : Nat} (h : Shape aug m k)
    (i j : Nat) (v : α) : Shape (writeAt aug i j v) m k := by
  unfold MPIMatrixInverter.writeAt
  rcases Nat.lt_or_ge i m with hi | hi
  · exact h.setRow i (by simpa using h.row_length hi)
  · have : aug.length ≤ i := by rw [h.1]; exact hi
    rw [List.set_eq_of_length_le this]
    exact h

theorem readAt_writeAt {α : Type} [Zero α] {aug : List (List α)} {m k : Nat}
    (h : Shape aug m k) (i j : Nat) (v : α) (i' j' : Nat) :
    readAt (writeAt aug i j v) i' j' =
      if i' = i ∧ j' = j ∧ i < m ∧ j < k then v else readAt aug i' j' := by
  unfold readAt MPIMatrixInverter.writeAt
  rw [getD_set]
  by_cases h1 : i = i'
  · subst h1
    by_cases h2 : i < m
    · have h3 : i < aug.length := by rw [h.1]; exact h2
      have h4 := h.row_length h2
      rw [if_pos ⟨rfl, h3⟩, getD_set, h4]
      by_cases h5 : j = j'
      · subst h5
        by_cases h6 : j < k <;> simp [h2, h6]
      · have : ¬ j' = j := fun e => h5 e.symm
        simp [h5, this]
    · have h3 : ¬ i < aug.length := by rw [h.1]; exact h2
      simp [h2, h3]
  · have : ¬ i' = i := fun e => h1 e.symm
    simp [h1, this]

theorem store_ext {α : Type} [Zero α] {a b : List (List α)} {m k : Nat}
    (ha : Shape a m k) (hb : Shape b m k)
    (h : ∀ i, i < m → ∀ j, j < k → readAt a i j = readAt b i j) : a = b := by
  apply List.ext_getElem (by rw [ha.1, hb.1])
  intro i h1 h2
  have hi : i < m := by rw [← ha.1]; exact h1
  have e1 : a.getD i [] = a[i] := by
    rw [List.getD_eq_getElem?_getD, List.getElem?_eq_getElem h1]; rfl
  have e2 : b.getD i [] = b[i] := by
    rw [List.getD_eq_getElem?_getD, List.getElem?_eq_getElem h2]; rfl
  have l1 : a[i].length = k := by rw [← e1]; exact ha.row_length hi
  have l2 : b[i].length = k := by rw [← e2]; exact hb.row_length hi
  apply List.ext_getElem (by rw [l1, l2])
  intro j h3 h4
  have hj : j < k := by rw [← l1]; exact h3
  have := h i hi j hj
  unfold readAt at this
  rw [e1, e2, List.getD_eq_getElem?_getD, List.getD_eq_getElem?_getD,
    List.getElem?_eq_getElem h3, List.getElem?_eq_getElem h4] at this
  simpa using this

theorem shape_replicate {α : Type} (m k : Nat) (v : α) :
    Shape (List.replicate m (List.replicate k v)) m k := by
  refine ⟨by simp, ?_⟩
  intro row hrow
  rw [List.eq_of_mem_replicate hrow]
  simp

theorem readAt_replicate {α : Type} [Zero α] (m k i j : Nat) :
    readAt (List.replicate m (List.replicate k (0 : α))) i j = 0 := by
  unfold readAt
  simp only [List.getD_eq_getElem?_getD, List.getElem?_replicate]
  by_cases h1 : i < m
  · by_cases h2 : j < k <;> simp [h1, h2, List.getElem?_replicate]
  · simp [h1]

/-! ## Reading the input -/

theorem cinRead_drop {α : Type} (s : List α) (k : Nat) (old : α) :
    cinRead (s.drop k) old = ((s[k]?).getD old, s.drop (k + 1)) := by
  induction s generalizing k with
  | nil => simp [cinRead]
  | cons x xs ih =>
    cases k with
    | zero => simp [cinRead]
    | succ k => simpa using ih k

/-- The inner loop of `readMatrix` (lines 42-44) on row `i`, run for `k` columns. -/
theorem readMatrix_inner {α : Type} [Zero α] (n i : Nat) (hi : i < n) (s : List α)
    (a : List (List α)) (ha : Shape a n (2 * n)) (k : Nat) (hk : k ≤ n) :
    ∃ a', forUpTo k (fun j (st : List α × List (List α)) =>
        let r := cinRead st.1 (readAt st.2 i j)
        (r.2, writeAt st.2 i j r.1)) (s, a) = (s.drop k, a') ∧ Shape a' n (2 * n) ∧
      ∀ i' j', readAt a' i' j' =
        if i' = i ∧ j' < k then (s[j']?).getD (readAt a i j') else readAt a i' j' := by
  induction k with
  | zero =>
    exact ⟨a, by simp [forUpTo], ha, by simp⟩
  | succ k ih =>
    obtain ⟨a1, e1, s1, r1⟩ := ih (by omega)
    refine ⟨writeAt a1 i k ((s[k]?).getD (readAt a1 i k)), ?_, s1.afterWrite _ _ _, ?_⟩
    · simp only [forUpTo, e1, cinRead_drop]
    · intro i' j'
      rw [readAt_writeAt s1, r1 i' j', r1 i k]
      by_cases h1 : i' = i
      · subst h1
        by_cases h2 : j' = k
        · subst h2
          simp [hi]
          omega
        · by_cases h3 : j' < k
          · simp [h2, h3, show j' < k + 1 by omega]
          · simp [h2, h3, show ¬ j' < k + 1 by omega]
      · simp [h1]

/-- The outer loop of `readMatrix` (lines 41-47), run for `k` rows. -/
theorem readMatrix_outer {α : Type} [Zero α] [One α] (n : Nat) (s : List α)
    (a : List (List α)) (ha : Shape a n (2 * n)) (k : Nat) (hk : k ≤ n) :
    ∃ a', forUpTo k (fun i st =>
        let st1 := forUpTo n (fun j (st : List α × List (List α)) =>
          let r := cinRead st.1 (readAt st.2 i j)
          (r.2, writeAt st.2 i j r.1)) st
        (st1.1, writeAt st1.2 i (n + i) 1)) (s, a) = (s.drop (k * n), a') ∧
      Shape a' n (2 * n) ∧
      ∀ i' j', readAt a' i' j' =
        if i' < k ∧ j' < n then (s[i' * n + j']?).getD (readAt a i' j')
        else if i' < k ∧ j' = n + i' then 1 else readAt a i' j' := by
  induction k with
  | zero =>
    exact ⟨a, by simp [forUpTo], ha, by simp⟩
  | succ k ih =>
    obtain ⟨a1, e1, s1, r1⟩ := ih (by omega)
    obtain ⟨a2, e2, s2, r2⟩ := readMatrix_inner n k (by omega) (s.drop (k * n)) a1 s1 n
      (Nat.le_refl _)
    refine ⟨writeAt a2 k (n + k) 1, ?_, s2.afterWrite _ _ _, ?_⟩
    · simp only [forUpTo, e1, e2, List.drop_drop]
      congr 2
      rw [Nat.succ_mul]
    · intro i' j'
      rw [readAt_writeAt s2, r2 i' j', r1 i' j', r1 k j']
      have e3 : ∀ j', (List.drop (k * n) s)[j']? = s[k * n + j']? := by
        intro j'
        rw [List.getElem?_drop]
      rw [e3]
      by_cases h1 : i' = k
      · subst h1
        by_cases h2 : j' < n
        · simp [h2, show j' ≠ n + i' by omega]
        · by_cases h3 : j' = n + i'
          · subst h3
            simp
            omega
          · simp [h2, h3]
      · by_cases h4 : i' < k
        · simp [h1, h4, show i' < k + 1 by omega]
        · simp [h1, h4, show ¬ i' < k + 1 by omega]

theorem shape_ctor {α : Type} [Zero α] (n rank size : Nat) :
    Shape (ctor n rank size : List (List α))
      (if rank = 0 then n else end_row n rank size - start_row n rank size) (2 * n) := by
  unfold ctor
  split <;> exact shape_replicate _ _ _

theorem readAt_ctor {α : Type} [Zero α] (n rank size i j : Nat) :
    readAt (ctor n rank size : List (List α)) i j = 0 := by
  unfold ctor
  split <;> exact readAt_replicate _ _ _ _

/-- What rank 0 holds after the constructor and `readMatrix`. -/
theorem readMatrix_coordinator {α : Type} [Zero α] [One α] (n size : Nat) (cin : List α) :
    Shape (readMatrix n 0 cin (ctor n 0 size)).2 n (2 * n) ∧
    ∀ i j, readAt (readMatrix n 0 cin (ctor n 0 size)).2 i j =
      if i < n ∧ j < n then cin.getD (i * n + j) 0
      else if i < n ∧ j = n + i then 1 else 0 := by
  have hs : Shape (ctor n 0 size : List (List α)) n (2 * n) := by
    simpa using @shape_ctor α _ n 0 size
  obtain ⟨a', e, s', r'⟩ := readMatrix_outer n cin (ctor n 0 size) hs n (Nat.le_refl _)
  unfold readMatrix
  rw [if_pos rfl, e]
  refine ⟨s', ?_⟩
  intro i j
  rw [r' i j]
  simp only [readAt_ctor, List.getD_eq_getElem?_getD]

theorem readMatrix_worker {α : Type} [Zero α] [One α] (n rank : Nat) (hr : rank ≠ 0)
    (cin : List α) (aug : List (List α)) : (readMatrix n rank cin aug).2 = aug := by
  unfold readMatrix
  rw [if_neg hr]

/-! ## Loops that only append, channels -/

theorem forUpTo_append {β : Type} (f : Nat → List β) (k : Nat) (init : List β) :
    forUpTo k (fun i chan => chan ++ f i) init = init ++ ((List.range k).map f).flatten := by
  induction k with
  | zero => simp [forUpTo]
  | succ k ih => simp [forUpTo, ih, List.range_succ]

theorem proc_start_eq (n size proc : Nat) :
    proc * rows_per_process n size + min proc (n % size) = start_row n proc size := rfl

theorem proc_end_eq (n size proc : Nat) :
    start_row n proc size + rows_per_process n size
      + (if proc < n % size then 1 else 0) = end_row n proc size := rfl

theorem mem_distributeSends {α : Type} (n size : Nat) (aug : List (List α)) (m : Message α) :
    m ∈ distributeSends n size aug ↔
      ∃ proc i, 1 ≤ proc ∧ proc < size ∧ start_row n proc size ≤ i ∧
        i < end_row n proc size ∧ m = ⟨0, proc, i, (aug.getD i []).take (2 * n)⟩ := by
  unfold distributeSends forFromTo mpiSend
  simp only [proc_start_eq, proc_end_eq]
  simp only [forUpTo_append]
  simp only [List.nil_append, List.mem_flatten, List.mem_map, List.mem_range]
  constructor
  · rintro ⟨l, ⟨t, ht, rfl⟩, hm⟩
    simp only [List.mem_flatten, List.mem_map, List.mem_range] at hm
    obtain ⟨l2, ⟨i, hi, rfl⟩, hm⟩ := hm
    simp only [List.mem_singleton] at hm
    exact ⟨1 + t, start_row n (1 + t) size + i, by omega, by omega, by omega, by omega, hm⟩
  · rintro ⟨proc, i, h1, h2, h3, h4, rfl⟩
    have e1 : 1 + (proc - 1) = proc := by omega
    have e2 : start_row n proc size + (i - start_row n proc size) = i := by omega
    refine ⟨_, ⟨proc - 1, by omega, rfl⟩, ?_⟩
    simp only [List.mem_flatten, List.mem_map, List.mem_range]
    refine ⟨_, ⟨i - start_row n proc size, ?_, rfl⟩, ?_⟩
    · rw [e1]
      omega
    · simp [e1, e2]

theorem mem_gatherSends {α : Type} (n rank size : Nat) (aug : List (List α)) (m : Message α) :
    m ∈ gatherSends n rank size aug ↔
      ∃ i, i < end_row n rank size - start_row n rank size ∧
        m = ⟨rank, 0, start_row n rank size + i, (aug.getD i []).take (2 * n)⟩ := by
  unfold gatherSends mpiSend
  rw [forUpTo_append]
  simp only [List.nil_append, List.mem_flatten, List.mem_map, List.mem_range]
  constructor
  · rintro ⟨l, ⟨i, hi, rfl⟩, hm⟩
    simp only [List.mem_singleton] at hm
    exact ⟨i, hi, hm⟩
  · rintro ⟨i, hi, rfl⟩
    exact ⟨_, ⟨i, hi, rfl⟩, by simp⟩

/-- A receive returns when a matching message is in the channel; it takes the first
one out and stores the data that all matching messages carry. -/
theorem mpiRecv_of_mem {α : Type} (n source dest tag : Nat) (chan : List (Message α))
    (aug : List (List α)) (i : Nat) (d : List α)
    (hex : ∃ m ∈ chan, m.source = source ∧ m.dest = dest ∧ m.tag = tag)
    (hall : ∀ m ∈ chan, m.source = source → m.dest = dest → m.tag = tag → m.data = d) :
    mpiRecv n source dest tag chan aug i =
      some (chan.eraseP (fun m => m.source == source && m.dest == dest && m.tag == tag),
        aug.set i (d.take (2 * n) ++ (aug.getD i []).drop (2 * n))) := by
  unfold mpiRecv
  obtain ⟨m0, hm0, h1, h2, h3⟩ := hex
  cases hf : chan.find? (fun m => m.source == source && m.dest == dest && m.tag == tag) with
  | none =>
    rw [List.find?_eq_none] at hf
    have := hf m0 hm0
    simp [h1, h2, h3] at this
  | some m =>
    have hp := List.find?_some hf
    have hm := List.mem_of_find?_eq_some hf
    simp only [Bool.and_eq_true, beq_iff_eq] at hp
    simp only [hall m hm hp.1.1 hp.1.2 hp.2]

/-- A message that a receive does not match stays in the channel. -/
theorem mem_eraseP_key {α : Type} (source dest tag : Nat) (chan : List (Message α))
    (m : Message α) (hm : m ∈ chan)
    (hne : ¬ (m.source = source ∧ m.dest = dest ∧ m.tag = tag)) :
    m ∈ chan.eraseP (fun m => m.source == source && m.dest == dest && m.tag == tag) := by
  refine (List.mem_eraseP_of_neg ?_).2 hm
  simp only [Bool.and_eq_true, beq_iff_eq]
  tauto

theorem collect_map_some {σ τ : Type} (f : τ → σ) (l : List τ) :
    collect (l.map (fun x => some (f x))) = some (l.map f) := by
  induction l with
  | nil => rfl
  | cons x xs ih => simp [collect, ih]

/-! ## Distribution and gathering -/

theorem set_getD_self {β : Type} (l : List β) (i : Nat) (d : β) : l.set i (l.getD i d) = l := by
  apply List.ext_getElem?
  intro j
  rw [List.getElem?_set]
  by_cases h1 : i = j
  · subst h1
    by_cases h2 : i < l.length
    · simp [h2, List.getD_eq_getElem?_getD, List.getElem?_eq_getElem h2]
    · simp [h2, List.getElem?_eq_none (Nat.le_of_not_lt h2)]
  · simp [h1]

theorem resizeRow_of_shape {α : Type} [Zero α] {n m : Nat} {aug : List (List α)}
    (h : Shape aug m (2 * n)) (i : Nat) : resizeRow n aug i = aug := by
  unfold resizeRow
  rcases Nat.lt_or_ge i m with hi | hi
  · have hl := h.row_length hi
    rw [List.take_of_length_le (by omega), hl, Nat.sub_self]
    simp only [List.replicate_zero, List.append_nil]
    exact set_getD_self _ _ _
  · exact List.set_eq_of_length_le (by rw [h.1]; exact hi)

theorem list_eq_map_range {β : Type} (l : List β) (m : Nat) (d : β) (f : Nat → β)
    (hl : l.length = m) (h : ∀ i, i < m → l.getD i d = f i) : l = (List.range m).map f := by
  apply List.ext_getElem (by simp [hl])
  intro i h1 h2
  have := h i (by omega)
  rw [List.getD_eq_getElem?_getD, List.getElem?_eq_getElem h1] at this
  simpa using this

theorem getD_map_range {β : Type} (m : Nat) (d : β) (f : Nat → β) (i : Nat) (hi : i < m) :
    ((List.range m).map f).getD i d = f i := by
  simp [List.getD_eq_getElem?_getD, List.getElem?_range hi]

/-- The row a receive stores when sender and receiver rows both have `2 * n` columns. -/
theorem recv_row {α : Type} (n : Nat) (src old : List α) (h1 : src.length = 2 * n)
    (h2 : old.length = 2 * n) :
    ((src.take (2 * n)).take (2 * n)) ++ old.drop (2 * n) = src := by
  rw [List.take_take, Nat.min_self, List.take_of_length_le (by omega),
    List.drop_of_length_le (by omega), List.append_nil]

/-- The receives of rank `rank ≥ 1` in `distributeMatrix` all return, and leave it
with the rows `start_row .. end_row` of rank 0, in order. -/
theorem distributeRecvs_eq {α : Type} [Zero α] (n rank size : Nat) (h1 : 1 ≤ rank)
    (h2 : rank < size) (a0 aug : List (List α)) (ha0 : Shape a0 n (2 * n))
    (haug : Shape aug (end_row n rank size - start_row n rank size) (2 * n)) :
    distributeRecvs n rank size (distributeSends n size a0) aug =
      some ((List.range (end_row n rank size - start_row n rank size)).map
        (fun i => a0.getD (start_row n rank size + i) [])) := by
  have hle := end_row_le n size rank h2
  have key : ∀ k, k ≤ end_row n rank size - start_row n rank size →
      ∃ ch a', forUpTo k (fun i st =>
          st.bind (fun (st : List (Message α) × List (List α)) =>
            mpiRecv n 0 rank (start_row n rank size + i) st.1 (resizeRow n st.2 i) i))
          (some (distributeSends n size a0, aug)) = some (ch, a') ∧
        (∀ m ∈ ch, m ∈ distributeSends n size a0) ∧
        (∀ m ∈ distributeSends n size a0,
          (m.dest = rank → start_row n rank size + k ≤ m.tag) → m ∈ ch) ∧
        Shape a' (end_row n rank size - start_row n rank size) (2 * n) ∧
        ∀ i, a'.getD i [] = if i < k then a0.getD (start_row n rank size + i) []
          else aug.getD i [] := by
    intro k
    induction k with
    | zero => intro _; exact ⟨_, aug, rfl, fun m hm => hm, fun m hm _ => hm, haug, by simp⟩
    | succ k ih =>
      intro hk
      obtain ⟨ch, a1, e1, i1, i2, s1, r1⟩ := ih (by omega)
      have hg : start_row n rank size + k < n := by omega
      have hsrc : (a0.getD (start_row n rank size + k) []).length = 2 * n := ha0.row_length hg
      have hold : (a1.getD k []).length = 2 * n := s1.row_length (by omega)
      have hrecv := mpiRecv_of_mem n 0 rank (start_row n rank size + k) ch a1 k
        ((a0.getD (start_row n rank size + k) []).take (2 * n))
        ⟨_, i2 _ ((mem_distributeSends n size a0 _).2
          ⟨rank, start_row n rank size + k, h1, h2, by omega, by omega, rfl⟩)
            (fun _ => Nat.le_refl _), rfl, rfl, rfl⟩
        (by
          intro m hm e1 e2 e3
          obtain ⟨proc, i, _, _, _, _, rfl⟩ := (mem_distributeSends n size a0 m).1 (i1 m hm)
          simp only at e2 e3
          subst e2 e3
          rfl)
      rw [recv_row n _ _ hsrc hold] at hrecv
      refine ⟨ch.eraseP (fun m => m.source == 0 && m.dest == rank &&
          m.tag == start_row n rank size + k),
        a1.set k (a0.getD (start_row n rank size + k) []), ?_, ?_, ?_, s1.setRow k hsrc, ?_⟩
      · simp only [forUpTo, e1]
        show mpiRecv n 0 rank (start_row n rank size + k) ch (resizeRow n a1 k) k = _
        rw [resizeRow_of_shape s1, hrecv]
      · intro m hm
        exact i1 m (List.mem_of_mem_eraseP hm)
      · intro m hm htag
        refine mem_eraseP_key _ _ _ _ m (i2 m hm (fun e => by have := htag e; omega)) ?_
        rintro ⟨_, e2, e3⟩
        have := htag e2
        omega
      · intro i
        rw [getD_set, r1 i, s1.1]
        by_cases h3 : k = i
        · subst h3
          simp [show k < end_row n rank size - start_row n rank size by omega]
        · by_cases h4 : i < k
          · simp [h3, h4, show i < k + 1 by omega]
          · simp [h3, h4, show ¬ i < k + 1 by omega]
  obtain ⟨ch, a', e, _, _, s, r⟩ := key _ (Nat.le_refl _)
  unfold distributeRecvs
  rw [e]
  simp only [Option.map_some']
  congr 1
  apply list_eq_map_range a' _ [] _ s.1
  intro i hi
  rw [r i, if_pos hi]

theorem WorldShape.coordinator {α : Type} {n size : Nat} {world : List (List (List α))}
    (h : WorldShape n size world) (hs : 1 ≤ size) : Shape (world.getD 0 []) n (2 * n) := by
  simpa [allocatedRows] using h.2 0 (by omega)

theorem WorldShape.worker {α : Type} {n size : Nat} {world : List (List (List α))}
    (h : WorldShape n size world) {r : Nat} (h1 : 1 ≤ r) (h2 : r < size) :
    Shape (world.getD r []) (end_row n r size - start_row n r size) (2 * n) := by
  have := h.2 r h2
  rwa [allocatedRows, if_neg (by omega)] at this

/-- All receives of `distributeMatrix` return: rank 0 keeps its store, rank `r ≥ 1`
holds the rows `start_row .. end_row` of rank 0. -/
theorem distributeMatrix_eq {α : Type} [Zero α] (n size : Nat) (world : List (List (List α)))
    (hw : WorldShape n size world) :
    distributeMatrix n size world = some ((List.range size).map (fun r =>
      if r = 0 then world.getD 0 []
      else (List.range (end_row n r size - start_row n r size)).map
        (fun i => (world.getD 0 []).getD (start_row n r size + i) []))) := by
  unfold distributeMatrix
  rw [← collect_map_some]
  show collect _ = collect _
  congr 1
  apply List.map_congr_left
  intro r hr
  have hr' := List.mem_range.mp hr
  by_cases h0 : r = 0
  · simp [h0]
  · rw [if_neg h0, if_neg h0]
    exact distributeRecvs_eq n r size (by omega) hr' _ _ (hw.coordinator (by omega))
      (hw.worker (by omega) hr')

theorem mem_gatherChannel {α : Type} (n size : Nat) (world : List (List (List α)))
    (m : Message α) :
    m ∈ ((List.range size).map (fun rank =>
        if rank = 0 then [] else gatherSends n rank size (world.getD rank []))).flatten ↔
      ∃ rank i, 1 ≤ rank ∧ rank < size ∧ i < end_row n rank size - start_row n rank size ∧
        m = ⟨rank, 0, start_row n rank size + i,
          ((world.getD rank []).getD i []).take (2 * n)⟩ := by
  simp only [List.mem_flatten, List.mem_map, List.mem_range]
  constructor
  · rintro ⟨l, ⟨rank, hr, rfl⟩, hm⟩
    by_cases h0 : rank = 0
    · simp [h0] at hm
    · rw [if_neg h0, mem_gatherSends] at hm
      obtain ⟨i, hi, rfl⟩ := hm
      exact ⟨rank, i, by omega, hr, hi, rfl⟩
  · rintro ⟨rank, i, h1, h2, h3, rfl⟩
    refine ⟨_, ⟨rank, h2, rfl⟩, ?_⟩
    rw [if_neg (by omega), mem_gatherSends]
    exact ⟨i, h3, rfl⟩

/-- The receives of rank 0 from one rank `proc` in `gatherResult` (lines 125-127),
from a channel `ch` that still holds the messages of the ranks from `proc` on. -/
theorem gatherRecvs_inner {α : Type} (n size : Nat) (world : List (List (List α)))
    (hw : WorldShape n size world) (proc : Nat) (h1 : 1 ≤ proc) (h2 : proc < size)
    (ch : List (Message α))
    (hsub : ∀ m ∈ ch, m ∈ ((List.range size).map (fun rank =>
      if rank = 0 then [] else gatherSends n rank size (world.getD rank []))).flatten)
    (hkeep : ∀ m ∈ ((List.range size).map (fun rank =>
      if rank = 0 then [] else gatherSends n rank size (world.getD rank []))).flatten,
        proc ≤ m.source → m ∈ ch)
    (a : List (List α)) (ha : Shape a n (2 * n)) (k : Nat)
    (hk : k ≤ end_row n proc size - start_row n proc size) :
    ∃ ch' a', forUpTo k (fun t st =>
        st.bind (fun (st : List (Message α) × List (List α)) =>
          mpiRecv n proc 0 (start_row n proc size + t) st.1 st.2
            (start_row n proc size + t))) (some (ch, a)) = some (ch', a') ∧
      (∀ m ∈ ch', m ∈ ((List.range size).map (fun rank =>
        if rank = 0 then [] else gatherSends n rank size (world.getD rank []))).flatten) ∧
      (∀ m ∈ ((List.range size).map (fun rank =>
        if rank = 0 then [] else gatherSends n rank size (world.getD rank []))).flatten,
          (proc < m.source ∨ (m.source = proc ∧ start_row n proc size + k ≤ m.tag)) →
            m ∈ ch') ∧
      Shape a' n (2 * n) ∧
      ∀ g, a'.getD g [] =
        if start_row n proc size ≤ g ∧ g < start_row n proc size + k
        then (world.getD proc []).getD (g - start_row n proc size) [] else a.getD g [] := by
  have hle := end_row_le n size proc h2
  induction k with
  | zero =>
    refine ⟨ch, a, rfl, hsub, ?_, ha, by intro g; rw [if_neg (by omega)]⟩
    intro m hm h
    exact hkeep m hm (by omega)
  | succ k ih =>
    obtain ⟨ch1, a1, e1, i1, i2, s1, r1⟩ := ih (by omega)
    have hsrc : ((world.getD proc []).getD k []).length = 2 * n :=
      (hw.worker h1 h2).row_length (by omega)
    have hold : (a1.getD (start_row n proc size + k) []).length = 2 * n :=
      s1.row_length (by omega)
    have hrecv := mpiRecv_of_mem n proc 0 (start_row n proc size + k) ch1
      a1 (start_row n proc size + k) (((world.getD proc []).getD k []).take (2 * n))
      ⟨_, i2 _ ((mem_gatherChannel n size world _).2 ⟨proc, k, h1, h2, by omega, rfl⟩)
        (Or.inr ⟨rfl, Nat.le_refl _⟩), rfl, rfl, rfl⟩
      (by
        intro m hm e1 e2 e3
        obtain ⟨rank, i, _, _, _, rfl⟩ := (mem_gatherChannel n size world m).1 (i1 m hm)
        simp only at e1 e3
        subst e1
        have : i = k := by omega
        subst this
        rfl)
    rw [recv_row n _ _ hsrc hold] at hrecv
    refine ⟨ch1.eraseP (fun m => m.source == proc && m.dest == 0 &&
        m.tag == start_row n proc size + k),
      a1.set (start_row n proc size + k) ((world.getD proc []).getD k []), ?_, ?_, ?_,
      s1.setRow _ hsrc, ?_⟩
    · simp only [forUpTo, e1]
      exact hrecv
    · intro m hm
      exact i1 m (List.mem_of_mem_eraseP hm)
    · intro m hm h
      refine mem_eraseP_key _ _ _ _ m (i2 m hm (by omega)) ?_
      rintro ⟨e1, _, e3⟩
      omega
    · intro g
      rw [getD_set, r1 g, s1.1]
      by_cases h3 : start_row n proc size + k = g
      · subst h3
        simp [show start_row n proc size + k < n by omega]
      · by_cases h4 : start_row n proc size ≤ g ∧ g < start_row n proc size + k
        · rw [if_neg (by omega), if_pos h4, if_pos (by omega)]
        · rw [if_neg (by omega), if_neg h4, if_neg (by omega)]

/-- The receives of rank 0 in `gatherResult` all return, and leave it with every
global row as held by its owner. -/
theorem gatherRecvs_eq {α : Type} (n size : Nat) (hs : 1 ≤ size)
    (world : List (List (List α))) (hw : WorldShape n size world) :
    gatherRecvs n size ((List.range size).map (fun rank =>
        if rank = 0 then [] else gatherSends n rank size (world.getD rank []))).flatten
      (world.getD 0 []) = some ((List.range n).map (ownedRow n size world)) := by
  have key : ∀ k, k ≤ size - 1 →
      ∃ ch a', forUpTo k (fun t st =>
          forFromTo (start_row n (1 + t) size) (end_row n (1 + t) size) (fun i st =>
            st.bind (fun (st : List (Message α) × List (List α)) =>
              mpiRecv n (1 + t) 0 i st.1 st.2 i)) st)
          (some (((List.range size).map (fun rank =>
            if rank = 0 then [] else gatherSends n rank size (world.getD rank []))).flatten,
              world.getD 0 [])) = some (ch, a') ∧
        (∀ m ∈ ch, m ∈ ((List.range size).map (fun rank =>
          if rank = 0 then [] else gatherSends n rank size (world.getD rank []))).flatten) ∧
        (∀ m ∈ ((List.range size).map (fun rank =>
          if rank = 0 then [] else gatherSends n rank size (world.getD rank []))).flatten,
            1 + k ≤ m.source → m ∈ ch) ∧
        Shape a' n (2 * n) ∧
        ∀ g, a'.getD g [] =
          if end_row n 0 size ≤ g ∧ g < start_row n (1 + k) size
          then ownedRow n size world g else (world.getD 0 []).getD g [] := by
    intro k
    induction k with
    | zero =>
      intro _
      refine ⟨_, _, rfl, fun m hm => hm, fun m hm _ => hm, hw.coordinator hs, ?_⟩
      intro g
      rw [if_neg]
      rw [end_row_eq_start_row_succ]
      simp only [Nat.zero_add, Nat.add_zero]
      omega
    | succ k ih =>
      intro hk
      obtain ⟨ch1, a1, e1, i1, i2, s1, r1⟩ := ih (by omega)
      obtain ⟨ch2, a2, e2, j1, j2, s2, r2⟩ := gatherRecvs_inner n size world hw (1 + k)
        (by omega) (by omega) ch1 i1 i2 a1 s1 _ (Nat.le_refl _)
      refine ⟨ch2, a2, ?_, j1, ?_, s2, ?_⟩
      · simp only [forUpTo, e1]
        exact e2
      · intro m hm h
        exact j2 m hm (Or.inl (by omega))
      · intro g
        have hle := end_row_le n size (1 + k) (by omega)
        have hse := start_row_le_end_row n (1 + k) size
        have hnext : start_row n (1 + (k + 1)) size = end_row n (1 + k) size := by
          rw [end_row_eq_start_row_succ, Nat.add_assoc]
        have hmono : end_row n 0 size ≤ start_row n (1 + k) size := by
          rw [end_row_eq_start_row_succ]
          exact start_row_mono n size (by omega)
        rw [r2 g, r1 g, hnext]
        by_cases h3 : start_row n (1 + k) size ≤ g ∧
            g < start_row n (1 + k) size + (end_row n (1 + k) size - start_row n (1 + k) size)
        · rw [if_pos h3, if_pos (by omega)]
          unfold ownedRow
          rw [findPivotOwner_eq n size g (1 + k) hs (by omega) (by omega)]
        · rw [if_neg h3]
          by_cases h4 : end_row n 0 size ≤ g ∧ g < start_row n (1 + k) size
          · rw [if_pos h4, if_pos (by omega)]
          · rw [if_neg h4, if_neg (by omega)]
  obtain ⟨ch, a', e, _, _, s, r⟩ := key (size - 1) (Nat.le_refl _)
  unfold gatherRecvs forFromTo
  simp only [proc_start_eq, proc_end_eq]
  unfold forFromTo at e
  rw [e]
  simp only [Option.map_some']
  congr 1
  apply list_eq_map_range a' _ [] _ s.1
  intro g hg
  rw [r g]
  have hsz : start_row n (1 + (size - 1)) size = n := by
    have : 1 + (size - 1) = size := by omega
    rw [this, start_row_size n size hs]
  rw [hsz]
  by_cases h3 : end_row n 0 size ≤ g
  · rw [if_pos ⟨h3, hg⟩]
  · rw [if_neg (by omega)]
    unfold ownedRow
    rw [findPivotOwner_eq n size g 0 hs hg ⟨by simp [start_row_zero], by omega⟩, start_row_zero]
    rfl

/-- All receives of `gatherResult` return; rank 0 ends with every global row as
held by its owner, the other ranks keep their stores. -/
theorem gatherResult_eq {α : Type} (n size : Nat) (hs : 1 ≤ size)
    (world : List (List (List α))) (hw : WorldShape n size world) :
    gatherResult n size world =
      some (world.set 0 ((List.range n).map (ownedRow n size world))) := by
  unfold gatherResult
  simp only [gatherRecvs_eq n size hs world hw, Option.map_some']

/-! ## One round of elimination, on one process -/

/-- The loop of lines 83-86 on local row `lr` with pivot `p`, run for `k` columns. -/
theorem normalize_loop {α : Type} [Zero α] [Div α] (n m lr : Nat) (p : α) (s : ProcState α)
    (hs : Shape s.augmented m (2 * n)) (hp : s.pivot_row.length = 2 * n) (hlr : lr < m)
    (k : Nat) (hk : k ≤ 2 * n) :
    ∃ s', forUpTo k (fun j (s : ProcState α) =>
        let aug := writeAt s.augmented lr j (readAt s.augmented lr j / p)
        ({ augmented := aug, pivot_row := s.pivot_row.set j (readAt aug lr j) } : ProcState α)) s
          = s' ∧
      Shape s'.augmented m (2 * n) ∧ s'.pivot_row.length = 2 * n ∧
      (∀ i j, readAt s'.augmented i j =
        if i = lr ∧ j < k then readAt s.augmented lr j / p else readAt s.augmented i j) ∧
      (∀ j, s'.pivot_row.getD j 0 =
        if j < k then readAt s.augmented lr j / p else s.pivot_row.getD j 0) := by
  induction k with
  | zero => exact ⟨s, rfl, hs, hp, by simp, by simp⟩
  | succ k ih =>
    obtain ⟨s1, e1, sh1, p1, r1, q1⟩ := ih (by omega)
    refine ⟨_, rfl, ?_, ?_, ?_, ?_⟩
    · simp only [forUpTo, e1]
      exact sh1.afterWrite _ _ _
    · simp only [forUpTo, e1, List.length_set]
      exact p1
    · intro i j
      simp only [forUpTo, e1]
      rw [readAt_writeAt sh1, r1 i j, r1 lr k]
      by_cases h1 : i = lr
      · subst h1
        by_cases h2 : j = k
        · subst h2
          simp [hlr]
          omega
        · by_cases h3 : j < k
          · simp [h2, h3, show j < k + 1 by omega]
          · simp [h2, h3, show ¬ j < k + 1 by omega]
      · simp [h1]
    · intro j
      simp only [forUpTo, e1]
      rw [getD_set, readAt_writeAt sh1, q1 j, r1 lr k, p1]
      by_cases h2 : k = j
      · subst h2
        have h4 : k < 2 * n := by omega
        simp [hlr, h4]
      · by_cases h3 : j < k
        · simp [h2, h3, show j < k + 1 by omega]
        · simp [h2, h3, show ¬ j < k + 1 by omega]

/-- The loop of lines 97-99 on local row `i` with factor `f`, run for `k` columns. -/
theorem eliminate_inner {α : Type} [Zero α] [Sub α] [Mul α] (n m i : Nat) (f : α)
    (pr : List α) (a : List (List α)) (ha : Shape a m (2 * n)) (hi : i < m)
    (k : Nat) (hk : k ≤ 2 * n) :
    Shape (forUpTo k (fun j aug =>
        writeAt aug i j (readAt aug i j - f * pr.getD j 0)) a) m (2 * n) ∧
      ∀ i' j', readAt (forUpTo k (fun j aug =>
          writeAt aug i j (readAt aug i j - f * pr.getD j 0)) a) i' j' =
        if i' = i ∧ j' < k then readAt a i j' - f * pr.getD j' 0 else readAt a i' j' := by
  induction k with
  | zero => exact ⟨ha, by simp [forUpTo]⟩
  | succ k ih =>
    obtain ⟨sh1, r1⟩ := ih (by omega)
    refine ⟨sh1.afterWrite _ _ _, ?_⟩
    intro i' j'
    simp only [forUpTo]
    rw [readAt_writeAt sh1, r1 i' j', r1 i k]
    by_cases h1 : i' = i
    · subst h1
      by_cases h2 : j' = k
      · subst h2
        simp [hi]
        omega
      · by_cases h3 : j' < k
        · simp [h2, h3, show j' < k + 1 by omega]
        · simp [h2, h3, show ¬ j' < k + 1 by omega]
    · simp [h1]

/-- The loop of lines 93-101 over the first `k` local rows. -/
theorem eliminate_outer {α : Type} [Zero α] [Sub α] [Mul α] (n m start c : Nat)
    (pr : List α) (a : List (List α)) (ha : Shape a m (2 * n)) (k : Nat) (hk : k ≤ m) :
    Shape (forUpTo k (fun i aug =>
        let global_row := start + i
        if global_row ≠ c then
          let factor := readAt aug i c
          forUpTo (2 * n) (fun j aug =>
            writeAt aug i j (readAt aug i j - factor * pr.getD j 0)) aug
        else aug) a) m (2 * n) ∧
      ∀ i j, readAt (forUpTo k (fun i aug =>
          let global_row := start + i
          if global_row ≠ c then
            let factor := readAt aug i c
            forUpTo (2 * n) (fun j aug =>
              writeAt aug i j (readAt aug i j - factor * pr.getD j 0)) aug
          else aug) a) i j =
        if i < k ∧ start + i ≠ c ∧ j < 2 * n
        then readAt a i j - readAt a i c * pr.getD j 0 else readAt a i j := by
  induction k with
  | zero => exact ⟨ha, by simp [forUpTo]⟩
  | succ k ih =>
    obtain ⟨sh1, r1⟩ := ih (by omega)
    simp only [forUpTo]
    by_cases hc : start + k = c
    · simp only [hc, ne_eq, not_true_eq_false, if_false]
      refine ⟨sh1, ?_⟩
      intro i j
      rw [r1 i j]
      by_cases h1 : i = k
      · subst h1
        simp [hc]
      · by_cases h2 : i < k
        · simp [h2, show i < k + 1 by omega]
        · simp [h2, show ¬ i < k + 1 by omega]
    · simp only [ne_eq, hc, not_false_eq_true, if_true]
      obtain ⟨sh2, r2⟩ := eliminate_inner n m k _ pr _ sh1 (show k < m by omega) (2 * n)
        (Nat.le_refl _)
      refine ⟨sh2, ?_⟩
      intro i j
      rw [r2 i j, r1 i j, r1 k j, r1 k c]
      by_cases h1 : i = k
      · subst h1
        by_cases h2 : j < 2 * n
        · simp [h2, hc]
        · simp [h2]
      · by_cases h2 : i < k
        · simp [h1, h2, show i < k + 1 by omega]
        · simp [h1, h2, show ¬ i < k + 1 by omega]

/-! ## One round of elimination, on all processes -/

theorem count_le_allocatedRows (n r size : Nat) (hr : r < size) :
    end_row n r size - start_row n r size ≤ allocatedRows n r size := by
  unfold allocatedRows
  split
  · have := end_row_le n size r hr
    omega
  · exact Nat.le_refl _

theorem normalizeStep_spec {α : Type} [Zero α] [Div α] (n r size c : Nat) (hs : 1 ≤ size)
    (hc : c < n) (hr : r < size) (s : ProcState α)
    (hsh : Shape s.augmented (allocatedRows n r size) (2 * n))
    (hp : s.pivot_row.length = 2 * n) :
    Shape (normalizeStep n r size c s).augmented (allocatedRows n r size) (2 * n) ∧
    (normalizeStep n r size c s).pivot_row.length = 2 * n ∧
    (∀ i j, readAt (normalizeStep n r size c s).augmented i j =
      if r = findPivotOwner n size c ∧ i = c - start_row n r size ∧ j < 2 * n
      then readAt s.augmented (c - start_row n r size) j /
        readAt s.augmented (c - start_row n r size) c
      else readAt s.augmented i j) ∧
    (r = findPivotOwner n size c → ∀ j, j < 2 * n →
      (normalizeStep n r size c s).pivot_row.getD j 0 =
        readAt s.augmented (c - start_row n r size) j /
          readAt s.augmented (c - start_row n r size) c) := by
  unfold normalizeStep
  by_cases ho : r = findPivotOwner n size c
  · have hrange := findPivotOwner_range n size c hs hc
    rw [← ho] at hrange
    have hlr : c - start_row n r size < allocatedRows n r size := by
      have := count_le_allocatedRows n r size hr
      omega
    obtain ⟨s', e, sh, pl, ra, rp⟩ := normalize_loop n _ (c - start_row n r size)
      (readAt s.augmented (c - start_row n r size) c) s hsh hp hlr (2 * n) (Nat.le_refl _)
    simp only [if_pos ho]
    rw [e]
    refine ⟨sh, pl, ?_, ?_⟩
    · intro i j
      rw [ra i j]
      simp [← ho]
    · intro _ j hj
      rw [rp j, if_pos hj]
  · simp only [if_neg ho]
    exact ⟨hsh, hp, by intro i j; simp [ho], by intro h; exact absurd h ho⟩

theorem eliminateStep_spec {α : Type} [Zero α] [Sub α] [Mul α] (n r size c : Nat)
    (hr : r < size) (s : ProcState α)
    (hsh : Shape s.augmented (allocatedRows n r size) (2 * n)) :
    Shape (eliminateStep n r size c s).augmented (allocatedRows n r size) (2 * n) ∧
    (eliminateStep n r size c s).pivot_row = s.pivot_row ∧
    ∀ i j, readAt (eliminateStep n r size c s).augmented i j =
      if i < end_row n r size - start_row n r size ∧ start_row n r size + i ≠ c ∧ j < 2 * n
      then readAt s.augmented i j - readAt s.augmented i c * s.pivot_row.getD j 0
      else readAt s.augmented i j := by
  obtain ⟨sh, ra⟩ := eliminate_outer n _ (start_row n r size) c s.pivot_row s.augmented hsh
    (end_row n r size - start_row n r size) (count_le_allocatedRows n r size hr)
  exact ⟨sh, rfl, ra⟩

theorem getD_map_default {β γ : Type} (f : β → γ) (l : List β) (r : Nat) (d : β) :
    (l.map f).getD r (f d) = f (l.getD r d) := by
  simp only [List.getD_eq_getElem?_getD, List.getElem?_map]
  cases l[r]? <;> rfl

/-- The state of rank `r` after one round. -/
theorem gaussJordanRound_getD {α : Type} [Zero α] [Sub α] [Mul α] [Div α] (n size c r : Nat)
    (hr : r < size) (world : List (ProcState α)) :
    (gaussJordanRound n size c world).getD r default =
      eliminateStep n r size c
        (bcastStep n size c
          ((List.range size).map (fun rank =>
            normalizeStep n rank size c (world.getD rank default)))
          (normalizeStep n r size c (world.getD r default))) := by
  unfold gaussJordanRound
  simp only
  rw [getD_map_range _ _ _ _ hr]
  congr 1
  have h1 : r < ((List.range size).map (fun rank =>
      normalizeStep n rank size c (world.getD rank default))).length := by simpa using hr
  rw [List.getD_eq_getElem?_getD, List.getElem?_map, List.getElem?_map,
    List.getElem?_range hr]
  rfl

/-- One round of the processes is one round of Gauss-Jordan elimination on the
matrix they hold together. -/
theorem gaussJordanRound_spec {α : Type} [Zero α] [Sub α] [Mul α] [Div α] (n size c : Nat)
    (hs : 1 ≤ size) (hc : c < n) (world : List (ProcState α)) (hw : ProcShape n size world) :
    ProcShape n size (gaussJordanRound n size c world) ∧
    ∀ g j, g < n → j < 2 * n →
      procEntry n size (gaussJordanRound n size c world) g j =
        pivotStep c (procEntry n size world) g j := by
  have ho := findPivotOwner_lt n size c hs hc
  have horange := findPivotOwner_range n size c hs hc
  -- the broadcast buffer
  obtain ⟨osh, opl, ora, orp⟩ := normalizeStep_spec n (findPivotOwner n size c) size c hs hc ho
    (world.getD (findPivotOwner n size c) default) (hw.2 _ ho).1 (hw.2 _ ho).2
  have hroot : ((List.range size).map (fun rank =>
      normalizeStep n rank size c (world.getD rank default))).getD (findPivotOwner n size c)
        default = normalizeStep n (findPivotOwner n size c) size c
          (world.getD (findPivotOwner n size c) default) := getD_map_range _ _ _ _ ho
  have hb : ∀ r, r < size →
      (bcastStep n size c
        ((List.range size).map (fun rank =>
          normalizeStep n rank size c (world.getD rank default)))
        (normalizeStep n r size c (world.getD r default))) =
      ⟨(normalizeStep n r size c (world.getD r default)).augmented,
        (normalizeStep n (findPivotOwner n size c) size c
          (world.getD (findPivotOwner n size c) default)).pivot_row⟩ := by
    intro r hr
    obtain ⟨_, pl, _, _⟩ := normalizeStep_spec n r size c hs hc hr
      (world.getD r default) (hw.2 _ hr).1 (hw.2 _ hr).2
    unfold bcastStep
    simp only [hroot]
    congr 1
    rw [List.take_of_length_le (by omega), List.drop_of_length_le (by omega), List.append_nil]
  constructor
  · refine ⟨by simp [gaussJordanRound], ?_⟩
    intro r hr
    rw [gaussJordanRound_getD n size c r hr, hb r hr]
    obtain ⟨nsh, _, _, _⟩ := normalizeStep_spec n r size c hs hc hr
      (world.getD r default) (hw.2 _ hr).1 (hw.2 _ hr).2
    obtain ⟨esh, epr, _⟩ := eliminateStep_spec n r size c hr
      (⟨(normalizeStep n r size c (world.getD r default)).augmented,
        (normalizeStep n (findPivotOwner n size c) size c
          (world.getD (findPivotOwner n size c) default)).pivot_row⟩ : ProcState α) nsh
    exact ⟨esh, by rw [epr]; exact opl⟩
  · intro g j hg hj
    have hgo := findPivotOwner_lt n size g hs hg
    have hgrange := findPivotOwner_range n size g hs hg
    unfold procEntry pivotStep
    rw [gaussJordanRound_getD n size c _ hgo, hb _ hgo]
    obtain ⟨nsh, _, nra, _⟩ := normalizeStep_spec n (findPivotOwner n size g) size c hs hc hgo
      (world.getD (findPivotOwner n size g) default) (hw.2 _ hgo).1 (hw.2 _ hgo).2
    obtain ⟨_, _, era⟩ := eliminateStep_spec n (findPivotOwner n size g) size c hgo
      (⟨(normalizeStep n (findPivotOwner n size g) size c
          (world.getD (findPivotOwner n size g) default)).augmented,
        (normalizeStep n (findPivotOwner n size c) size c
          (world.getD (findPivotOwner n size c) default)).pivot_row⟩ : ProcState α) nsh
    rw [era]
    simp only
    rw [nra, nra, orp rfl j hj]
    have hcc : c < 2 * n := by omega
    by_cases hgc : g = c
    · subst hgc
      have h1 : start_row n (findPivotOwner n size g) size +
          (g - start_row n (findPivotOwner n size g) size) = g := by omega
      simp [h1, hj]
    · have h1 : start_row n (findPivotOwner n size g) size +
          (g - start_row n (findPivotOwner n size g) size) ≠ c := by omega
      have h2 : g - start_row n (findPivotOwner n size g) size <
          end_row n (findPivotOwner n size g) size -
            start_row n (findPivotOwner n size g) size := by omega
      have h3 : ¬ (findPivotOwner n size g = findPivotOwner n size c ∧
          g - start_row n (findPivotOwner n size g) size =
            c - start_row n (findPivotOwner n size g) size ∧ j < 2 * n) := by
        rintro ⟨e1, e2, _⟩
        rw [e1] at e2 hgrange
        omega
      have h4 : ¬ (findPivotOwner n size g = findPivotOwner n size c ∧
          g - start_row n (findPivotOwner n size g) size =
            c - start_row n (findPivotOwner n size g) size ∧ c < 2 * n) := by
        rintro ⟨e1, e2, _⟩
        rw [e1] at e2 hgrange
        omega
      rw [if_pos ⟨h2, h1, hj⟩, if_neg h3, if_neg h4, if_neg hgc]

/-! ## The whole run -/

theorem pivotStep_congr {α : Type} [Sub α] [Mul α] [Div α] (n c : Nat) (hc : c < n)
    (M N : Nat → Nat → α) (h : ∀ g j, g < n → j < 2 * n → M g j = N g j)
    (g j : Nat) (hg : g < n) (hj : j < 2 * n) : pivotStep c M g j = pivotStep c N g j := by
  unfold pivotStep
  rw [h c j hc hj, h c c hc (by omega), h g j hg hj, h g c hg (by omega)]

theorem afterRead_shape {α : Type} [Zero α] [One α] (n size : Nat) (cin : List α) :
    WorldShape n size (afterRead n size cin) := by
  refine ⟨by simp [afterRead], ?_⟩
  intro r hr
  unfold afterRead
  rw [getD_map_range _ _ _ _ hr]
  by_cases h0 : r = 0
  · subst h0
    simpa [allocatedRows] using (readMatrix_coordinator n size cin).1
  · rw [readMatrix_worker n r h0]
    simpa [allocatedRows] using @shape_ctor α _ n r size

theorem afterRead_coordinator {α : Type} [Zero α] [One α] (n size : Nat) (hs : 1 ≤ size)
    (cin : List α) (i j : Nat) :
    readAt ((afterRead n size cin).getD 0 []) i j = inputMatrix n cin i j := by
  unfold afterRead
  rw [getD_map_range _ _ _ _ (show 0 < size by omega)]
  exact (readMatrix_coordinator n size cin).2 i j

/-- After `distributeMatrix` the ranks hold together the matrix of rank 0. -/
theorem distributed_spec {α : Type} [Zero α] (n size : Nat) (hs : 1 ≤ size)
    (a0 : List (List α)) (ha0 : Shape a0 n (2 * n)) :
    WorldShape n size ((List.range size).map (fun r =>
      if r = 0 then a0
      else (List.range (end_row n r size - start_row n r size)).map
        (fun i => a0.getD (start_row n r size + i) []))) ∧
    ∀ g, g < n → ownedRow n size ((List.range size).map (fun r =>
      if r = 0 then a0
      else (List.range (end_row n r size - start_row n r size)).map
        (fun i => a0.getD (start_row n r size + i) []))) g = a0.getD g [] := by
  constructor
  · refine ⟨by simp, ?_⟩
    intro r hr
    rw [getD_map_range _ _ _ _ hr]
    by_cases h0 : r = 0
    · simpa [h0, allocatedRows] using ha0
    · rw [if_neg h0, allocatedRows, if_neg h0]
      refine ⟨by simp, ?_⟩
      intro row hrow
      simp only [List.mem_map, List.mem_range] at hrow
      obtain ⟨i, hi, rfl⟩ := hrow
      have := end_row_le n size r hr
      exact ha0.row_length (by omega)
  · intro g hg
    have hgo := findPivotOwner_lt n size g hs hg
    have hgr := findPivotOwner_range n size g hs hg
    unfold ownedRow
    rw [getD_map_range _ _ _ _ hgo]
    by_cases h0 : findPivotOwner n size g = 0
    · rw [if_pos h0, h0, start_row_zero]
      rfl
    · rw [if_neg h0, getD_map_range _ _ _ _ (by omega)]
      congr 1
      omega

theorem enterElimination_spec {α : Type} [Zero α] (n size : Nat)
    (world : List (List (List α))) (hw : WorldShape n size world) :
    ProcShape n size (enterElimination n size world) ∧
    ∀ g j, procEntry n size (enterElimination n size world) g j =
      ownedEntry n size world g j := by
  have hget : ∀ r, r < size → (enterElimination n size world).getD r default =
      ⟨world.getD r [], List.replicate (2 * n) 0⟩ := by
    intro r hr
    unfold enterElimination
    rw [getD_map_range _ _ _ _ hr]
  constructor
  · refine ⟨by simp [enterElimination], ?_⟩
    intro r hr
    rw [hget r hr]
    exact ⟨hw.2 r hr, by simp⟩
  · intro g j
    unfold procEntry ownedEntry ownedRow readAt
    by_cases hr : findPivotOwner n size g < size
    · rw [hget _ hr]
    · have h1 : (enterElimination n size world).getD (findPivotOwner n size g) default
          = default := by
        rw [List.getD_eq_getElem?_getD, List.getElem?_eq_none (by simp [enterElimination]; omega)]
        rfl
      have h2 : world.getD (findPivotOwner n size g) [] = [] := by
        rw [List.getD_eq_getElem?_getD, List.getElem?_eq_none (by rw [hw.1]; omega)]
        rfl
      rw [h1, h2]
      rfl

/-- The processes after `k` rounds hold together the matrix after `k` rounds of
Gauss-Jordan elimination. -/
theorem roundsUpTo_spec {α : Type} [Zero α] [Sub α] [Mul α] [Div α] (n size : Nat)
    (hs : 1 ≤ size) (world : List (List (List α))) (hw : WorldShape n size world)
    (k : Nat) (hk : k ≤ n) :
    ProcShape n size (roundsUpTo n size k world) ∧
    ∀ g j, g < n → j < 2 * n →
      procEntry n size (roundsUpTo n size k world) g j =
        pivotSteps k (ownedEntry n size world) g j := by
  induction k with
  | zero =>
    obtain ⟨h1, h2⟩ := enterElimination_spec n size world hw
    exact ⟨h1, fun g j _ _ => h2 g j⟩
  | succ k ih =>
    obtain ⟨h1, h2⟩ := ih (by omega)
    obtain ⟨h3, h4⟩ := gaussJordanRound_spec n size k hs (by omega) _ h1
    refine ⟨h3, ?_⟩
    intro g j hg hj
    show procEntry n size (gaussJordanRound n size k (roundsUpTo n size k world)) g j =
      pivotStep k (pivotSteps k (ownedEntry n size world)) g j
    rw [h4 g j hg hj]
    exact pivotStep_congr n k (by omega) _ _ h2 g j hg hj


theorem pivotSteps_congr {α : Type} [Sub α] [Mul α] [Div α] (n : Nat)
    (M N : Nat → Nat → α) (h : ∀ g j, g < n → j < 2 * n → M g j = N g j)
    (k : Nat) (hk : k ≤ n) :
    ∀ g j, g < n → j < 2 * n → pivotSteps k M g j = pivotSteps k N g j := by
  induction k with
  | zero => exact h
  | succ k ih =>
    intro g j hg hj
    exact pivotStep_congr n k (by omega) _ _ (ih (by omega)) g j hg hj

theorem ownedRow_length {α : Type} (n size : Nat) (hs : 1 ≤ size)
    (world : List (List (List α))) (hw : WorldShape n size world) (g : Nat) (hg : g < n) :
    (ownedRow n size world g).length = 2 * n := by
  have hgo := findPivotOwner_lt n size g hs hg
  have hgr := findPivotOwner_range n size g hs hg
  have := count_le_allocatedRows n _ size hgo
  exact (hw.2 _ hgo).row_length (by omega)

theorem gaussJordanElimination_spec {α : Type} [Zero α] [Sub α] [Mul α] [Div α]
    (n size : Nat) (hs : 1 ≤ size) (world : List (List (List α)))
    (hw : WorldShape n size world) :
    WorldShape n size (gaussJordanElimination n size world) ∧
    ∀ g j, g < n → j < 2 * n →
      ownedEntry n size (gaussJordanElimination n size world) g j =
        pivotSteps n (ownedEntry n size world) g j := by
  obtain ⟨h1, h2⟩ := roundsUpTo_spec n size hs world hw n (Nat.le_refl _)
  have hget : ∀ r, (gaussJordanElimination n size world).getD r [] =
      ((roundsUpTo n size n world).getD r default).augmented := by
    intro r
    exact getD_map_default (fun s : ProcState α => s.augmented) _ r default
  constructor
  · refine ⟨by simp [gaussJordanElimination, h1.1], ?_⟩
    intro r hr
    rw [hget r]
    exact (h1.2 r hr).1
  · intro g j hg hj
    rw [← h2 g j hg hj]
    unfold ownedEntry ownedRow procEntry readAt
    rw [hget]

/-- The `augmented` of rank 0 at the end of `main`, in closed form: `n` rounds of
Gauss-Jordan elimination on `[A | I]`, whatever the number of ranks. -/
theorem coordinatorResult_eq {α : Type} [Zero α] [One α] [Sub α] [Mul α] [Div α]
    (n size : Nat) (hs : 1 ≤ size) (cin : List α) :
    coordinatorResult n size cin = some ((List.range n).map (fun g =>
      (List.range (2 * n)).map (fun j => pivotSteps n (inputMatrix n cin) g j))) := by
  have hA := afterRead_shape n size cin
  obtain ⟨hD, hDrow⟩ := distributed_spec n size hs _ (hA.coordinator hs)
  obtain ⟨hE, hEent⟩ := gaussJordanElimination_spec n size hs _ hD
  unfold coordinatorResult main
  rw [distributeMatrix_eq n size _ hA]
  simp only [Option.some_bind]
  rw [gatherResult_eq n size hs _ hE]
  simp only [Option.map_some']
  congr 1
  rw [getD_set, if_pos ⟨rfl, by rw [hE.1]; omega⟩]
  apply List.map_congr_left
  intro g hg
  have hg' := List.mem_range.mp hg
  apply list_eq_map_range _ _ 0 _ (ownedRow_length n size hs _ hE g hg')
  intro j hj
  show ownedEntry n size _ g j = _
  rw [hEent g j hg' hj]
  apply pivotSteps_congr n _ _ _ n (Nat.le_refl _) g j hg' hj
  intro g' j' hg2 _
  unfold ownedEntry
  rw [hDrow g' hg2]
  exact afterRead_coordinator n size hs cin g' j'

/-- The pivot read in round `c` of `main` is entry `[c][c]` of the matrix after `c`
rounds of Gauss-Jordan elimination on `[A | I]`. -/
theorem pivotValue_eq {α : Type} [Zero α] [One α] [Sub α] [Mul α] [Div α]
    (n size : Nat) (hs : 1 ≤ size) (cin : List α) (c : Nat) (hc : c < n) :
    pivotValue n size cin c = some (pivotSteps c (inputMatrix n cin) c c) := by
  have hA := afterRead_shape n size cin
  obtain ⟨hD, hDrow⟩ := distributed_spec n size hs _ (hA.coordinator hs)
  obtain ⟨_, h2⟩ := roundsUpTo_spec n size hs _ hD c (by omega)
  unfold pivotValue stateAtRound
  rw [distributeMatrix_eq n size _ hA]
  simp only [Option.map_some']
  congr 1
  have := h2 c c hc (by omega)
  unfold procEntry at this
  rw [this]
  apply pivotSteps_congr n _ _ _ c (by omega) c c hc (by omega)
  intro g' j' hg2 _
  unfold ownedEntry
  rw [hDrow g' hg2]
  exact afterRead_coordinator n size hs cin g' j'

/-! ## Algebra of the rounds over a field -/

/-- Row operations keep the left half equal to the right half times a fixed matrix. -/
theorem pivotStep_relation {K : Type} [Field K] (n c : Nat) (A : Nat → Nat → K)
    (M : Nat → Nat → K)
    (h : ∀ g j, g < n → j < n → M g j = ∑ m in Finset.range n, M g (n + m) * A m j)
    (hc : c < n) (g j : Nat) (hg : g < n) (hj : j < n) :
    pivotStep c M g j = ∑ m in Finset.range n, pivotStep c M g (n + m) * A m j := by
  unfold pivotStep
  by_cases hgc : g = c
  · simp only [if_pos hgc]
    rw [h c j hc hj, Finset.sum_div]
    apply Finset.sum_congr rfl
    intro m _
    ring
  · simp only [if_neg hgc]
    rw [h g j hg hj, h c j hc hj, Finset.sum_div, Finset.mul_sum, ← Finset.sum_sub_distrib]
    apply Finset.sum_congr rfl
    intro m _
    ring

theorem pivotSteps_relation {K : Type} [Field K] (n : Nat) (A : Nat → Nat → K)
    (M : Nat → Nat → K)
    (h : ∀ g j, g < n → j < n → M g j = ∑ m in Finset.range n, M g (n + m) * A m j)
    (k : Nat) (hk : k ≤ n) :
    ∀ g j, g < n → j < n →
      pivotSteps k M g j = ∑ m in Finset.range n, pivotSteps k M g (n + m) * A m j := by
  induction k with
  | zero => exact h
  | succ k ih =>
    intro g j hg hj
    exact pivotStep_relation n k A _ (ih (by omega)) (by omega) g j hg hj

/-- A round with a nonzero pivot makes column `c` the unit vector. -/
theorem pivotStep_column {K : Type} [Field K] (c : Nat) (M : Nat → Nat → K)
    (hp : M c c ≠ 0) (g : Nat) : pivotStep c M g c = if g = c then 1 else 0 := by
  unfold pivotStep
  by_cases hgc : g = c
  · simp only [if_pos hgc]
    exact div_self hp
  · simp only [if_neg hgc]
    rw [div_self hp, mul_one, sub_self]

/-- A round changes a column whose entry in the pivot row is zero only in the pivot
row, where it stays zero. -/
theorem pivotStep_cleared {K : Type} [Field K] (c k : Nat) (M : Nat → Nat → K)
    (hcol : M c k = 0) (g : Nat) : pivotStep c M g k = if g = c then 0 else M g k := by
  unfold pivotStep
  by_cases hgc : g = c
  · simp only [if_pos hgc, hcol, zero_div]
  · simp only [if_neg hgc, hcol, zero_div, mul_zero, sub_zero]

/-- After `k` rounds with nonzero pivots the first `k` columns are unit vectors. -/
theorem pivotSteps_columns {K : Type} [Field K] (M : Nat → Nat → K) (k : Nat)
    (hp : ∀ c, c < k → pivotSteps c M c c ≠ 0) :
    ∀ c g, c < k → pivotSteps k M g c = if g = c then 1 else 0 := by
  induction k with
  | zero => intro c g hc; omega
  | succ k ih =>
    intro c g hc
    have ih' := ih (fun c hc => hp c (by omega))
    show pivotStep k (pivotSteps k M) g c = _
    by_cases hck : c = k
    · subst hck
      exact pivotStep_column c _ (hp c (by omega)) g
    · have hc' : c < k := by omega
      rw [pivotStep_cleared k c _ (by rw [ih' c k hc', if_neg (Ne.symm hck)]) g, ih' c g hc']
      by_cases hgk : g = k
      · subst hgk
        rw [if_pos rfl, if_neg (Ne.symm hck)]
      · rw [if_neg hgk]

theorem inputMatrix_relation {K : Type} [CommRing K] (n : Nat) (cin : List K) :
    ∀ g j, g < n → j < n → inputMatrix n cin g j =
      ∑ m in Finset.range n, inputMatrix n cin g (n + m) * inputMatrix n cin m j := by
  intro g j hg hj
  have h1 : ∀ m, inputMatrix n cin g (n + m) = if m = g then 1 else 0 := by
    intro m
    unfold inputMatrix
    rw [if_neg (by omega)]
    by_cases hm : m = g
    · rw [if_pos ⟨hg, by omega⟩, if_pos hm]
    · rw [if_neg (by omega), if_neg hm]
  simp only [h1, ite_mul, one_mul, zero_mul]
  rw [Finset.sum_ite_eq' (Finset.range n) g]
  simp [hg]

/-- A left inverse of a square matrix, given by entries, is a right inverse. -/
theorem right_inverse_of_left {K : Type} [Field K] (n : Nat) (A R : Nat → Nat → K)
    (h : ∀ g j, g < n → j < n →
      ∑ m in Finset.range n, R g m * A m j = if g = j then 1 else 0) :
    ∀ g j, g < n → j < n →
      ∑ m in Finset.range n, A g m * R m j = if g = j then 1 else 0 := by
  have hRA : (Matrix.of (fun (g m : Fin n) => R g m)) * (Matrix.of (fun (m j : Fin n) => A m j))
      = 1 := by
    ext g j
    rw [Matrix.mul_apply, Matrix.one_apply]
    have := h g j g.isLt j.isLt
    rw [← Fin.sum_univ_eq_sum_range (fun m => R g m * A m j) n] at this
    simp only [Matrix.of_apply]
    rw [this]
    simp only [Fin.ext_iff]
  have hAR := (Matrix.mul_eq_one_comm).1 hRA
  intro g j hg hj
  have := congrFun (congrFun hAR ⟨g, hg⟩) ⟨j, hj⟩
  rw [Matrix.mul_apply, Matrix.one_apply] at this
  simp only [Matrix.of_apply, Fin.ext_iff] at this
  rw [← Fin.sum_univ_eq_sum_range (fun m => A g m * R m j) n]
  exact this

/-! ## The partition of the rows -/

/-- C3. For `w ≥ 1` workers the ranges `[start_row r, end_row r)` of the constructor tile
`[0, n)`: the first starts at 0, each ends where the next starts, the last ends at `n`,
no range is reversed, and every row `g < n` lies in the range of exactly one worker. -/
theorem ranges_tile_rows (n w : Nat) (hw : 1 ≤ w) :
    start_row n 0 w = 0 ∧
    (∀ r, r < w - 1 → end_row n r w = start_row n (r + 1) w) ∧
    end_row n (w - 1) w = n ∧
    (∀ r, r < w → start_row n r w ≤ end_row n r w) ∧
    (∀ g, g < n → ∃! r, r < w ∧ start_row n r w ≤ g ∧ g < end_row n r w) := by
  refine ⟨start_row_zero n w, fun r _ => end_row_eq_start_row_succ n r w, end_row_last n w hw,
    fun r _ => start_row_le_end_row n r w, ?_⟩
  intro g hg
  obtain ⟨r, _, h2, h3, h4⟩ := findPivotOwnerLoop_some n w g hw hg
  refine ⟨r, ⟨h2, h3, h4⟩, ?_⟩
  rintro s ⟨_, h5, h6⟩
  exact owner_unique n w g ⟨h5, h6⟩ ⟨h3, h4⟩

theorem ranges_tile_rows_witness :
    1 ≤ 3 ∧ (start_row 5 0 3 = 0 ∧
    (∀ r, r < 3 - 1 → end_row 5 r 3 = start_row 5 (r + 1) 3) ∧
    end_row 5 (3 - 1) 3 = 5 ∧
    (∀ r, r < 3 → start_row 5 r 3 ≤ end_row 5 r 3) ∧
    (∀ g, g < 5 → ∃! r, r < 3 ∧ start_row 5 r 3 ≤ g ∧ g < end_row 5 r 3)) :=
  ⟨by decide, ranges_tile_rows 5 3 (by decide)⟩

/-- C4. The row count `end_row r - start_row r` of worker `r` is `n / w + 1` for the
first `n % w` workers and `n / w` for every other worker; so two counts differ by at
most 1 and the counts do not increase with the worker index. -/
theorem row_counts_balanced (n w : Nat) :
    (∀ r, end_row n r w - start_row n r w = if r < n % w then n / w + 1 else n / w) ∧
    (∀ r s, end_row n r w - start_row n r w ≤ end_row n s w - start_row n s w + 1) ∧
    (∀ r s, r ≤ s → end_row n s w - start_row n s w ≤ end_row n r w - start_row n r w) := by
  have h : ∀ r, end_row n r w - start_row n r w = if r < n % w then n / w + 1 else n / w := by
    intro r
    unfold end_row rows_per_process remainder
    generalize n / w = b
    generalize n % w = m
    split <;> omega
  refine ⟨h, ?_, ?_⟩
  · intro r s
    rw [h r, h s]
    generalize n / w = b
    generalize n % w = m
    split <;> split <;> omega
  · intro r s hrs
    rw [h r, h s]
    generalize n / w = b
    generalize n % w = m
    split <;> split <;> omega

/-- C5. For `w ≥ 1` and a pivot column `c < n`, the scan of `findPivotOwner` returns from
inside its loop (the `return 0` after the loop is not reached), and the rank it returns
is the one worker below `w` whose range `[start_row, end_row)` contains `c`. -/
theorem findPivotOwner_is_range_owner (n w c : Nat) (hw : 1 ≤ w) (hc : c < n) :
    findPivotOwnerLoop n w c w 0 0 = some (findPivotOwner n w c) ∧
    findPivotOwner n w c < w ∧
    start_row n (findPivotOwner n w c) w ≤ c ∧ c < end_row n (findPivotOwner n w c) w ∧
    ∀ r, start_row n r w ≤ c ∧ c < end_row n r w → r = findPivotOwner n w c := by
  obtain ⟨r, e, h2, h3, h4⟩ := findPivotOwnerLoop_some n w c hw hc
  have hr : findPivotOwner n w c = r := by simp [findPivotOwner, e]
  rw [hr]
  exact ⟨e, h2, h3, h4, fun s hs => owner_unique n w c hs ⟨h3, h4⟩⟩

theorem findPivotOwner_is_range_owner_witness :
    1 ≤ 3 ∧ 4 < 5 ∧ (findPivotOwnerLoop 5 3 4 3 0 0 = some (findPivotOwner 5 3 4) ∧
    findPivotOwner 5 3 4 < 3 ∧
    start_row 5 (findPivotOwner 5 3 4) 3 ≤ 4 ∧ 4 < end_row 5 (findPivotOwner 5 3 4) 3 ∧
    ∀ r, start_row 5 r 3 ≤ 4 ∧ 4 < end_row 5 r 3 → r = findPivotOwner 5 3 4) :=
  ⟨by decide, by decide, findPivotOwner_is_range_owner 5 3 4 (by decide) (by decide)⟩

/-! ## Input and transfers -/

/-- C8. After the constructor and `readMatrix` on `n * n` input values, rank 0 holds `n`
rows of `2 * n` columns: entry `[i][j]` with `j < n` is input value number `i * n + j`,
entry `[i][n + i]` is 1 and every other entry of the right half is 0. -/
theorem readMatrix_builds_augmented {α : Type} [Zero α] [One α] (n w : Nat) (cin : List α)
    (hlen : cin.length = n * n) :
    (readMatrix n 0 cin (ctor n 0 w)).2.length = n ∧
    (∀ row ∈ (readMatrix n 0 cin (ctor n 0 w)).2, row.length = 2 * n) ∧
    ∀ i, i < n →
      (∀ j, j < n → cin[i * n + j]? = some (readAt (readMatrix n 0 cin (ctor n 0 w)).2 i j)) ∧
      readAt (readMatrix n 0 cin (ctor n 0 w)).2 i (n + i) = 1 ∧
      ∀ j, n ≤ j → j < 2 * n → j ≠ n + i →
        readAt (readMatrix n 0 cin (ctor n 0 w)).2 i j = 0 := by
  obtain ⟨hs, hr⟩ := readMatrix_coordinator n w cin
  refine ⟨hs.1, hs.2, ?_⟩
  intro i hi
  refine ⟨?_, ?_, ?_⟩
  · intro j hj
    have hlt : i * n + j < cin.length := by
      rw [hlen]
      calc i * n + j < i * n + n := by omega
        _ = (i + 1) * n := by rw [Nat.succ_mul]
        _ ≤ n * n := Nat.mul_le_mul_right n hi
    rw [hr i j, if_pos ⟨hi, hj⟩, List.getD_eq_getElem?_getD, List.getElem?_eq_getElem hlt]
    rfl
  · rw [hr i (n + i), if_neg (by omega), if_pos ⟨hi, rfl⟩]
  · intro j h1 _ h3
    rw [hr i j, if_neg (by omega), if_neg (by omega)]

theorem readMatrix_builds_augmented_witness :
    ([5, 6, 7, 8] : List Int).length = 2 * 2 ∧
    ((readMatrix 2 0 ([5, 6, 7, 8] : List Int) (ctor 2 0 3)).2.length = 2 ∧
    (∀ row ∈ (readMatrix 2 0 ([5, 6, 7, 8] : List Int) (ctor 2 0 3)).2, row.length = 2 * 2) ∧
    ∀ i, i < 2 →
      (∀ j, j < 2 → ([5, 6, 7, 8] : List Int)[i * 2 + j]? =
        some (readAt (readMatrix 2 0 ([5, 6, 7, 8] : List Int) (ctor 2 0 3)).2 i j)) ∧
      readAt (readMatrix 2 0 ([5, 6, 7, 8] : List Int) (ctor 2 0 3)).2 i (2 + i) = 1 ∧
      ∀ j, 2 ≤ j → j < 2 * 2 → j ≠ 2 + i →
        readAt (readMatrix 2 0 ([5, 6, 7, 8] : List Int) (ctor 2 0 3)).2 i j = 0) :=
  ⟨by decide, readMatrix_builds_augmented 2 3 [5, 6, 7, 8] (by decide)⟩

/-- C7. With `w ≥ 1` ranks holding the rows they allocated: after `distributeMatrix`
rank `r ≥ 1` holds at local index `i` the global row `start_row r + i` of rank 0;
`gatherResult` writes local row `i` of rank `r ≥ 1` to the global row `start_row r + i`
of rank 0; and `distributeMatrix` followed by `gatherResult` returns with the matrix
of rank 0 unchanged. -/
theorem transfers_preserve_rows {α : Type} [Zero α] (n w : Nat)
    (world : List (List (List α))) (hw : 1 ≤ w) (hshape : WorldShape n w world) :
    (∃ sent, distributeMatrix n w world = some sent ∧
      ∀ r i, 1 ≤ r → r < w → i < end_row n r w - start_row n r w →
        (sent.getD r []).getD i [] = (world.getD 0 []).getD (start_row n r w + i) []) ∧
    (∃ gathered, gatherResult n w world = some gathered ∧
      ∀ r i, 1 ≤ r → r < w → i < end_row n r w - start_row n r w →
        (gathered.getD 0 []).getD (start_row n r w + i) [] = (world.getD r []).getD i []) ∧
    (∃ back, (distributeMatrix n w world).bind (gatherResult n w) = some back ∧
      back.getD 0 [] = world.getD 0 []) := by
  obtain ⟨hD, hDrow⟩ := distributed_spec n w hw _ (hshape.coordinator hw)
  have hG : gatherResult n w ((List.range w).map (fun r =>
      if r = 0 then world.getD 0 []
      else (List.range (end_row n r w - start_row n r w)).map
        (fun i => (world.getD 0 []).getD (start_row n r w + i) []))) = _ :=
    gatherResult_eq n w hw _ hD
  refine ⟨?_, ?_, ?_⟩
  · refine ⟨_, distributeMatrix_eq n w world hshape, ?_⟩
    intro r i h1 h2 h3
    rw [getD_map_range _ _ _ _ h2, if_neg (by omega), getD_map_range _ _ _ _ h3]
  · refine ⟨_, gatherResult_eq n w hw world hshape, ?_⟩
    intro r i h1 h2 h3
    have hle := end_row_le n w r h2
    have hg : start_row n r w + i < n := by omega
    rw [getD_set, if_pos ⟨rfl, by rw [hshape.1]; omega⟩, getD_map_range _ _ _ _ hg]
    unfold ownedRow
    rw [findPivotOwner_eq n w _ r hw hg ⟨by omega, by omega⟩]
    congr 1
    omega
  · refine ⟨_, by rw [distributeMatrix_eq n w world hshape]; exact hG, ?_⟩
    rw [getD_set, if_pos ⟨rfl, by rw [hD.1]; omega⟩]
    symm
    apply list_eq_map_range _ _ [] _ (hshape.coordinator hw).1
    intro g hg
    rw [hDrow g hg]

theorem transfers_preserve_rows_witness :
    1 ≤ 2 ∧ WorldShape 3 2 ([[[1, 2, 3, 4, 5, 6], [7, 8, 9, 10, 11, 12],
      [13, 14, 15, 16, 17, 18]], [[0, 0, 0, 0, 0, 0]]] : List (List (List Int))) ∧
    ((∃ sent, distributeMatrix 3 2 ([[[1, 2, 3, 4, 5, 6], [7, 8, 9, 10, 11, 12],
        [13, 14, 15, 16, 17, 18]], [[0, 0, 0, 0, 0, 0]]] : List (List (List Int))) = some sent ∧
      ∀ r i, 1 ≤ r → r < 2 → i < end_row 3 r 2 - start_row 3 r 2 →
        (sent.getD r []).getD i [] =
          (([[[1, 2, 3, 4, 5, 6], [7, 8, 9, 10, 11, 12], [13, 14, 15, 16, 17, 18]],
            [[0, 0, 0, 0, 0, 0]]] : List (List (List Int))).getD 0 []).getD
              (start_row 3 r 2 + i) []) ∧
    (∃ gathered, gatherResult 3 2 ([[[1, 2, 3, 4, 5, 6], [7, 8, 9, 10, 11, 12],
        [13, 14, 15, 16, 17, 18]], [[0, 0, 0, 0, 0, 0]]] : List (List (List Int)))
          = some gathered ∧
      ∀ r i, 1 ≤ r → r < 2 → i < end_row 3 r 2 - start_row 3 r 2 →
        (gathered.getD 0 []).getD (start_row 3 r 2 + i) [] =
          (([[[1, 2, 3, 4, 5, 6], [7, 8, 9, 10, 11, 12], [13, 14, 15, 16, 17, 18]],
            [[0, 0, 0, 0, 0, 0]]] : List (List (List Int))).getD r []).getD i []) ∧
    (∃ back, (distributeMatrix 3 2 ([[[1, 2, 3, 4, 5, 6], [7, 8, 9, 10, 11, 12],
        [13, 14, 15, 16, 17, 18]], [[0, 0, 0, 0, 0, 0]]] : List (List (List Int)))).bind
          (gatherResult 3 2) = some back ∧
      back.getD 0 [] = ([[[1, 2, 3, 4, 5, 6], [7, 8, 9, 10, 11, 12],
        [13, 14, 15, 16, 17, 18]], [[0, 0, 0, 0, 0, 0]]] : List (List (List Int))).getD 0 [])) :=
  ⟨by decide, by decide, transfers_preserve_rows 3 2 _ (by decide) (by decide)⟩

/-! ## Results of the protocol -/

theorem shape_map_range {α : Type} (m k : Nat) (f : Nat → Nat → α) :
    Shape ((List.range m).map (fun g => (List.range k).map (f g))) m k := by
  refine ⟨by simp, ?_⟩
  intro row hrow
  simp only [List.mem_map, List.mem_range] at hrow
  obtain ⟨g, _, rfl⟩ := hrow
  simp

theorem readAt_map_range {α : Type} [Zero α] (m k : Nat) (f : Nat → Nat → α) (i j : Nat)
    (hi : i < m) (hj : j < k) :
    readAt ((List.range m).map (fun g => (List.range k).map (f g))) i j = f i j := by
  unfold readAt
  rw [getD_map_range _ _ _ _ hi, getD_map_range _ _ _ _ hj]

/-- C2. For `w ≥ 1` ranks, `main` returns, and the augmented matrix rank 0 holds after
`gatherResult` is the one it holds when the program runs on a single rank; for `n ≥ 1`
the runs on `n` ranks and on one rank give the same matrix.  The arithmetic is any
interpretation of `0.0`, `1.0`, `-`, `*`, `/`. -/
theorem result_same_as_single_rank {α : Type} [Zero α] [One α] [Sub α] [Mul α] [Div α]
    (n w : Nat) (cin : List α) (hw : 1 ≤ w) :
    (∃ M, coordinatorResult n w cin = some M ∧ coordinatorResult n 1 cin = some M) ∧
    (1 ≤ n → coordinatorResult n n cin = coordinatorResult n 1 cin) := by
  refine ⟨⟨_, coordinatorResult_eq n w hw cin,
    coordinatorResult_eq n 1 (Nat.le_refl 1) cin⟩, ?_⟩
  intro hn
  rw [coordinatorResult_eq n n hn cin, coordinatorResult_eq n 1 (Nat.le_refl 1) cin]

theorem result_same_as_single_rank_witness :
    1 ≤ 3 ∧ ((∃ M, coordinatorResult 2 3 ([2, 1, 1, 1] : List ℚ) = some M ∧
      coordinatorResult 2 1 ([2, 1, 1, 1] : List ℚ) = some M) ∧
    (1 ≤ 2 → coordinatorResult 2 2 ([2, 1, 1, 1] : List ℚ) =
      coordinatorResult 2 1 ([2, 1, 1, 1] : List ℚ))) :=
  ⟨by decide, result_same_as_single_rank 2 3 [2, 1, 1, 1] (by decide)⟩

/-- C1 in exact arithmetic.  On `w ≥ 1` ranks and an `n * n` input matrix `A` (the
values of `cin` in row-major order), with the exact arithmetic of the rationals in place
of `double`: when the pivot read at line 80 is nonzero in each of the `n` rounds, `main`
returns and rank 0 ends with an augmented matrix of `n` rows and `2 * n` columns whose
left half is the identity and whose right half `R` satisfies `A * R = 1`. -/
theorem nonzero_pivots_give_inverse (n w : Nat) (cin : List ℚ) (hw : 1 ≤ w)
    (hp : ∀ c, c < n → ∃ p, pivotValue n w cin c = some p ∧ p ≠ 0) :
    ∃ M, coordinatorResult n w cin = some M ∧ Shape M n (2 * n) ∧
      (∀ i j, i < n → j < n → readAt M i j = if i = j then 1 else 0) ∧
      (∀ i j, i < n → j < n →
        ∑ m in Finset.range n, cin.getD (i * n + m) 0 * readAt M m (n + j) =
          if i = j then 1 else 0) := by
  have hpiv : ∀ c, c < n → pivotSteps c (inputMatrix n cin) c c ≠ 0 := by
    intro c hc
    obtain ⟨p, e, hne⟩ := hp c hc
    rw [pivotValue_eq n w hw cin c hc] at e
    cases e
    exact hne
  have hcol := pivotSteps_columns (inputMatrix n cin) n hpiv
  have hrel := pivotSteps_relation n (inputMatrix n cin) (inputMatrix n cin)
    (inputMatrix_relation n cin) n (Nat.le_refl _)
  refine ⟨_, coordinatorResult_eq n w hw cin, shape_map_range _ _ _, ?_, ?_⟩
  · intro i j hi hj
    rw [readAt_map_range _ _ _ _ _ hi (by omega), hcol j i hj]
  · apply right_inverse_of_left n (fun i m => cin.getD (i * n + m) 0)
      (fun m j => readAt ((List.range n).map (fun g =>
        (List.range (2 * n)).map (fun j => pivotSteps n (inputMatrix n cin) g j))) m (n + j))
    intro g j hg hj
    rw [← hcol j g hj, hrel g j hg hj]
    apply Finset.sum_congr rfl
    intro m hm
    have hm' := Finset.mem_range.mp hm
    rw [readAt_map_range _ _ _ _ _ hg (by omega)]
    congr 1
    unfold inputMatrix
    rw [if_pos ⟨hm', hj⟩]

theorem nonzero_pivots_give_inverse_witness :
    1 ≤ 2 ∧ (∀ c, c < 2 → ∃ p, pivotValue 2 2 ([2, 1, 1, 1] : List ℚ) c = some p ∧ p ≠ 0) ∧
    ∃ M, coordinatorResult 2 2 ([2, 1, 1, 1] : List ℚ) = some M ∧ Shape M 2 (2 * 2) ∧
      (∀ i j, i < 2 → j < 2 → readAt M i j = if i = j then 1 else 0) ∧
      (∀ i j, i < 2 → j < 2 →
        ∑ m in Finset.range 2, ([2, 1, 1, 1] : List ℚ).getD (i * 2 + m) 0 * readAt M m (2 + j) =
          if i = j then 1 else 0) := by
  have h : ∀ c, c < 2 → ∃ p, pivotValue 2 2 ([2, 1, 1, 1] : List ℚ) c = some p ∧ p ≠ 0 := by
    intro c hc
    rw [pivotValue_eq 2 2 (by decide) _ c hc]
    refine ⟨_, rfl, ?_⟩
    interval_cases c
    · simp [pivotSteps, forUpTo, inputMatrix]
    · simp [pivotSteps, forUpTo, pivotStep, inputMatrix]
      norm_num
  exact ⟨by decide, h, nonzero_pivots_give_inverse 2 2 [2, 1, 1, 1] (by decide) h⟩


/-- The augmented matrix `[1 | 1]` is left unchanged by every round. -/
theorem pivotSteps_identity (n k : Nat) (hk : k ≤ n) :
    pivotSteps k (fun g j => if j = g ∨ j = n + g then (1 : ℚ) else 0) =
      (fun g j => if j = g ∨ j = n + g then (1 : ℚ) else 0) := by
  induction k with
  | zero => rfl
  | succ k ih =>
    show pivotStep k (pivotSteps k _) = _
    rw [ih (by omega)]
    funext g j
    unfold pivotStep
    simp only [true_or, if_true, div_one]
    by_cases hgk : g = k
    · rw [if_pos hgk, hgk]
    · have h0 : (if k = g ∨ k = n + g then (1 : ℚ) else 0) = 0 := if_neg (by omega)
      rw [if_neg hgk, h0, zero_mul, sub_zero]

theorem inputMatrix_identity (n g j : Nat) (hg : g < n) :
    inputMatrix n (identityInput n) g j = if j = g ∨ j = n + g then (1 : ℚ) else 0 := by
  unfold inputMatrix
  by_cases hjn : j < n
  · have hlt : g * n + j < n * n := by
      calc g * n + j < g * n + n := by omega
        _ = (g + 1) * n := by rw [Nat.succ_mul]
        _ ≤ n * n := Nat.mul_le_mul_right n hg
    have hdiv : (g * n + j) / n = g := by
      rw [Nat.mul_comm g n, Nat.mul_add_div (by omega), Nat.div_eq_of_lt hjn, Nat.add_zero]
    have hmod : (g * n + j) % n = j := by
      rw [Nat.mul_comm g n, Nat.mul_add_mod, Nat.mod_eq_of_lt hjn]
    rw [if_pos ⟨hg, hjn⟩]
    unfold identityInput
    rw [getD_map_range _ _ _ _ hlt, hdiv, hmod]
    by_cases hgj : g = j
    · rw [if_pos hgj, if_pos (Or.inl hgj.symm)]
    · rw [if_neg hgj, if_neg (by omega)]
  · rw [if_neg (by omega)]
    by_cases hjg : j = n + g
    · rw [if_pos ⟨hg, hjg⟩, if_pos (Or.inr hjg)]
    · rw [if_neg (by omega), if_neg (by omega)]

/-- C9. On `w ≥ 1` ranks, with rational arithmetic, the run on the `n * n` identity
matrix returns and leaves rank 0 with a right half equal to the identity matrix; for
`n = 2` and the input `1 0 0 1` the rows of rank 0 are `1 0 1 0` and `0 1 0 1`. -/
theorem identity_input_gives_identity (n w : Nat) (hw : 1 ≤ w) :
    (∃ M, coordinatorResult n w (identityInput n) = some M ∧ Shape M n (2 * n) ∧
      ∀ i j, i < n → j < n → readAt M i (n + j) = if i = j then 1 else 0) ∧
    coordinatorResult 2 w ([1, 0, 0, 1] : List ℚ) = some [[1, 0, 1, 0], [0, 1, 0, 1]] := by
  have key : ∀ n, ∀ g j, g < n → j < 2 * n →
      pivotSteps n (inputMatrix n (identityInput n)) g j =
        if j = g ∨ j = n + g then (1 : ℚ) else 0 := by
    intro n g j hg hj
    rw [pivotSteps_congr n _ _ (fun g j hg _ => inputMatrix_identity n g j hg) n
      (Nat.le_refl _) g j hg hj, pivotSteps_identity n n (Nat.le_refl _)]
  constructor
  · refine ⟨_, coordinatorResult_eq n w hw _, shape_map_range _ _ _, ?_⟩
    intro i j hi hj
    rw [readAt_map_range _ _ _ _ _ hi (by omega), key n i (n + j) hi (by omega)]
    by_cases hij : i = j
    · rw [if_pos (Or.inr (by omega)), if_pos hij]
    · rw [if_neg (by omega), if_neg hij]
  · have h2 : ([1, 0, 0, 1] : List ℚ) = identityInput 2 := by
      simp [identityInput, List.range_succ]
    rw [h2, coordinatorResult_eq 2 w hw _]
    congr 1
    apply @store_ext ℚ _ _ _ 2 (2 * 2) (shape_map_range _ _ _) (by decide)
    intro i hi j hj
    rw [readAt_map_range _ _ _ _ _ hi hj, key 2 i j hi hj]
    interval_cases i <;> interval_cases j <;> simp [readAt]

theorem identity_input_gives_identity_witness :
    1 ≤ 3 ∧ ((∃ M, coordinatorResult 3 3 (identityInput 3) = some M ∧ Shape M 3 (2 * 3) ∧
      ∀ i j, i < 3 → j < 3 → readAt M i (3 + j) = if i = j then 1 else 0) ∧
    coordinatorResult 2 3 ([1, 0, 0, 1] : List ℚ) = some [[1, 0, 1, 0], [0, 1, 0, 1]]) :=
  ⟨by decide, identity_input_gives_identity 3 3 (by decide)⟩

/-! ## A zero pivot -/

theorem Dbl.nonFiniteArith : NonFiniteArith Dbl (fun x => x = .finite 0) Dbl.nonFinite where
  div_zero := by
    intro x y hy
    subst hy
    cases x with
    | finite a =>
      show Dbl.nonFinite (Dbl.div (.finite a) (.finite 0))
      by_cases ha : a = 0 <;> simp [Dbl.div, ha, Dbl.nonFinite]
    | inf s => trivial
    | nan => trivial
  div_nonFinite := by
    intro x y hx
    cases x with
    | finite a => exact absurd hx (by simp [Dbl.nonFinite])
    | inf s => cases y <;> trivial
    | nan => cases y <;> trivial
  mul_nonFinite := by
    intro x y hy
    cases y with
    | finite a => exact absurd hy (by simp [Dbl.nonFinite])
    | inf s =>
      cases x with
      | finite a =>
        show Dbl.nonFinite (Dbl.mul (.finite a) (.inf s))
        by_cases ha : a = 0 <;> simp [Dbl.mul, ha, Dbl.nonFinite]
      | inf t => trivial
      | nan => trivial
    | nan => cases x <;> trivial
  sub_nonFinite := by
    intro x y hy
    cases y with
    | finite a => exact absurd hy (by simp [Dbl.nonFinite])
    | inf s =>
      cases x with
      | finite a => trivial
      | inf t =>
        show Dbl.nonFinite (Dbl.sub (.inf t) (.inf s))
        by_cases hst : t = s <;> simp [Dbl.sub, hst, Dbl.nonFinite]
      | nan => trivial
    | nan => cases x <;> trivial

/-- A round whose pivot is a zero makes every entry non-finite. -/
theorem pivotStep_zero_pivot {α : Type} [Sub α] [Mul α] [Div α] (isZero nonFinite : α → Prop)
    (laws : NonFiniteArith α isZero nonFinite) (c : Nat) (M : Nat → Nat → α)
    (hz : isZero (M c c)) (g j : Nat) : nonFinite (pivotStep c M g j) := by
  unfold pivotStep
  split
  · exact laws.div_zero _ _ hz
  · exact laws.sub_nonFinite _ _ (laws.mul_nonFinite _ _ (laws.div_zero _ _ hz))

/-- A round on a matrix of non-finite entries gives a matrix of non-finite entries. -/
theorem pivotStep_nonFinite {α : Type} [Sub α] [Mul α] [Div α] (isZero nonFinite : α → Prop)
    (laws : NonFiniteArith α isZero nonFinite) (c : Nat) (M : Nat → Nat → α)
    (hM : ∀ g j, nonFinite (M g j)) (g j : Nat) : nonFinite (pivotStep c M g j) := by
  unfold pivotStep
  split
  · exact laws.div_nonFinite _ _ (hM c j)
  · exact laws.sub_nonFinite _ _ (laws.mul_nonFinite _ _ (laws.div_nonFinite _ _ (hM c j)))

theorem pivotSteps_after_zero_pivot {α : Type} [Sub α] [Mul α] [Div α]
    (isZero nonFinite : α → Prop) (laws : NonFiniteArith α isZero nonFinite) (c : Nat)
    (M : Nat → Nat → α) (hz : isZero (pivotSteps c M c c)) (k : Nat) (hk : c < k) :
    ∀ g j, nonFinite (pivotSteps k M g j) := by
  induction k with
  | zero => omega
  | succ k ih =>
    intro g j
    show nonFinite (pivotStep k (pivotSteps k M) g j)
    by_cases hck : c = k
    · subst hck
      exact pivotStep_zero_pivot isZero nonFinite laws c _ hz g j
    · exact pivotStep_nonFinite isZero nonFinite laws k _ (ih (by omega)) g j

/-- The processes at the start of round `k` of `main` hold together the matrix after
`k` rounds of Gauss-Jordan elimination on `[A | I]`. -/
theorem stateAtRound_spec {α : Type} [Zero α] [One α] [Sub α] [Mul α] [Div α]
    (n size : Nat) (hs : 1 ≤ size) (cin : List α) (k : Nat) (hk : k ≤ n) :
    ∃ world, stateAtRound n size cin k = some world ∧ ProcShape n size world ∧
      ∀ g j, g < n → j < 2 * n →
        procEntry n size world g j = pivotSteps k (inputMatrix n cin) g j := by
  have hA := afterRead_shape n size cin
  obtain ⟨hD, hDrow⟩ := distributed_spec n size hs _ (hA.coordinator hs)
  obtain ⟨h1, h2⟩ := roundsUpTo_spec n size hs _ hD k hk
  refine ⟨_, by unfold stateAtRound; rw [distributeMatrix_eq n size _ hA]; rfl, h1, ?_⟩
  intro g j hg hj
  rw [h2 g j hg hj]
  apply pivotSteps_congr n _ _ _ k hk g j hg hj
  intro g' j' hg' _
  unfold ownedEntry
  rw [hDrow g' hg']
  exact afterRead_coordinator n size hs cin g' j'

/-- C10. Whatever the arithmetic, as long as it has the IEEE 754 behaviour of
`NonFiniteArith`: when the pivot read in some round `c < n` is a zero, the run goes on
through all rounds and returns, from round `c` on every entry held by the processes is
an infinity or a NaN, and so is every entry of the matrix rank 0 ends with, its right
half (columns `n` to `2 * n - 1`) included. -/
theorem zero_pivot_spreads_non_finite {α : Type} [Zero α] [One α] [Sub α] [Mul α] [Div α]
    (isZero nonFinite : α → Prop) (laws : NonFiniteArith α isZero nonFinite)
    (n w : Nat) (cin : List α) (c : Nat) (hw : 1 ≤ w) (hc : c < n)
    (hp : ∃ p, pivotValue n w cin c = some p ∧ isZero p) :
    (∀ k, c < k → k ≤ n → ∃ world, stateAtRound n w cin k = some world ∧
      ∀ g j, g < n → j < 2 * n → nonFinite (procEntry n w world g j)) ∧
    (∃ M, coordinatorResult n w cin = some M ∧ Shape M n (2 * n) ∧
      ∀ i j, i < n → j < 2 * n → nonFinite (readAt M i j)) := by
  have hz : isZero (pivotSteps c (inputMatrix n cin) c c) := by
    obtain ⟨p, e, hz⟩ := hp
    rw [pivotValue_eq n w hw cin c hc] at e
    cases e
    exact hz
  constructor
  · intro k hck hkn
    obtain ⟨world, e, _, hent⟩ := stateAtRound_spec n w hw cin k hkn
    refine ⟨world, e, ?_⟩
    intro g j hg hj
    rw [hent g j hg hj]
    exact pivotSteps_after_zero_pivot isZero nonFinite laws c _ hz k hck g j
  · refine ⟨_, coordinatorResult_eq n w hw cin, shape_map_range _ _ _, ?_⟩
    intro i j hi hj
    rw [readAt_map_range _ _ _ _ _ hi hj]
    exact pivotSteps_after_zero_pivot isZero nonFinite laws c _ hz n hc i j

theorem zero_pivot_spreads_non_finite_witness :
    NonFiniteArith Dbl (fun x => x = .finite 0) Dbl.nonFinite ∧ 1 ≤ 2 ∧ 0 < 2 ∧
    (∃ p, pivotValue 2 2 [Dbl.finite 0, Dbl.finite 1, Dbl.finite 1, Dbl.finite 0] 0 = some p ∧
      p = .finite 0) ∧
    ((∀ k, 0 < k → k ≤ 2 → ∃ world,
      stateAtRound 2 2 [Dbl.finite 0, Dbl.finite 1, Dbl.finite 1, Dbl.finite 0] k = some world ∧
      ∀ g j, g < 2 → j < 2 * 2 → Dbl.nonFinite (procEntry 2 2 world g j)) ∧
    (∃ M, coordinatorResult 2 2 [Dbl.finite 0, Dbl.finite 1, Dbl.finite 1, Dbl.finite 0]
        = some M ∧ Shape M 2 (2 * 2) ∧
      ∀ i j, i < 2 → j < 2 * 2 → Dbl.nonFinite (readAt M i j))) :=
  ⟨Dbl.nonFiniteArith, by decide, by decide, ⟨_, rfl, rfl⟩,
    zero_pivot_spreads_non_finite (fun x => x = .finite 0) Dbl.nonFinite Dbl.nonFiniteArith
      2 2 _ 0 (by decide) (by decide) ⟨_, rfl, rfl⟩⟩

/-! ## Edge cases of the partition -/

/-- C12. With more workers than rows (`n < w`) worker `r < n` owns the single row `r`
(`start_row = r`, `end_row = r + 1`) and every worker `r ≥ n` owns the empty range
(`start_row = end_row = n`); a single worker (`w = 1`) owns `[0, n)`. -/
theorem more_workers_than_rows (n w : Nat) (h : n < w) :
    (∀ r, r < n → start_row n r w = r ∧ end_row n r w = r + 1) ∧
    (∀ r, n ≤ r → start_row n r w = n ∧ end_row n r w = n) ∧
    (start_row n 0 1 = 0 ∧ end_row n 0 1 = n) := by
  have hdiv : n / w = 0 := Nat.div_eq_of_lt h
  have hmod : n % w = n := Nat.mod_eq_of_lt h
  refine ⟨?_, ?_, start_row_zero n 1, end_row_last n 1 (Nat.le_refl 1)⟩
  · intro r hr
    unfold end_row start_row rows_per_process remainder
    rw [hdiv, hmod, if_pos hr, Nat.min_eq_left (Nat.le_of_lt hr)]
    omega
  · intro r hr
    unfold end_row start_row rows_per_process remainder
    rw [hdiv, hmod, if_neg (by omega), Nat.min_eq_right hr]
    omega

theorem more_workers_than_rows_witness :
    2 < 5 ∧ ((∀ r, r < 2 → start_row 2 r 5 = r ∧ end_row 2 r 5 = r + 1) ∧
    (∀ r, 2 ≤ r → start_row 2 r 5 = 2 ∧ end_row 2 r 5 = 2) ∧
    (start_row 2 0 1 = 0 ∧ end_row 2 0 1 = 2)) :=
  ⟨by decide, more_workers_than_rows 2 5 (by decide)⟩

/-! ## Output -/

theorem intersperse_snoc {β : Type} (sep x : β) (l : List β) (hl : l ≠ []) :
    List.intersperse sep (l ++ [x]) = List.intersperse sep l ++ [sep, x] := by
  induction l with
  | nil => exact absurd rfl hl
  | cons a tl ih =>
    cases tl with
    | nil => rfl
    | cons b tl2 =>
      have := ih (by simp)
      simp only [List.cons_append, List.intersperse_cons_cons] at this ⊢
      rw [this]

/-- Values each followed by a separator, then a last value: the values with one
separator between neighbours. -/
theorem flatten_sep_last {β : Type} (sep : β) (g : Nat → β) (k : Nat) :
    ((List.range k).map (fun t => [g t, sep])).flatten ++ [g k] =
      List.intersperse sep ((List.range (k + 1)).map g) := by
  induction k with
  | zero => rfl
  | succ k ih =>
    rw [List.range_succ (k + 1), List.map_append, List.map_singleton,
      intersperse_snoc sep (g (k + 1)) _ (by simp [List.range_succ]), ← ih,
      List.range_succ k, List.map_append, List.flatten_append]
    simp

/-- The pieces written by the loop of lines 143-146 for one row of `k` values. -/
theorem flatten_sep_between {β : Type} (sep : β) (g : Nat → β) (k : Nat) :
    ((List.range k).map (fun t => [g t] ++ if t + 1 < k then [sep] else [])).flatten =
      List.intersperse sep ((List.range k).map g) := by
  cases k with
  | zero => rfl
  | succ k =>
    rw [← flatten_sep_last, List.range_succ k, List.map_append, List.flatten_append]
    congr 1
    · congr 1
      apply List.map_congr_left
      intro t ht
      have := List.mem_range.mp ht
      rw [if_pos (by omega)]
      rfl
    · simp

/-- C11. `printInverse` on rank 0 writes `n` lines, one per row `i` in order; line `i` is
the formatted entries `[i][n]`, ..., `[i][2 * n - 1]` (the right half, in column order)
with one space between neighbours and none after the last, then the newline of `endl`.
On every other rank it writes nothing. -/
theorem printInverse_layout {α : Type} [Zero α] (fmt : α → String) (n : Nat)
    (aug : List (List α)) :
    printInverse fmt n 0 aug =
      ((List.range n).map (fun i =>
        List.intersperse " " ((List.range n).map (fun j => fmt (readAt aug i (n + j))))
          ++ ["\n"])).flatten ∧
    ((List.range n).map (fun i =>
        List.intersperse " " ((List.range n).map (fun j => fmt (readAt aug i (n + j))))
          ++ ["\n"])).length = n ∧
    (∀ rank, printInverse fmt n (rank + 1) aug = []) := by
  refine ⟨?_, by simp, fun rank => by simp [printInverse]⟩
  have inner : ∀ (i : Nat) (out : List String),
      forFromTo n (2 * n) (fun j out =>
        let out2 := out ++ [fmt (readAt aug i j)]
        if j < 2 * n - 1 then out2 ++ [" "] else out2) out =
      out ++ List.intersperse " " ((List.range n).map (fun j => fmt (readAt aug i (n + j)))) := by
    intro i out
    rw [← flatten_sep_between]
    unfold forFromTo
    have hk : 2 * n - n = n := by omega
    rw [hk, ← forUpTo_append]
    congr 1
    funext t out
    by_cases ht : t + 1 < n
    · rw [if_pos ht]
      simp only [show n + t < 2 * n - 1 by omega, if_true, List.append_assoc]
    · rw [if_neg ht]
      have h2 : ¬ n + t < 2 * n - 1 := by omega
      simp only [h2, if_false, List.append_nil]
  unfold printInverse
  rw [if_pos rfl]
  simp only [inner]
  have outer := forUpTo_append (fun i =>
    List.intersperse " " ((List.range n).map (fun j => fmt (readAt aug i (n + j)))) ++ ["\n"])
    n []
  simp only [List.nil_append, List.append_assoc] at outer ⊢
  exact outer

/-! ## Rows a process does not write -/

theorem getD_writeAt_ne {α : Type} (aug : List (List α)) (i j : Nat) (v : α) (r : Nat)
    (h : r ≠ i) : (writeAt aug i j v).getD r [] = aug.getD r [] := by
  unfold writeAt
  rw [getD_set, if_neg (fun e => h e.1.symm)]

/-- The loop of lines 83-86 writes local row `lr` only. -/
theorem normalize_loop_frame {α : Type} [Zero α] [Div α] (lr : Nat) (p : α) (s : ProcState α)
    (k r : Nat) (h : r ≠ lr) :
    (forUpTo k (fun j (s : ProcState α) =>
        let aug := writeAt s.augmented lr j (readAt s.augmented lr j / p)
        ({ augmented := aug, pivot_row := s.pivot_row.set j (readAt aug lr j) } : ProcState α))
      s).augmented.getD r [] = s.augmented.getD r [] := by
  induction k with
  | zero => rfl
  | succ k ih =>
    simp only [forUpTo]
    rw [getD_writeAt_ne _ _ _ _ _ h, ih]

/-- The loop of lines 97-99 writes local row `i` only. -/
theorem eliminate_inner_frame {α : Type} [Zero α] [Sub α] [Mul α] (i : Nat) (f : α)
    (pr : List α) (a : List (List α)) (k r : Nat) (h : r ≠ i) :
    (forUpTo k (fun j aug =>
        writeAt aug i j (readAt aug i j - f * pr.getD j 0)) a).getD r [] = a.getD r [] := by
  induction k with
  | zero => rfl
  | succ k ih =>
    simp only [forUpTo]
    rw [getD_writeAt_ne _ _ _ _ _ h, ih]

/-- The loop of lines 93-101 over the first `k` local rows writes none of the rows
from `k` on. -/
theorem eliminate_outer_frame {α : Type} [Zero α] [Sub α] [Mul α] (n start c : Nat)
    (pr : List α) (a : List (List α)) (k r : Nat) (h : k ≤ r) :
    (forUpTo k (fun i aug =>
        let global_row := start + i
        if global_row ≠ c then
          let factor := readAt aug i c
          forUpTo (2 * n) (fun j aug =>
            writeAt aug i j (readAt aug i j - factor * pr.getD j 0)) aug
        else aug) a).getD r [] = a.getD r [] := by
  induction k with
  | zero => rfl
  | succ k ih =>
    simp only [forUpTo]
    by_cases hc : start + k = c
    · simp only [hc, ne_eq, not_true_eq_false, if_false]
      exact ih (by omega)
    · simp only [ne_eq, hc, not_false_eq_true, if_true]
      rw [eliminate_inner_frame _ _ _ _ _ _ (by omega), ih (by omega)]

/-- A rank other than the pivot owner skips lines 79-86. -/
theorem normalizeStep_other {α : Type} [Zero α] [Div α] (n r size c : Nat) (s : ProcState α)
    (h : r ≠ findPivotOwner n size c) : normalizeStep n r size c s = s := by
  unfold normalizeStep
  simp only [if_neg h]

theorem normalizeStep_frame {α : Type} [Zero α] [Div α] (n r size c : Nat) (s : ProcState α)
    (i : Nat) (h : r = findPivotOwner n size c → i ≠ c - start_row n r size) :
    (normalizeStep n r size c s).augmented.getD i [] = s.augmented.getD i [] := by
  by_cases ho : r = findPivotOwner n size c
  · unfold normalizeStep
    simp only [if_pos ho]
    exact normalize_loop_frame _ _ s _ i (h ho)
  · rw [normalizeStep_other n r size c s ho]

theorem eliminateStep_frame {α : Type} [Zero α] [Sub α] [Mul α] (n r size c : Nat)
    (s : ProcState α) (i : Nat) (h : end_row n r size - start_row n r size ≤ i) :
    (eliminateStep n r size c s).augmented.getD i [] = s.augmented.getD i [] :=
  eliminate_outer_frame n _ c s.pivot_row s.augmented _ i h

theorem bcastStep_augmented {α : Type} (n size c : Nat) (world : List (ProcState α))
    (s : ProcState α) : (bcastStep n size c world s).augmented = s.augmented := rfl

/-- A round leaves the rows of rank `r` outside its range as they are. -/
theorem gaussJordanRound_frame {α : Type} [Zero α] [Sub α] [Mul α] [Div α] (n size c : Nat)
    (hs : 1 ≤ size) (hc : c < n) (world : List (ProcState α)) (r : Nat) (hr : r < size)
    (i : Nat) (hi : end_row n r size - start_row n r size ≤ i) :
    ((gaussJordanRound n size c world).getD r default).augmented.getD i [] =
      (world.getD r default).augmented.getD i [] := by
  rw [gaussJordanRound_getD n size c r hr, eliminateStep_frame n r size c _ i hi,
    bcastStep_augmented, normalizeStep_frame]
  intro ho
  have := findPivotOwner_range n size c hs hc
  rw [← ho] at this
  omega

/-- All rounds leave the rows of rank `r` outside its range as they are. -/
theorem roundsUpTo_frame {α : Type} [Zero α] [Sub α] [Mul α] [Div α] (n size : Nat)
    (hs : 1 ≤ size) (world : List (List (List α))) (k : Nat) (hk : k ≤ n) (r : Nat)
    (hr : r < size) (i : Nat) (hi : end_row n r size - start_row n r size ≤ i) :
    ((roundsUpTo n size k world).getD r default).augmented.getD i [] =
      (world.getD r []).getD i [] := by
  induction k with
  | zero =>
    show ((enterElimination n size world).getD r default).augmented.getD i [] = _
    unfold enterElimination
    rw [getD_map_range _ _ _ _ hr]
  | succ k ih =>
    show ((gaussJordanRound n size k (roundsUpTo n size k world)).getD r default).augmented.getD
      i [] = _
    rw [gaussJordanRound_frame n size k hs (by omega) _ r hr i hi, ih (by omega)]

/-- C13. In round `c < n` on `w ≥ 1` ranks: the pivot owner is a rank below `w` and every
other rank skips the normalisation; a round leaves every row of rank `r` at a local
index outside `[0, end_row r - start_row r)` as it is, so a rank writes rows of its own
range only; the copies rank 0 keeps of the global rows from `end_row 0` on come out of
all `n` rounds unchanged; and `gatherResult` then returns with every global row of rank 0
replaced by the row of its owner. -/
theorem ranks_write_own_rows_only {α : Type} [Zero α] [Sub α] [Mul α] [Div α] (n w c : Nat)
    (stores : List (List (List α))) (world : List (ProcState α)) (hw : 1 ≤ w) (hc : c < n)
    (hshape : WorldShape n w stores) :
    (findPivotOwner n w c < w ∧
      ∀ r (s : ProcState α), r ≠ findPivotOwner n w c → normalizeStep n r w c s = s) ∧
    (∀ r i, r < w → end_row n r w - start_row n r w ≤ i →
      ((gaussJordanRound n w c world).getD r default).augmented.getD i [] =
        (world.getD r default).augmented.getD i []) ∧
    (∀ g, end_row n 0 w ≤ g →
      ((gaussJordanElimination n w stores).getD 0 []).getD g [] = (stores.getD 0 []).getD g []) ∧
    (∃ gathered, gatherResult n w (gaussJordanElimination n w stores) = some gathered ∧
      ∀ g, g < n →
        (gathered.getD 0 []).getD g [] = ownedRow n w (gaussJordanElimination n w stores) g) := by
  obtain ⟨hE, _⟩ := gaussJordanElimination_spec n w hw stores hshape
  refine ⟨⟨findPivotOwner_lt n w c hw hc, fun r s h => normalizeStep_other n r w c s h⟩,
    fun r i hr hi => gaussJordanRound_frame n w c hw hc world r hr i hi, ?_,
    ⟨_, gatherResult_eq n w hw _ hE, ?_⟩⟩
  · intro g hg
    have h0 : (gaussJordanElimination n w stores).getD 0 [] =
        ((roundsUpTo n w n stores).getD 0 default).augmented :=
      getD_map_default (fun s : ProcState α => s.augmented) _ 0 default
    rw [h0]
    exact roundsUpTo_frame n w hw stores n (Nat.le_refl _) 0 (by omega) g
      (by rw [start_row_zero]; omega)
  · intro g hg
    rw [getD_set, if_pos ⟨rfl, by rw [hE.1]; omega⟩, getD_map_range _ _ _ _ hg]

theorem ranks_write_own_rows_only_witness :
    1 ≤ 2 ∧ 0 < 2 ∧
    WorldShape 2 2 ([[[2, 1, 1, 0], [1, 1, 0, 1]], [[1, 1, 0, 1]]] : List (List (List ℚ))) ∧
    ((findPivotOwner 2 2 0 < 2 ∧
      ∀ r (s : ProcState ℚ), r ≠ findPivotOwner 2 2 0 → normalizeStep 2 r 2 0 s = s) ∧
    (∀ r i, r < 2 → end_row 2 r 2 - start_row 2 r 2 ≤ i →
      ((gaussJordanRound 2 2 0 ([⟨[[2, 1, 1, 0], [1, 1, 0, 1]], [0, 0, 0, 0]⟩,
        ⟨[[1, 1, 0, 1]], [0, 0, 0, 0]⟩] : List (ProcState ℚ))).getD r default).augmented.getD
          i [] =
        (([⟨[[2, 1, 1, 0], [1, 1, 0, 1]], [0, 0, 0, 0]⟩,
          ⟨[[1, 1, 0, 1]], [0, 0, 0, 0]⟩] : List (ProcState ℚ)).getD r default).augmented.getD
            i []) ∧
    (∀ g, end_row 2 0 2 ≤ g →
      ((gaussJordanElimination 2 2
        ([[[2, 1, 1, 0], [1, 1, 0, 1]], [[1, 1, 0, 1]]] : List (List (List ℚ)))).getD 0 []).getD
          g [] =
        (([[[2, 1, 1, 0], [1, 1, 0, 1]], [[1, 1, 0, 1]]] : List (List (List ℚ))).getD 0 []).getD
          g []) ∧
    (∃ gathered, gatherResult 2 2 (gaussJordanElimination 2 2
        ([[[2, 1, 1, 0], [1, 1, 0, 1]], [[1, 1, 0, 1]]] : List (List (List ℚ)))) =
          some gathered ∧
      ∀ g, g < 2 →
        (gathered.getD 0 []).getD g [] = ownedRow 2 2 (gaussJordanElimination 2 2
          ([[[2, 1, 1, 0], [1, 1, 0, 1]], [[1, 1, 0, 1]]] : List (List (List ℚ)))) g)) :=
  ⟨by decide, by decide, by decide,
    ranks_write_own_rows_only 2 2 0 _ _ (by decide) (by decide) (by decide)⟩

/-! ## Indices and invariants of the rounds -/

/-- C15. For `w ≥ 1`, a rank `r < w` and a round `c < n`: rank `r` allocates
`allocatedRows n r w` rows (`n` on rank 0, `end_row - start_row` elsewhere) of `2 * n`
columns and still holds that many at the start of round `c`, with a buffer `pivot_row`
of `2 * n` values; on the owner of `c` the index `local_row = c - start_row` is formed
without going below zero and lies below `end_row - start_row`, hence below the allocated
row count; every elimination index `i < end_row - start_row` lies below the allocated row
count; and the column index `pivot_col = c`, like the loop indices `j < 2 * n`, lies
below `2 * n`. -/
theorem elimination_indices_in_bounds {α : Type} [Zero α] [One α] [Sub α] [Mul α] [Div α]
    (n w r c : Nat) (cin : List α) (hw : 1 ≤ w) (hr : r < w) (hc : c < n) :
    Shape (ctor n r w : List (List α)) (allocatedRows n r w) (2 * n) ∧
    allocatedRows n r w = (if r = 0 then n else end_row n r w - start_row n r w) ∧
    (∃ world, stateAtRound n w cin c = some world ∧
      Shape (world.getD r default).augmented (allocatedRows n r w) (2 * n) ∧
      (world.getD r default).pivot_row.length = 2 * n) ∧
    (r = findPivotOwner n w c →
      start_row n r w ≤ c ∧ c - start_row n r w < end_row n r w - start_row n r w ∧
        c - start_row n r w < allocatedRows n r w) ∧
    (∀ i, i < end_row n r w - start_row n r w → i < allocatedRows n r w) ∧
    c < 2 * n := by
  have hcount := count_le_allocatedRows n r w hr
  obtain ⟨world, e, hshape, _⟩ := stateAtRound_spec n w hw cin c (Nat.le_of_lt hc)
  refine ⟨shape_ctor n r w, rfl, ⟨world, e, (hshape.2 r hr).1, (hshape.2 r hr).2⟩, ?_,
    fun i hi => by omega, by omega⟩
  intro ho
  have := findPivotOwner_range n w c hw hc
  rw [← ho] at this
  omega

theorem elimination_indices_in_bounds_witness :
    1 ≤ 2 ∧ 1 < 2 ∧ 2 < 3 ∧
    (Shape (ctor 3 1 2 : List (List ℚ)) (allocatedRows 3 1 2) (2 * 3) ∧
    allocatedRows 3 1 2 = (if 1 = 0 then 3 else end_row 3 1 2 - start_row 3 1 2) ∧
    (∃ world, stateAtRound 3 2 ([2, 1, 1, 1, 3, 2, 1, 0, 0] : List ℚ) 2 = some world ∧
      Shape (world.getD 1 default).augmented (allocatedRows 3 1 2) (2 * 3) ∧
      (world.getD 1 default).pivot_row.length = 2 * 3) ∧
    (1 = findPivotOwner 3 2 2 →
      start_row 3 1 2 ≤ 2 ∧ 2 - start_row 3 1 2 < end_row 3 1 2 - start_row 3 1 2 ∧
        2 - start_row 3 1 2 < allocatedRows 3 1 2) ∧
    (∀ i, i < end_row 3 1 2 - start_row 3 1 2 → i < allocatedRows 3 1 2) ∧
    2 < 2 * 3) :=
  ⟨by decide, by decide, by decide,
    elimination_indices_in_bounds 3 2 1 2 _ (by decide) (by decide) (by decide)⟩

/-! ## An invertible input with a zero pivot -/

/-- C14. The matrix `[[0, 1], [1, 0]]` is invertible (it is its own inverse over the
rationals), yet on every number `w ≥ 1` of ranks, in the IEEE 754 arithmetic of `Dbl`:
the pivot read in round 0 is zero; round 0 divides row 0 by it in place, without
exchanging rows; the run returns with every entry of rank 0 a NaN; and no entry of the
right half is the entry of the inverse. -/
theorem zero_pivot_on_invertible_input (w : Nat) (hw : 1 ≤ w) :
    (∀ i j, i < 2 → j < 2 →
      ∑ m in Finset.range 2, ([0, 1, 1, 0] : List ℚ).getD (i * 2 + m) 0 *
        ([0, 1, 1, 0] : List ℚ).getD (m * 2 + j) 0 = if i = j then 1 else 0) ∧
    pivotValue 2 w [Dbl.finite 0, Dbl.finite 1, Dbl.finite 1, Dbl.finite 0] 0 =
      some (Dbl.finite 0) ∧
    (∃ world, stateAtRound 2 w [Dbl.finite 0, Dbl.finite 1, Dbl.finite 1, Dbl.finite 0] 1 =
        some world ∧
      ∀ j, j < 2 * 2 → procEntry 2 w world 0 j =
        inputMatrix 2 [Dbl.finite 0, Dbl.finite 1, Dbl.finite 1, Dbl.finite 0] 0 j /
          Dbl.finite 0) ∧
    (∃ M, coordinatorResult 2 w [Dbl.finite 0, Dbl.finite 1, Dbl.finite 1, Dbl.finite 0] =
        some M ∧
      M = [[Dbl.nan, Dbl.nan, Dbl.nan, Dbl.nan], [Dbl.nan, Dbl.nan, Dbl.nan, Dbl.nan]] ∧
      ∀ i j, i < 2 → j < 2 →
        readAt M i (2 + j) ≠ Dbl.finite (([0, 1, 1, 0] : List ℚ).getD (i * 2 + j) 0)) := by
  refine ⟨?_, ?_, ?_, ?_⟩
  · intro i j hi hj
    interval_cases i <;> interval_cases j <;> simp [Finset.sum_range_succ]
  · rw [pivotValue_eq 2 w hw _ 0 (by decide)]
    rfl
  · obtain ⟨world, e, _, hent⟩ := stateAtRound_spec 2 w hw
      [Dbl.finite 0, Dbl.finite 1, Dbl.finite 1, Dbl.finite 0] 1 (by decide)
    refine ⟨world, e, ?_⟩
    intro j hj
    rw [hent 0 j (by decide) hj]
    rfl
  · have hM : coordinatorResult 2 w [Dbl.finite 0, Dbl.finite 1, Dbl.finite 1, Dbl.finite 0] =
        some [[Dbl.nan, Dbl.nan, Dbl.nan, Dbl.nan], [Dbl.nan, Dbl.nan, Dbl.nan, Dbl.nan]] := by
      rw [coordinatorResult_eq 2 w hw _]
      rfl
    refine ⟨_, hM, rfl, ?_⟩
    intro i j hi hj
    interval_cases i <;> interval_cases j <;> exact fun h => Dbl.noConfusion h

theorem zero_pivot_on_invertible_input_witness :
    1 ≤ 3 ∧
    ((∀ i j, i < 2 → j < 2 →
      ∑ m in Finset.range 2, ([0, 1, 1, 0] : List ℚ).getD (i * 2 + m) 0 *
        ([0, 1, 1, 0] : List ℚ).getD (m * 2 + j) 0 = if i = j then 1 else 0) ∧
    pivotValue 2 3 [Dbl.finite 0, Dbl.finite 1, Dbl.finite 1, Dbl.finite 0] 0 =
      some (Dbl.finite 0) ∧
    (∃ world, stateAtRound 2 3 [Dbl.finite 0, Dbl.finite 1, Dbl.finite 1, Dbl.finite 0] 1 =
        some world ∧
      ∀ j, j < 2 * 2 → procEntry 2 3 world 0 j =
        inputMatrix 2 [Dbl.finite 0, Dbl.finite 1, Dbl.finite 1, Dbl.finite 0] 0 j /
          Dbl.finite 0) ∧
    (∃ M, coordinatorResult 2 3 [Dbl.finite 0, Dbl.finite 1, Dbl.finite 1, Dbl.finite 0] =
        some M ∧
      M = [[Dbl.nan, Dbl.nan, Dbl.nan, Dbl.nan], [Dbl.nan, Dbl.nan, Dbl.nan, Dbl.nan]] ∧
      ∀ i j, i < 2 → j < 2 →
        readAt M i (2 + j) ≠ Dbl.finite (([0, 1, 1, 0] : List ℚ).getD (i * 2 + j) 0))) :=
  ⟨by decide, zero_pivot_on_invertible_input 3 (by decide)⟩

/-! ## Laws of the binary64 arithmetic -/

theorem pow2_eq (k : Nat) : pow2 k = 2 ^ k := by
  unfold pow2
  rw [← pow_mul, ← pow_add, Nat.div_add_mod]

theorem lt_pow2_of_lt (n a b : Nat) (h : n < 2 ^ a) (hab : a ≤ b) : n < pow2 b := by
  rw [pow2_eq]
  exact Nat.lt_of_lt_of_le h (Nat.pow_le_pow_right (by decide) hab)

theorem log2Floor_step (n k b : Nat) (h1 : pow2 k ≤ n) (h2 : n < pow2 (k + (b + b))) :
    pow2 (if pow2 (k + b) ≤ n then k + b else k) ≤ n ∧
      n < pow2 ((if pow2 (k + b) ≤ n then k + b else k) + b) := by
  by_cases h : pow2 (k + b) ≤ n
  · rw [if_pos h]
    exact ⟨h, by rw [Nat.add_assoc]; exact h2⟩
  · rw [if_neg h]
    exact ⟨h1, by omega⟩

/-- The value `log2Floor n` is the position of the leading bit of `n`. -/
theorem log2Floor_spec (n : Nat) (h0 : 0 < n) (h : n < pow2 4096) :
    2 ^ log2Floor n ≤ n ∧ n < 2 ^ (log2Floor n + 1) := by
  rw [← pow2_eq, ← pow2_eq]
  unfold log2Floor
  simp only [List.foldl]
  have s0 : pow2 0 ≤ n ∧ n < pow2 (0 + (2048 + 2048)) := ⟨h0, h⟩
  have s1 := log2Floor_step n _ 2048 s0.1 s0.2
  have s2 := log2Floor_step n _ 1024 s1.1 s1.2
  have s3 := log2Floor_step n _ 512 s2.1 s2.2
  have s4 := log2Floor_step n _ 256 s3.1 s3.2
  have s5 := log2Floor_step n _ 128 s4.1 s4.2
  have s6 := log2Floor_step n _ 64 s5.1 s5.2
  have s7 := log2Floor_step n _ 32 s6.1 s6.2
  have s8 := log2Floor_step n _ 16 s7.1 s7.2
  have s9 := log2Floor_step n _ 8 s8.1 s8.2
  have s10 := log2Floor_step n _ 4 s9.1 s9.2
  have s11 := log2Floor_step n _ 2 s10.1 s10.2
  have s12 := log2Floor_step n _ 1 s11.1 s11.2
  exact s12

theorem log2Floor_unique (n k : Nat) (h : n < pow2 4096) (h1 : 2 ^ k ≤ n)
    (h2 : n < 2 ^ (k + 1)) : log2Floor n = k := by
  have h0 : 0 < n := Nat.lt_of_lt_of_le (Nat.pow_pos (by decide)) h1
  obtain ⟨a, b⟩ := log2Floor_spec n h0 h
  have c1 : log2Floor n < k + 1 :=
    (Nat.pow_lt_pow_iff_right (by decide : 1 < 2)).mp (Nat.lt_of_le_of_lt a h2)
  have c2 : k < log2Floor n + 1 :=
    (Nat.pow_lt_pow_iff_right (by decide : 1 < 2)).mp (Nat.lt_of_le_of_lt h1 b)
  omega

theorem log2Floor_pow (t : Nat) (ht : t ≤ 64) : log2Floor (2 ^ t) = t := by
  apply log2Floor_unique
  · exact lt_pow2_of_lt _ (t + 1) _ (Nat.pow_lt_pow_right (by decide) (by omega)) (by omega)
  · exact Nat.le_refl _
  · exact Nat.pow_lt_pow_right (by decide) (by omega)

/-- A nonzero value over itself rounds to `1.0`. -/
theorem F64.round_self (m : Nat) (hm : m ≠ 0) : F64.round false m m 0 = 1 := by
  have hl : log2Ratio m m = 0 := by
    unfold log2Ratio
    simp [pow2_eq]
  unfold F64.round
  rw [if_neg hm, hl]
  have hpos : 0 < m := Nat.pos_of_ne_zero hm
  have hq : m * pow2 52 / m = 2 ^ 52 := by
    rw [pow2_eq]
    exact Nat.mul_div_cancel_left _ hpos
  have hr : m * pow2 52 % m = 0 := Nat.mul_mod_right _ _
  simp only [Int.zero_add, show ¬ ((1024 : Int) ≤ 0) by decide, if_false,
    show max (0 : Int) (-1022) - 52 = -52 by decide, show (0 : Int) - -52 = 52 by decide,
    show (0 : Int) ≤ 52 by decide, if_true, show (52 : Int).toNat = 52 by decide, hq, hr]
  have hc : ¬ (m < 2 * 0 ∨ 2 * 0 = m ∧ 2 ^ 52 % 2 = 1) := by
    rintro (h | ⟨h, _⟩) <;> omega
  simp only [if_neg hc]
  decide


/-- A finite `double` rounds to itself. -/
theorem F64.round_exact (a : Bool) (m : Nat) (e : Int) (hodd : m % 2 = 1) (hm : m < 2 ^ 53)
    (he : -1074 ≤ e) (hE : e + (log2Floor m : Int) ≤ 1023) :
    F64.round a m 1 e = .finite a m e := by
  have hm0 : m ≠ 0 := by omega
  have hpos : 0 < m := Nat.pos_of_ne_zero hm0
  have hbig : m < pow2 4096 := lt_pow2_of_lt m 53 4096 hm (by decide)
  obtain ⟨hL1, hL2⟩ := log2Floor_spec m hpos hbig
  have hL : log2Floor m ≤ 52 := by
    have : log2Floor m < 53 :=
      (Nat.pow_lt_pow_iff_right (by decide : 1 < 2)).mp (Nat.lt_of_le_of_lt hL1 hm)
    omega
  have h1 : log2Floor 1 = 0 := log2Floor_pow 0 (by decide)
  have hl : log2Ratio m 1 = (log2Floor m : Int) := by
    unfold log2Ratio
    simp only [h1]
    simp [pow2_eq, hL1]
  unfold F64.round
  rw [if_neg hm0, hl]
  simp only []
  rw [if_neg (by omega)]
  have hq : ∃ q : Int, max ((log2Floor m : Int) + e) (-1022) - 52 = q ∧ q ≤ 971 ∧
      ∃ T : Nat, e - q = (T : Int) ∧ T + log2Floor m ≤ 52 := by
    rcases le_total (-1022 : Int) ((log2Floor m : Int) + e) with h | h
    · refine ⟨_, rfl, ?_, (52 - log2Floor m), ?_, ?_⟩
      · rw [max_eq_left h]; omega
      · rw [max_eq_left h]; omega
      · omega
    · refine ⟨_, rfl, ?_, (e + 1074).toNat, ?_, ?_⟩
      · rw [max_eq_right h]; omega
      · rw [max_eq_right h]; omega
      · omega
  obtain ⟨q, hq1, hq2, T, hT1, hT2⟩ := hq
  rw [hq1, hT1]
  simp only [Int.toNat_ofNat, Int.ofNat_nonneg, Nat.cast_nonneg, if_true, Nat.div_one, Nat.mod_one]
  have hc : ¬ (1 < 2 * 0 ∨ 2 * 0 = 1 ∧ m * pow2 T % 2 = 1) := by
    rintro (h | ⟨h, _⟩) <;> omega
  simp only [if_neg hc]
  simp only [pow2_eq]
  have hMpos : m * 2 ^ T ≠ 0 :=
    Nat.mul_ne_zero hm0 (Nat.pos_iff_ne_zero.mp (Nat.pow_pos (by decide)))
  have hMlt : m * 2 ^ T < 2 ^ (1024 - q).toNat := by
    calc m * 2 ^ T < 2 ^ (log2Floor m + 1) * 2 ^ T :=
          Nat.mul_lt_mul_of_pos_right hL2 (Nat.pow_pos (by decide))
      _ = 2 ^ (log2Floor m + 1 + T) := (pow_add 2 _ _).symm
      _ ≤ 2 ^ (1024 - q).toNat := Nat.pow_le_pow_right (by decide) (by omega)
  rw [if_neg hMpos, if_neg (by omega)]
  have hgcd : Nat.gcd (m * 2 ^ T) (2 ^ 64) = 2 ^ T := by
    have hco : Nat.Coprime m (2 ^ 64) := by
      apply Nat.Coprime.pow_right
      rw [Nat.coprime_comm, Nat.Prime.coprime_iff_not_dvd Nat.prime_two]
      omega
    rw [Nat.Coprime.gcd_mul_left_cancel _ hco]
    exact Nat.gcd_eq_left (pow_dvd_pow 2 (by omega))
  unfold F64.normal
  rw [hgcd, log2Floor_pow T (by omega)]
  have h2T : 0 < 2 ^ T := Nat.pow_pos (by decide)
  rw [Nat.mul_div_cancel m h2T, show q + (T : Int) = e by omega]


theorem F64.isZero_iff (x : F64) :
    F64.isZero x = true ↔ x = .finite false 0 0 ∨ x = .finite true 0 0 := by
  cases x with
  | finite a m e =>
    cases a <;> simp [F64.isZero]
  | inf s => simp [F64.isZero]
  | nan => simp [F64.isZero]

theorem F64.isFinite_cases (x : F64) (h : ¬ (F64.isFinite x = false)) :
    ∃ a m e, x = .finite a m e ∧ ((m = 0 ∧ e = 0) ∨
      (m % 2 = 1 ∧ m < 2 ^ 53 ∧ -1074 ≤ e ∧ e + (log2Floor m : Int) ≤ 1023)) := by
  cases x with
  | finite a m e =>
    refine ⟨a, m, e, rfl, ?_⟩
    have h2 : F64.isFinite (.finite a m e) = true := by
      cases hb : F64.isFinite (.finite a m e)
      · exact absurd hb h
      · rfl
    exact of_decide_eq_true h2
  | inf s => exact absurd rfl h
  | nan => exact absurd rfl h

/-- The binary64 arithmetic has the laws of finite values. -/
theorem F64.finiteArith :
    FiniteArith F64 (fun x => F64.isZero x = true) (fun x => F64.isFinite x = false) where
  div_self := by
    intro p hf hz
    obtain ⟨a, m, e, rfl, hv⟩ := F64.isFinite_cases p hf
    have hm : m ≠ 0 := by
      rcases hv with ⟨h1, h2⟩ | h
      · exact absurd (by simp [F64.isZero, h1, h2]) hz
      · omega
    show F64.div (.finite a m e) (.finite a m e) = 1
    simp only [F64.div, if_neg hm, Bool.xor_self, sub_self]
    exact F64.round_self m hm
  mul_one := by
    intro x hf
    obtain ⟨a, m, e, rfl, hv⟩ := F64.isFinite_cases x hf
    show F64.mul (.finite a m e) (.finite false 1 0) = .finite a m e
    simp only [F64.mul, Bool.xor_false, Nat.mul_one, add_zero]
    rcases hv with ⟨h1, h2⟩ | ⟨h1, h2, h3, h4⟩
    · subst h1 h2
      rfl
    · exact F64.round_exact a m e h1 h2 h3 h4
  sub_self := by
    intro x hf
    obtain ⟨a, m, e, rfl, _⟩ := F64.isFinite_cases x hf
    show F64.isZero (F64.add (.finite a m e) (.finite (!a) m e)) = true
    cases a <;> simp [F64.add, F64.isZero]
  zero_div := by
    intro x p hx hf hz
    obtain ⟨c, k, f, rfl, hv⟩ := F64.isFinite_cases p hf
    have hk : k ≠ 0 := by
      rcases hv with ⟨h1, h2⟩ | h
      · exact absurd (by simp [F64.isZero, h1, h2]) hz
      · omega
    rcases (F64.isZero_iff x).mp hx with rfl | rfl <;>
      · show F64.isZero (F64.div _ _) = true
        simp [F64.div, hk, F64.round, F64.isZero]
  mul_zero := by
    intro f y hf hy
    obtain ⟨a, m, e, rfl, _⟩ := F64.isFinite_cases f hf
    rcases (F64.isZero_iff y).mp hy with rfl | rfl <;>
      · show F64.isZero (F64.mul _ _) = true
        simp [F64.mul, F64.round, F64.isZero]
  one_sub_zero := by
    intro y hy
    rcases (F64.isZero_iff y).mp hy with rfl | rfl <;> decide
  zero_sub_zero := by
    intro x y hx hy
    rcases (F64.isZero_iff x).mp hx with rfl | rfl <;>
      rcases (F64.isZero_iff y).mp hy with rfl | rfl <;> decide

/-! ## Unit columns in IEEE 754 arithmetic -/

/-- A round with a finite nonzero pivot and finite entries in column `c` makes column
`c` the unit vector, up to the sign of its zeros. -/
theorem pivotStep_unit_column {α : Type} [One α] [Sub α] [Mul α] [Div α]
    (isZero nonFinite : α → Prop) (laws : FiniteArith α isZero nonFinite) (c : Nat)
    (M : Nat → Nat → α) (hp : ¬ isZero (M c c)) (g : Nat)
    (hc : ¬ nonFinite (M c c)) (hg : ¬ nonFinite (M g c)) :
    if g = c then pivotStep c M g c = 1 else isZero (pivotStep c M g c) := by
  unfold pivotStep
  by_cases hgc : g = c
  · simp only [if_pos hgc]
    exact laws.div_self _ hc hp
  · simp only [if_neg hgc]
    rw [laws.div_self _ hc hp, laws.mul_one _ hg]
    exact laws.sub_self _ hg

/-- A round with a finite nonzero pivot and finite entries in column `c` keeps a unit
column `k ≠ c` a unit column. -/
theorem pivotStep_keeps_unit_column {α : Type} [One α] [Sub α] [Mul α] [Div α]
    (isZero nonFinite : α → Prop) (laws : FiniteArith α isZero nonFinite) (c k : Nat)
    (hkc : k ≠ c) (M : Nat → Nat → α) (hp : ¬ isZero (M c c)) (hc : ¬ nonFinite (M c c))
    (hck : isZero (M c k)) (g : Nat) (hg : ¬ nonFinite (M g c))
    (hgk : if g = k then M g k = 1 else isZero (M g k)) :
    if g = k then pivotStep c M g k = 1 else isZero (pivotStep c M g k) := by
  unfold pivotStep
  have hz : isZero (M c k / M c c) := laws.zero_div _ _ hck hc hp
  by_cases hgc : g = c
  · subst hgc
    rw [if_neg (fun e => hkc e.symm)]
    simp only [if_true]
    exact hz
  · simp only [if_neg hgc]
    have hz2 : isZero (M g c * (M c k / M c c)) := laws.mul_zero _ _ hg hz
    by_cases hgk2 : g = k
    · rw [if_pos hgk2] at hgk ⊢
      rw [hgk]
      exact laws.one_sub_zero _ hz2
    · rw [if_neg hgk2] at hgk ⊢
      exact laws.zero_sub_zero _ _ hgk hz2

/-- After `j` rounds with finite nonzero pivots and finite entries in the pivot
columns, the first `j` columns are unit vectors, up to the sign of their zeros. -/
theorem pivotSteps_unit_columns {α : Type} [One α] [Sub α] [Mul α] [Div α]
    (isZero nonFinite : α → Prop) (laws : FiniteArith α isZero nonFinite) (n : Nat)
    (M : Nat → Nat → α) (j : Nat) (hj : j ≤ n)
    (hreg : ∀ i, i < j → ¬ isZero (pivotSteps i M i i) ∧
      ∀ g, g < n → ¬ nonFinite (pivotSteps i M g i)) :
    ∀ k g, k < j → g < n →
      if g = k then pivotSteps j M g k = 1 else isZero (pivotSteps j M g k) := by
  induction j with
  | zero => intro k g hk; omega
  | succ j ih =>
    intro k g hk hg
    have ih2 := ih (by omega) (fun i hi => hreg i (by omega))
    obtain ⟨hp, hfin⟩ := hreg j (by omega)
    show if g = k then pivotStep j (pivotSteps j M) g k = 1
      else isZero (pivotStep j (pivotSteps j M) g k)
    by_cases hkj : k = j
    · subst hkj
      exact pivotStep_unit_column isZero nonFinite laws k _ hp g (hfin k (by omega)) (hfin g hg)
    · have hk2 : k < j := by omega
      have hjk := ih2 k j hk2 (by omega)
      rw [if_neg (fun e => hkj e.symm)] at hjk
      exact pivotStep_keeps_unit_column isZero nonFinite laws j k hkj _ hp
        (hfin j (by omega)) hjk g (hfin g hg) (ih2 k g hk2 hg)

/-! ## The inverse in rounding arithmetic -/

set_option maxRecDepth 100000 in
/-- C1 fails in binary64 arithmetic.  On two ranks and the input
`[[1e-20, 1], [1, 1]]` (with the `double` nearest to `1e-20`) the pivots of rounds 0 and
1 are `1e-20` and `-1e20`, both finite and not zero, and rank 0 ends with the rows
`[1, 0, 0, 1]` and `[-0, 1, 1, -1e-20]`.  With the right half `R`, entry `[1][0]` of
`A * R` is `1 * 0 + 1 * 1 = 1`, in binary64 and exactly, where the identity has `0`:
off by 1, more than `1e-6`. -/
theorem nonzero_pivots_give_wrong_inverse :
    pivotValue 2 2 [F64.finite false 6646139978924579 (-119), 1, 1, 1] 0 =
      some (F64.finite false 6646139978924579 (-119)) ∧
    F64.finite false 6646139978924579 (-119) ≠ 0 ∧
    F64.isZero (F64.finite false 6646139978924579 (-119)) = false ∧
    F64.isFinite (F64.finite false 6646139978924579 (-119)) = true ∧
    pivotValue 2 2 [F64.finite false 6646139978924579 (-119), 1, 1, 1] 1 =
      some (F64.finite true 95367431640625 20) ∧
    F64.finite true 95367431640625 20 ≠ 0 ∧
    F64.isZero (F64.finite true 95367431640625 20) = false ∧
    F64.isFinite (F64.finite true 95367431640625 20) = true ∧
    ∃ M, coordinatorResult 2 2 [F64.finite false 6646139978924579 (-119), 1, 1, 1] = some M ∧
      M = [[F64.finite false 1 0, F64.finite false 0 0, F64.finite false 0 0,
          F64.finite false 1 0],
        [F64.finite true 0 0, F64.finite false 1 0, F64.finite false 1 0,
          F64.finite true 6646139978924579 (-119)]] ∧
      F64.add
        ([F64.finite false 6646139978924579 (-119), 1, 1, 1].getD (1 * 2 + 0) 0 *
          readAt M 0 (2 + 0))
        ([F64.finite false 6646139978924579 (-119), 1, 1, 1].getD (1 * 2 + 1) 0 *
          readAt M 1 (2 + 0)) = 1 ∧
      (1 : ℚ) / 1000000 <
        |(F64.toRat (F64.finite false 1 0) * F64.toRat (F64.finite false 0 0) +
          F64.toRat (F64.finite false 1 0) * F64.toRat (F64.finite false 1 0)) - 0| := by
  refine ⟨by decide, by decide, by decide, by decide, by decide, by decide, by decide,
    by decide, _, rfl, by decide, by decide, ?_⟩
  simp only [F64.toRat]
  norm_num

/-! ## A round in IEEE 754 arithmetic -/

set_option maxRecDepth 100000 in
/-- C6 fails in binary64 arithmetic.  On two ranks, the input
`[[2 ^ (-600), 1], [2 ^ 600, 1]]` reaches round 1 with the pivot `-inf`, which is not
zero, and round 1 leaves a NaN in column 1 of row 1 (not 1) and of row 0 (not 0).  The
input `[[1, 2 ^ 600, 0], [0, 1, 0], [2 ^ 600, 0, 1]]` reaches round 1 with the pivot
`1.0` and with `-inf` in column 1 of row 2, and round 1 leaves a NaN there (not 0). -/
theorem round_with_nonzero_pivot_leaves_nan :
    (∃ world, stateAtRound 2 2 [F64.finite false 1 (-600), 1, F64.finite false 1 600, 1] 1 =
        some world ∧ ProcShape 2 2 world ∧
      procEntry 2 2 world 1 1 = F64.inf true ∧ procEntry 2 2 world 1 1 ≠ 0 ∧
      F64.isZero (procEntry 2 2 world 1 1) = false ∧
      procEntry 2 2 (gaussJordanRound 2 2 1 world) 1 1 = F64.nan ∧
      procEntry 2 2 (gaussJordanRound 2 2 1 world) 1 1 ≠ 1 ∧
      procEntry 2 2 (gaussJordanRound 2 2 1 world) 0 1 = F64.nan ∧
      F64.isZero (procEntry 2 2 (gaussJordanRound 2 2 1 world) 0 1) = false) ∧
    (∃ world, stateAtRound 3 2 [1, F64.finite false 1 600, 0, 0, 1, 0,
        F64.finite false 1 600, 0, 1] 1 = some world ∧ ProcShape 3 2 world ∧
      procEntry 3 2 world 1 1 = 1 ∧ F64.isZero (procEntry 3 2 world 1 1) = false ∧
      F64.isFinite (procEntry 3 2 world 1 1) = true ∧
      procEntry 3 2 world 2 1 = F64.inf true ∧
      procEntry 3 2 (gaussJordanRound 3 2 1 world) 2 1 = F64.nan ∧
      F64.isZero (procEntry 3 2 (gaussJordanRound 3 2 1 world) 2 1) = false) :=
  ⟨⟨_, rfl, by decide⟩, ⟨_, rfl, by decide⟩⟩

/-- C6 for finite values.  In a round `c < n` on `w ≥ 1` ranks, in an arithmetic with
the laws of IEEE 754 on finite values: when the pivot (the value read at line 80) is not
a zero and every entry of column `c`, the pivot included, is finite, the round leaves
column `c` of global row `c` equal to 1 and column `c` of every other global row, above
or below, a zero (`+0` or `-0`). -/
theorem finite_round_makes_unit_column {α : Type} [Zero α] [One α] [Sub α] [Mul α] [Div α]
    (isZero nonFinite : α → Prop) (laws : FiniteArith α isZero nonFinite) (n w c : Nat)
    (world : List (ProcState α)) (hw : 1 ≤ w) (hc : c < n) (hshape : ProcShape n w world)
    (hp : ¬ isZero (procEntry n w world c c))
    (hfin : ∀ g, g < n → ¬ nonFinite (procEntry n w world g c)) :
    ∀ g, g < n →
      if g = c then procEntry n w (gaussJordanRound n w c world) g c = 1
      else isZero (procEntry n w (gaussJordanRound n w c world) g c) := by
  intro g hg
  rw [(gaussJordanRound_spec n w c hw hc world hshape).2 g c hg (by omega)]
  exact pivotStep_unit_column isZero nonFinite laws c _ hp g (hfin c hc) (hfin g hg)

set_option maxRecDepth 100000 in
theorem finite_round_makes_unit_column_witness :
    1 ≤ 2 ∧ 0 < 2 ∧
    ProcShape 2 2 ([⟨[[.finite false 3602879701896397 (-55),
        .finite false 3602879701896397 (-54), 1, 0],
        [.finite false 5404319552844595 (-54), .finite false 3152519739159347 (-52), 0, 1]],
        [0, 0, 0, 0]⟩,
      ⟨[[.finite false 5404319552844595 (-54), .finite false 3152519739159347 (-52), 0, 1]],
        [0, 0, 0, 0]⟩] : List (ProcState F64)) ∧
    ¬ (F64.isZero (procEntry 2 2 ([⟨[[.finite false 3602879701896397 (-55),
        .finite false 3602879701896397 (-54), 1, 0],
        [.finite false 5404319552844595 (-54), .finite false 3152519739159347 (-52), 0, 1]],
        [0, 0, 0, 0]⟩,
      ⟨[[.finite false 5404319552844595 (-54), .finite false 3152519739159347 (-52), 0, 1]],
        [0, 0, 0, 0]⟩] : List (ProcState F64)) 0 0) = true) ∧
    (∀ g, g < 2 → ¬ (F64.isFinite (procEntry 2 2 ([⟨[[.finite false 3602879701896397 (-55),
        .finite false 3602879701896397 (-54), 1, 0],
        [.finite false 5404319552844595 (-54), .finite false 3152519739159347 (-52), 0, 1]],
        [0, 0, 0, 0]⟩,
      ⟨[[.finite false 5404319552844595 (-54), .finite false 3152519739159347 (-52), 0, 1]],
        [0, 0, 0, 0]⟩] : List (ProcState F64)) g 0) = false)) ∧
    ∀ g, g < 2 →
      if g = 0 then procEntry 2 2 (gaussJordanRound 2 2 0
        ([⟨[[.finite false 3602879701896397 (-55),
          .finite false 3602879701896397 (-54), 1, 0],
          [.finite false 5404319552844595 (-54), .finite false 3152519739159347 (-52), 0, 1]],
          [0, 0, 0, 0]⟩,
        ⟨[[.finite false 5404319552844595 (-54), .finite false 3152519739159347 (-52), 0, 1]],
          [0, 0, 0, 0]⟩] : List (ProcState F64))) g 0 = 1
      else F64.isZero (procEntry 2 2 (gaussJordanRound 2 2 0
        ([⟨[[.finite false 3602879701896397 (-55),
          .finite false 3602879701896397 (-54), 1, 0],
          [.finite false 5404319552844595 (-54), .finite false 3152519739159347 (-52), 0, 1]],
          [0, 0, 0, 0]⟩,
        ⟨[[.finite false 5404319552844595 (-54), .finite false 3152519739159347 (-52), 0, 1]],
          [0, 0, 0, 0]⟩] : List (ProcState F64))) g 0) = true :=
  ⟨by decide, by decide, by decide, by decide, by decide,
    finite_round_makes_unit_column (fun x => F64.isZero x = true)
      (fun x => F64.isFinite x = false) F64.finiteArith 2 2 0 _
      (by decide) (by decide) (by decide) (by decide) (by decide)⟩

/-! ## The relation between the halves, in exact and in rounding arithmetic -/

/-- Row operations keep the left half equal to the right half times a fixed matrix,
when the division by the pivot is the multiplication by one value. -/
theorem pivotStep_relation_of_inverse {α : Type} [CommRing α] [Div α] (n c : Nat)
    (A : Nat → Nat → α) (M : Nat → Nat → α) (i : α) (hi : ∀ x : α, x / M c c = x * i)
    (h : ∀ g j, g < n → j < n → M g j = ∑ m in Finset.range n, M g (n + m) * A m j)
    (hc : c < n) (g j : Nat) (hg : g < n) (hj : j < n) :
    pivotStep c M g j = ∑ m in Finset.range n, pivotStep c M g (n + m) * A m j := by
  unfold pivotStep
  by_cases hgc : g = c
  · simp only [if_pos hgc, hi]
    rw [h c j hc hj, Finset.sum_mul]
    apply Finset.sum_congr rfl
    intro m _
    ring
  · simp only [if_neg hgc, hi]
    rw [h g j hg hj, h c j hc hj, Finset.sum_mul, Finset.mul_sum, ← Finset.sum_sub_distrib]
    apply Finset.sum_congr rfl
    intro m _
    ring

set_option maxRecDepth 100000 in
/-- C16 fails in binary64 arithmetic.  On two ranks and the input
`[[0.1, 0.2], [0.3, 0.7]]` (the nearest values of `double`), `L = R * A` holds at the
start of round 0 and the pivot `0.1` of round 0 is finite and not zero.  After round 0
the rows are `[1, 2, 10, 0]` and `[0, 0.1 - 2 ^ (-55), -3, 1]`: in row 1 and column 0,
`L` is `0` while `R * A`, computed in binary64, is not; in row 0 and column 0, `L` is
`1` while the exact value of `R * A` is `10 * 0.1`, which for the `double` nearest to
`0.1` is not `1`. -/
theorem rounding_breaks_left_eq_right_mul_input :
    ∃ start, stateAtRound 2 2 [F64.finite false 3602879701896397 (-55),
        .finite false 3602879701896397 (-54), .finite false 5404319552844595 (-54),
        .finite false 3152519739159347 (-52)] 0 = some start ∧
      ProcShape 2 2 start ∧
      (∀ g, g < 2 → ∀ j, j < 2 → procEntry 2 2 start g j =
        F64.add
          (procEntry 2 2 start g (2 + 0) * [F64.finite false 3602879701896397 (-55),
            .finite false 3602879701896397 (-54), .finite false 5404319552844595 (-54),
            .finite false 3152519739159347 (-52)].getD (0 * 2 + j) 0)
          (procEntry 2 2 start g (2 + 1) * [F64.finite false 3602879701896397 (-55),
            .finite false 3602879701896397 (-54), .finite false 5404319552844595 (-54),
            .finite false 3152519739159347 (-52)].getD (1 * 2 + j) 0)) ∧
      procEntry 2 2 start 0 0 = F64.finite false 3602879701896397 (-55) ∧
      procEntry 2 2 start 0 0 ≠ 0 ∧
      F64.isFinite (procEntry 2 2 start 0 0) = true ∧
      procEntry 2 2 (gaussJordanRound 2 2 0 start) 1 0 = 0 ∧
      procEntry 2 2 (gaussJordanRound 2 2 0 start) 1 0 ≠
        F64.add
          (procEntry 2 2 (gaussJordanRound 2 2 0 start) 1 (2 + 0) *
            F64.finite false 3602879701896397 (-55))
          (procEntry 2 2 (gaussJordanRound 2 2 0 start) 1 (2 + 1) *
            F64.finite false 5404319552844595 (-54)) ∧
      procEntry 2 2 (gaussJordanRound 2 2 0 start) 0 0 = F64.finite false 1 0 ∧
      procEntry 2 2 (gaussJordanRound 2 2 0 start) 0 (2 + 0) = F64.finite false 5 1 ∧
      procEntry 2 2 (gaussJordanRound 2 2 0 start) 0 (2 + 1) = F64.finite false 0 0 ∧
      F64.toRat (F64.finite false 1 0) ≠
        F64.toRat (F64.finite false 5 1) * F64.toRat (F64.finite false 3602879701896397 (-55)) +
          F64.toRat (F64.finite false 0 0) *
            F64.toRat (F64.finite false 5404319552844595 (-54)) := by
  refine ⟨_, rfl, by decide, by decide, by decide, by decide, by decide, by decide, by decide,
    by decide, by decide, by decide, ?_⟩
  simp only [F64.toRat]
  norm_num

/-- C16 in exact arithmetic.  In an exact arithmetic (a commutative ring in which the
division by a nonzero value `p` is the multiplication by one value, the inverse of `p`
in a field such as the rationals), on `w ≥ 1` ranks, reading the rows the ranks own as one matrix `[L | R]` of
`n` rows and `2 * n` columns: at the start of round 0 of `main`, `L = R * A` for the
input matrix `A`; and a round `c < n` with a nonzero pivot, from any state of the ranks
with `L = R * A`, ends in a state with `L = R * A`. -/
theorem exact_rounds_keep_left_eq_right_mul_input {α : Type} [CommRing α] [Div α]
    (hdiv : ∀ p : α, p ≠ 0 → ∃ i : α, ∀ x : α, x / p = x * i)
    (n w c : Nat) (cin : List α) (A : Nat → Nat → α)
    (world : List (ProcState α)) (hw : 1 ≤ w) (hc : c < n) (hshape : ProcShape n w world)
    (hrel : ∀ g j, g < n → j < n → procEntry n w world g j =
      ∑ m in Finset.range n, procEntry n w world g (n + m) * A m j)
    (hp : procEntry n w world c c ≠ 0) :
    (∃ start, stateAtRound n w cin 0 = some start ∧
      ∀ g j, g < n → j < n → procEntry n w start g j =
        ∑ m in Finset.range n, procEntry n w start g (n + m) * cin.getD (m * n + j) 0) ∧
    (∀ g j, g < n → j < n → procEntry n w (gaussJordanRound n w c world) g j =
      ∑ m in Finset.range n, procEntry n w (gaussJordanRound n w c world) g (n + m) * A m j) := by
  constructor
  · obtain ⟨start, e, _, hent⟩ := stateAtRound_spec n w hw cin 0 (Nat.zero_le n)
    refine ⟨start, e, ?_⟩
    intro g j hg hj
    rw [hent g j hg (by omega)]
    show inputMatrix n cin g j = _
    rw [inputMatrix_relation n cin g j hg hj]
    apply Finset.sum_congr rfl
    intro m hm
    have hm2 := Finset.mem_range.mp hm
    rw [hent g (n + m) hg (by omega)]
    show _ = inputMatrix n cin g (n + m) * _
    congr 1
    unfold inputMatrix
    rw [if_pos ⟨hm2, hj⟩]
  · obtain ⟨_, hround⟩ := gaussJordanRound_spec n w c hw hc world hshape
    obtain ⟨i, hi⟩ := hdiv (procEntry n w world c c) hp
    intro g j hg hj
    rw [hround g j hg (by omega),
      pivotStep_relation_of_inverse n c A (procEntry n w world) i hi hrel hc g j hg hj]
    apply Finset.sum_congr rfl
    intro m hm
    have hm2 := Finset.mem_range.mp hm
    rw [hround g (n + m) hg (by omega)]

theorem exact_rounds_keep_left_eq_right_mul_input_witness :
    (∀ p : ℚ, p ≠ 0 → ∃ i : ℚ, ∀ x : ℚ, x / p = x * i) ∧
    1 ≤ 2 ∧ 0 < 2 ∧
    ProcShape 2 2 ([⟨[[2, 1, 1, 0], [1, 1, 0, 1]], [0, 0, 0, 0]⟩,
      ⟨[[1, 1, 0, 1]], [0, 0, 0, 0]⟩] : List (ProcState ℚ)) ∧
    (∀ g j, g < 2 → j < 2 →
      procEntry 2 2 ([⟨[[2, 1, 1, 0], [1, 1, 0, 1]], [0, 0, 0, 0]⟩,
        ⟨[[1, 1, 0, 1]], [0, 0, 0, 0]⟩] : List (ProcState ℚ)) g j =
      ∑ m in Finset.range 2,
        procEntry 2 2 ([⟨[[2, 1, 1, 0], [1, 1, 0, 1]], [0, 0, 0, 0]⟩,
          ⟨[[1, 1, 0, 1]], [0, 0, 0, 0]⟩] : List (ProcState ℚ)) g (2 + m) *
          ([2, 1, 1, 1] : List ℚ).getD (m * 2 + j) 0) ∧
    procEntry 2 2 ([⟨[[2, 1, 1, 0], [1, 1, 0, 1]], [0, 0, 0, 0]⟩,
      ⟨[[1, 1, 0, 1]], [0, 0, 0, 0]⟩] : List (ProcState ℚ)) 0 0 ≠ 0 ∧
    ((∃ start, stateAtRound 2 2 ([2, 1, 1, 1] : List ℚ) 0 = some start ∧
      ∀ g j, g < 2 → j < 2 → procEntry 2 2 start g j =
        ∑ m in Finset.range 2,
          procEntry 2 2 start g (2 + m) * ([2, 1, 1, 1] : List ℚ).getD (m * 2 + j) 0) ∧
    (∀ g j, g < 2 → j < 2 →
      procEntry 2 2 (gaussJordanRound 2 2 0 ([⟨[[2, 1, 1, 0], [1, 1, 0, 1]], [0, 0, 0, 0]⟩,
        ⟨[[1, 1, 0, 1]], [0, 0, 0, 0]⟩] : List (ProcState ℚ))) g j =
      ∑ m in Finset.range 2,
        procEntry 2 2 (gaussJordanRound 2 2 0 ([⟨[[2, 1, 1, 0], [1, 1, 0, 1]], [0, 0, 0, 0]⟩,
          ⟨[[1, 1, 0, 1]], [0, 0, 0, 0]⟩] : List (ProcState ℚ))) g (2 + m) *
          ([2, 1, 1, 1] : List ℚ).getD (m * 2 + j) 0)) := by
  have hdiv : ∀ p : ℚ, p ≠ 0 → ∃ i : ℚ, ∀ x : ℚ, x / p = x * i :=
    fun p _ => ⟨p⁻¹, fun x => div_eq_mul_inv x p⟩
  have hrel : ∀ g j, g < 2 → j < 2 →
      procEntry 2 2 ([⟨[[2, 1, 1, 0], [1, 1, 0, 1]], [0, 0, 0, 0]⟩,
        ⟨[[1, 1, 0, 1]], [0, 0, 0, 0]⟩] : List (ProcState ℚ)) g j =
      ∑ m in Finset.range 2,
        procEntry 2 2 ([⟨[[2, 1, 1, 0], [1, 1, 0, 1]], [0, 0, 0, 0]⟩,
          ⟨[[1, 1, 0, 1]], [0, 0, 0, 0]⟩] : List (ProcState ℚ)) g (2 + m) *
          ([2, 1, 1, 1] : List ℚ).getD (m * 2 + j) 0 := by
    intro g j hg hj
    interval_cases g <;> interval_cases j <;>
      simp [procEntry, readAt, findPivotOwner, findPivotOwnerLoop, rows_per_process,
        start_row, remainder, Finset.sum_range_succ]
  exact ⟨hdiv, by decide, by decide, by decide, hrel, by decide,
    exact_rounds_keep_left_eq_right_mul_input hdiv 2 2 0 [2, 1, 1, 1]
      (fun m j => ([2, 1, 1, 1] : List ℚ).getD (m * 2 + j) 0) _
      (by decide) (by decide) (by decide) hrel (by decide)⟩

/-! ## Cleared columns in IEEE 754 arithmetic -/

set_option maxRecDepth 100000 in
/-- C17 fails in binary64 arithmetic.  On two ranks, the input
`[[2 ^ (-600), 1], [2 ^ 600, 1]]` has the pivots `2 ^ (-600)` and `-inf` in rounds 0 and
1, neither of them zero, and after round 1 column 1 holds a NaN in both rows.  The input
`[[1, 2 ^ 600, 0], [0, 1, 0], [2 ^ 600, 0, 1]]` has the pivot `1.0` in rounds 0 and 1,
and after round 1 column 1 holds a NaN in row 2 and column 0, cleared by round 0, holds
a NaN in row 2 as well. -/
theorem nonzero_pivots_leave_nan_in_cleared_columns :
    (pivotValue 2 2 [F64.finite false 1 (-600), 1, F64.finite false 1 600, 1] 0 =
        some (F64.finite false 1 (-600)) ∧
      F64.finite false 1 (-600) ≠ 0 ∧ F64.isZero (F64.finite false 1 (-600)) = false ∧
      pivotValue 2 2 [F64.finite false 1 (-600), 1, F64.finite false 1 600, 1] 1 =
        some (F64.inf true) ∧
      F64.inf true ≠ 0 ∧ F64.isZero (F64.inf true) = false ∧
      ∃ after, stateAtRound 2 2 [F64.finite false 1 (-600), 1, F64.finite false 1 600, 1]
          (1 + 1) = some after ∧
        procEntry 2 2 after 1 1 = F64.nan ∧ procEntry 2 2 after 1 1 ≠ 1 ∧
        procEntry 2 2 after 0 1 = F64.nan ∧ procEntry 2 2 after 0 1 ≠ 0) ∧
    (pivotValue 3 2 [1, F64.finite false 1 600, 0, 0, 1, 0, F64.finite false 1 600, 0, 1] 0 =
        some 1 ∧
      pivotValue 3 2 [1, F64.finite false 1 600, 0, 0, 1, 0, F64.finite false 1 600, 0, 1] 1 =
        some 1 ∧
      (1 : F64) ≠ 0 ∧ F64.isZero 1 = false ∧ F64.isFinite 1 = true ∧
      ∃ before after,
        stateAtRound 3 2 [1, F64.finite false 1 600, 0, 0, 1, 0, F64.finite false 1 600, 0, 1]
          1 = some before ∧
        stateAtRound 3 2 [1, F64.finite false 1 600, 0, 0, 1, 0, F64.finite false 1 600, 0, 1]
          (1 + 1) = some after ∧
        procEntry 3 2 after 2 1 = F64.nan ∧ procEntry 3 2 after 2 1 ≠ 0 ∧
        procEntry 3 2 before 2 0 = 0 ∧
        procEntry 3 2 after 2 0 = F64.nan ∧
        procEntry 3 2 after 2 0 ≠ procEntry 3 2 before 2 0) :=
  ⟨⟨by decide, by decide, by decide, by decide, by decide, by decide, _, rfl, by decide⟩,
    ⟨by decide, by decide, by decide, by decide, by decide, _, _, rfl, rfl, by decide⟩⟩

/-- C17 for finite values.  On `w ≥ 1` ranks, in an arithmetic with the laws of IEEE 754
on finite values: when in each of the rounds `k = 0, ..., c` of `main` the pivot is not
a zero and every entry of column `k`, the pivot included, is finite at the start of the
round, then after round `c` column `k` of the left half of the matrix the ranks hold
together is the unit vector `e_k` for every `k ≤ c` (1 in row `k`, a zero `+0` or `-0`
in the other rows), and the columns `k < c` are such unit vectors before round `c` as
well as after it. -/
theorem finite_cleared_columns_stay_cleared {α : Type} [Zero α] [One α] [Sub α] [Mul α]
    [Div α] (isZero nonFinite : α → Prop) (laws : FiniteArith α isZero nonFinite)
    (n w c : Nat) (cin : List α) (hw : 1 ≤ w) (hc : c < n)
    (hp : ∀ k, k ≤ c → ∃ world, stateAtRound n w cin k = some world ∧
      ¬ isZero (procEntry n w world k k) ∧
      ∀ g, g < n → ¬ nonFinite (procEntry n w world g k)) :
    ∃ before after, stateAtRound n w cin c = some before ∧
      stateAtRound n w cin (c + 1) = some after ∧
      (∀ k g, k ≤ c → g < n →
        if g = k then procEntry n w after g k = 1 else isZero (procEntry n w after g k)) ∧
      (∀ k g, k < c → g < n →
        if g = k then procEntry n w before g k = 1 ∧ procEntry n w after g k = 1
        else isZero (procEntry n w before g k) ∧ isZero (procEntry n w after g k)) := by
  have hreg : ∀ i, i < c + 1 → ¬ isZero (pivotSteps i (inputMatrix n cin) i i) ∧
      ∀ g, g < n → ¬ nonFinite (pivotSteps i (inputMatrix n cin) g i) := by
    intro i hi
    obtain ⟨world, e, hz, hf⟩ := hp i (by omega)
    obtain ⟨world2, e2, _, hent⟩ := stateAtRound_spec n w hw cin i (by omega)
    rw [e] at e2
    cases e2
    refine ⟨?_, ?_⟩
    · rw [← hent i i (by omega) (by omega)]
      exact hz
    · intro g hg
      rw [← hent g i hg (by omega)]
      exact hf g hg
  obtain ⟨before, e1, _, hent1⟩ := stateAtRound_spec n w hw cin c (Nat.le_of_lt hc)
  obtain ⟨after, e2, _, hent2⟩ := stateAtRound_spec n w hw cin (c + 1) hc
  have hcol2 := pivotSteps_unit_columns isZero nonFinite laws n (inputMatrix n cin) (c + 1) hc
    hreg
  have hcol1 := pivotSteps_unit_columns isZero nonFinite laws n (inputMatrix n cin) c
    (Nat.le_of_lt hc) (fun i hi => hreg i (by omega))
  refine ⟨before, after, e1, e2, ?_, ?_⟩
  · intro k g hk hg
    rw [hent2 g k hg (by omega)]
    exact hcol2 k g (by omega) hg
  · intro k g hk hg
    rw [hent2 g k hg (by omega), hent1 g k hg (by omega)]
    have a := hcol1 k g hk hg
    have b := hcol2 k g (by omega) hg
    by_cases hgk : g = k
    · rw [if_pos hgk] at a b ⊢
      exact ⟨a, b⟩
    · rw [if_neg hgk] at a b ⊢
      exact ⟨a, b⟩

set_option maxRecDepth 100000 in
theorem finite_cleared_columns_stay_cleared_witness :
    1 ≤ 2 ∧ 1 < 2 ∧
    (∀ k, k ≤ 1 → ∃ world, stateAtRound 2 2 [F64.finite false 3602879701896397 (-55),
        .finite false 3602879701896397 (-54), .finite false 5404319552844595 (-54),
        .finite false 3152519739159347 (-52)] k = some world ∧
      ¬ (F64.isZero (procEntry 2 2 world k k) = true) ∧
      ∀ g, g < 2 → ¬ (F64.isFinite (procEntry 2 2 world g k) = false)) ∧
    ∃ before after, stateAtRound 2 2 [F64.finite false 3602879701896397 (-55),
        .finite false 3602879701896397 (-54), .finite false 5404319552844595 (-54),
        .finite false 3152519739159347 (-52)] 1 = some before ∧
      stateAtRound 2 2 [F64.finite false 3602879701896397 (-55),
        .finite false 3602879701896397 (-54), .finite false 5404319552844595 (-54),
        .finite false 3152519739159347 (-52)] (1 + 1) = some after ∧
      (∀ k g, k ≤ 1 → g < 2 →
        if g = k then procEntry 2 2 after g k = 1
        else F64.isZero (procEntry 2 2 after g k) = true) ∧
      (∀ k g, k < 1 → g < 2 →
        if g = k then procEntry 2 2 before g k = 1 ∧ procEntry 2 2 after g k = 1
        else F64.isZero (procEntry 2 2 before g k) = true ∧
          F64.isZero (procEntry 2 2 after g k) = true) := by
  have h : ∀ k, k ≤ 1 → ∃ world, stateAtRound 2 2 [F64.finite false 3602879701896397 (-55),
        .finite false 3602879701896397 (-54), .finite false 5404319552844595 (-54),
        .finite false 3152519739159347 (-52)] k = some world ∧
      ¬ (F64.isZero (procEntry 2 2 world k k) = true) ∧
      ∀ g, g < 2 → ¬ (F64.isFinite (procEntry 2 2 world g k) = false) := by
    intro k hk
    interval_cases k
    · exact ⟨_, rfl, by decide, by decide⟩
    · exact ⟨_, rfl, by decide, by decide⟩
  exact ⟨by decide, by decide, h,
    finite_cleared_columns_stay_cleared (fun x => F64.isZero x = true)
      (fun x => F64.isFinite x = false) F64.finiteArith 2 2 1 _ (by decide) (by decide) h⟩

end MPIMatrixInverter
